import Mathlib

/-!
# Tic-tac-toe: board engine and decision engine

A shallow embedding of `tic-tac-toe/internal/game/game.go` and
`tic-tac-toe/internal/ai/ai.go`, followed by theorems about them.

Conventions of the embedding:

* a method with a pointer receiver that assigns to fields (`MakeMove`, `Reset`,
  `switchPlayer`, `checkGameStatus`) is a function returning the game after the call;
  `MakeMove` returns the pair of the Go `error` value (`none` for `nil`) and that game;
* Go `int` rows, columns and scores are `Int`; the search depth, which only counts
  down from 4 or 10 to 0, is a `Nat`; `minimax64` is `minimax` in Go's 64-bit `int`
  arithmetic, and the two agree for every depth up to `9223372036854775797`
  (`minimax64_eq_minimax`);
* the fixed-size array `[3]T` is `Arr3 T`, indexed by `Fin 3`;
* the draws of `randomSource` are inputs (`Draws`).
-/

namespace game

/-- The Go string type `Player`, restricted to its three declared constants
`PlayerX = "X"`, `PlayerO = "O"`, `Empty = " "`. -/
inductive Player where
  | PlayerX
  | PlayerO
  | Empty
  deriving DecidableEq, Repr

export Player (PlayerX PlayerO Empty)

/-- The Go type `GameMode`. -/
inductive GameMode where
  | PlayerVsPlayer
  | PlayerVsAI
  deriving DecidableEq, Repr

export GameMode (PlayerVsPlayer PlayerVsAI)

/-- The Go type `GameStatus`. -/
inductive GameStatus where
  | StatusPlaying
  | StatusWon
  | StatusDraw
  deriving DecidableEq, Repr

export GameStatus (StatusPlaying StatusWon StatusDraw)

/-- The Go struct `Position`. -/
structure Position where
  Row : Int
  Col : Int
  deriving DecidableEq, Repr

/-- A Go array `[3]T`. -/
structure Arr3 (α : Type) where
  a0 : α
  a1 : α
  a2 : α
  deriving DecidableEq, Repr

/-- Array read `a[i]`. -/
def Arr3.get {α : Type} (a : Arr3 α) : Fin 3 → α
  | 0 => a.a0
  | 1 => a.a1
  | 2 => a.a2

/-- Array write `a[i] = v`. -/
def Arr3.set {α : Type} (a : Arr3 α) (i : Fin 3) (v : α) : Arr3 α :=
  match i with
  | 0 => { a with a0 := v }
  | 1 => { a with a1 := v }
  | 2 => { a with a2 := v }

/-- The Go type `[3][3]Player`. -/
abbrev Board := Arr3 (Arr3 Player)

/-- Read of `board[row][col]`. -/
def Board.cell (b : Board) (row col : Fin 3) : Player := (b.get row).get col

/-- Write `board[row][col] = p`. -/
def Board.setCell (b : Board) (row col : Fin 3) (p : Player) : Board :=
  b.set row ((b.get row).set col p)

/-- The Go struct `Game`. -/
structure Game where
  Board : Board
  CurrentPlayer : Player
  Status : GameStatus
  Winner : Player
  Mode : GameMode
  MoveHistory : List Position
  deriving DecidableEq, Repr

/-- The errors `MakeMove` builds with `fmt.Errorf`, one constructor per message. -/
inductive MoveError where
  | notPlaying
  | invalidPosition (row col : Int)
  | occupied (row col : Int)
  deriving DecidableEq, Repr

/-- The three values of a loop `for i := 0; i < 3; i++`. -/
def idx3 : List (Fin 3) := [0, 1, 2]

/-- The array index of a Go `int` already checked to lie in `[0,2]`. -/
def toIdx (n : Int) : Fin 3 :=
  if n = 0 then 0 else if n = 1 then 1 else 2

/-- `New`: the empty board, `PlayerX` to move. -/
def New : Game :=
  { Board := ⟨⟨Empty, Empty, Empty⟩, ⟨Empty, Empty, Empty⟩, ⟨Empty, Empty, Empty⟩⟩
    CurrentPlayer := PlayerX
    Status := StatusPlaying
    Winner := Empty
    Mode := PlayerVsPlayer
    MoveHistory := [] }

/-- `switchPlayer`. -/
def switchPlayer (g : Game) : Game :=
  if g.CurrentPlayer = PlayerX then { g with CurrentPlayer := PlayerO }
  else { g with CurrentPlayer := PlayerX }

/-- `checkWinner`: rows, then columns, then the two diagonals. -/
def checkWinner (g : Game) : Player :=
  match idx3.find? (fun row =>
      decide (g.Board.cell row 0 ≠ Empty) &&
      decide (g.Board.cell row 0 = g.Board.cell row 1) &&
      decide (g.Board.cell row 1 = g.Board.cell row 2)) with
  | some row => g.Board.cell row 0
  | none =>
    match idx3.find? (fun col =>
        decide (g.Board.cell 0 col ≠ Empty) &&
        decide (g.Board.cell 0 col = g.Board.cell 1 col) &&
        decide (g.Board.cell 1 col = g.Board.cell 2 col)) with
    | some col => g.Board.cell 0 col
    | none =>
      if g.Board.cell 0 0 ≠ Empty ∧ g.Board.cell 0 0 = g.Board.cell 1 1 ∧
          g.Board.cell 1 1 = g.Board.cell 2 2 then g.Board.cell 0 0
      else if g.Board.cell 0 2 ≠ Empty ∧ g.Board.cell 0 2 = g.Board.cell 1 1 ∧
          g.Board.cell 1 1 = g.Board.cell 2 0 then g.Board.cell 0 2
      else Empty

/-- `isBoardFull`. -/
def isBoardFull (g : Game) : Bool :=
  idx3.all (fun row => idx3.all (fun col => decide (g.Board.cell row col ≠ Empty)))

/-- `checkGameStatus`. -/
def checkGameStatus (g : Game) : Game :=
  if checkWinner g ≠ Empty then { g with Status := StatusWon, Winner := checkWinner g }
  else if isBoardFull g then { g with Status := StatusDraw }
  else g

/-- `MakeMove`: the returned error (`none` is Go's `nil`) and the game after the call. -/
def MakeMove (g : Game) (row col : Int) : Option MoveError × Game :=
  if g.Status ≠ StatusPlaying then (some .notPlaying, g)
  else if row < 0 ∨ row > 2 ∨ col < 0 ∨ col > 2 then (some (.invalidPosition row col), g)
  else if g.Board.cell (toIdx row) (toIdx col) ≠ Empty then (some (.occupied row col), g)
  else
    let g1 : Game := { g with Board := g.Board.setCell (toIdx row) (toIdx col) g.CurrentPlayer }
    let g2 : Game := { g1 with MoveHistory := g1.MoveHistory ++ [⟨row, col⟩] }
    let g3 := checkGameStatus g2
    if g3.Status = StatusPlaying then (none, switchPlayer g3) else (none, g3)

/-- `Reset`. -/
def Reset (g : Game) : Game :=
  { g with
    Board := ⟨⟨Empty, Empty, Empty⟩, ⟨Empty, Empty, Empty⟩, ⟨Empty, Empty, Empty⟩⟩
    CurrentPlayer := PlayerX
    Status := StatusPlaying
    Winner := Empty
    MoveHistory := [] }

/-- `GetAvailableMoves`: the empty cells in row-major order. -/
def GetAvailableMoves (g : Game) : List Position :=
  idx3.flatMap (fun row =>
    (idx3.filter (fun col => decide (g.Board.cell row col = Empty))).map
      (fun col => ⟨(row.val : Int), (col.val : Int)⟩))

/-- `IsValidMove`. -/
def IsValidMove (g : Game) (row col : Int) : Bool :=
  if row < 0 ∨ row > 2 ∨ col < 0 ∨ col > 2 then false
  else decide (g.Board.cell (toIdx row) (toIdx col) = Empty) && decide (g.Status = StatusPlaying)

end game

namespace ai

open game

/-- The Go type `Difficulty`, an `int`: the four declared levels are `0` to `3`, and
`GetMove` treats every other value like `Easy` (its `default:` case). -/
abbrev Difficulty := Int

/-- `Easy Difficulty = iota`. -/
def Easy : Difficulty := 0

/-- The level after `Easy`. -/
def Normal : Difficulty := 1

/-- The level after `Normal`. -/
def Hard : Difficulty := 2

/-- The level after `Hard`. -/
def INeverLose : Difficulty := 3

/-- The Go struct `AI`, without `randomSource`, whose draws are passed as `Draws`. -/
structure AI where
  difficulty : Difficulty
  player : Player
  opponent : Player
  deriving DecidableEq, Repr

/-- What one call of `GetMove` draws from `randomSource`: whether
`Float32() < 0.2` held, and a number `intn` of which `Intn(n)` is `intn % n`. -/
structure Draws where
  smart : Bool
  intn : Nat
  deriving DecidableEq, Repr

/-- `New` of package `ai`. -/
def New (difficulty : Difficulty) (player : Player) : AI :=
  { difficulty := difficulty
    player := player
    opponent := if player = PlayerX then PlayerO else PlayerX }

/-- `min` of package `ai`. -/
def min (a b : Int) : Int := if a < b then a else b

/-- `max` of package `ai`. -/
def max (a b : Int) : Int := if a > b then a else b

/-- `copyGame`: a fresh `game.New()` that takes over every field but `MoveHistory`. -/
def copyGame (g : Game) : Game :=
  { game.New with
    Board := g.Board
    CurrentPlayer := g.CurrentPlayer
    Status := g.Status
    Winner := g.Winner
    Mode := g.Mode }

/-- One inner loop of `findWinningMove` over the three cells of a line: the number of
cells holding `player` and the loop index of the last `Empty` cell seen (`-1` if none). -/
def scanLine (board : Board) (player : Player) (cellAt : Fin 3 → Fin 3 × Fin 3) : Int × Int :=
  idx3.foldl (fun (st : Int × Int) i =>
    if board.cell (cellAt i).1 (cellAt i).2 = player then (st.1 + 1, st.2)
    else if board.cell (cellAt i).1 (cellAt i).2 = Player.Empty then (st.1, (i.val : Int))
    else st) (0, -1)

/-- `findWinningMove`: rows, then columns, then the main and the anti-diagonal. -/
def findWinningMove (g : Game) (player : Player) : Int × Int :=
  let board := g.Board
  let rowHit := fun (row : Fin 3) =>
    decide ((scanLine board player (fun col => (row, col))).1 = 2) &&
    decide ((scanLine board player (fun col => (row, col))).2 ≠ -1)
  match idx3.find? rowHit with
  | some row => ((row.val : Int), (scanLine board player (fun col => (row, col))).2)
  | none =>
    let colHit := fun (col : Fin 3) =>
      decide ((scanLine board player (fun row => (row, col))).1 = 2) &&
      decide ((scanLine board player (fun row => (row, col))).2 ≠ -1)
    match idx3.find? colHit with
    | some col => ((scanLine board player (fun row => (row, col))).2, (col.val : Int))
    | none =>
      let d1 := scanLine board player (fun i => (i, i))
      if d1.1 = 2 ∧ d1.2 ≠ -1 then (d1.2, d1.2)
      else
        let d2 := scanLine board player (fun i => (i, 2 - i))
        if d2.1 = 2 ∧ d2.2 ≠ -1 then (d2.2, 2 - d2.2)
        else (-1, -1)

/-- `minimax`; `depth` is the remaining search depth. -/
def minimax (a : AI) (g : Game) : Nat → Bool → Int
  | depth, isMaximizing =>
    if g.Status = StatusWon then
      if g.Winner = a.player then 10 + (depth : Int) else -10 - (depth : Int)
    else if g.Status = StatusDraw then 0
    else
      match depth with
      | 0 => 0
      | d + 1 =>
        if isMaximizing then
          (GetAvailableMoves g).foldl (fun maxScore move =>
            max maxScore (minimax a (MakeMove (copyGame g) move.Row move.Col).2 d false))
            (-1000)
        else
          (GetAvailableMoves g).foldl (fun minScore move =>
            min minScore (minimax a (MakeMove (copyGame g) move.Row move.Col).2 d true))
            1000

/-- What `GetMove` returns: row, column and the Go `error` (`none` is `nil`). -/
abbrev Move := Int × Int × Option MoveError

/-- The read `availableMoves[ai.randomSource.Intn(len(availableMoves))]`; `Intn` panics
on length 0, which the guard at the head of `GetMove` rules out, hence `h`. -/
def randomMove (rnd : Draws) (availableMoves : List Position) (h : availableMoves ≠ []) :
    Position :=
  availableMoves.get ⟨rnd.intn % availableMoves.length,
    Nat.mod_lt _ (List.length_pos.mpr h)⟩

/-- `getEasyMove`. The second component is the game `g` points to after the call. -/
def getEasyMove (a : AI) (rnd : Draws) (g : Game) (availableMoves : List Position)
    (h : availableMoves ≠ []) : Move × Game :=
  if rnd.smart ∧ (findWinningMove g a.player).1 ≠ -1 then
    (((findWinningMove g a.player).1, (findWinningMove g a.player).2, none), g)
  else if rnd.smart ∧ (findWinningMove g a.opponent).1 ≠ -1 then
    (((findWinningMove g a.opponent).1, (findWinningMove g a.opponent).2, none), g)
  else
    (((randomMove rnd availableMoves h).Row, (randomMove rnd availableMoves h).Col, none), g)

/-- The corner scan order of `getNormalMove`. -/
def corners : List Position := [⟨0, 0⟩, ⟨0, 2⟩, ⟨2, 0⟩, ⟨2, 2⟩]

/-- `getNormalMove`. The second component is the game `g` points to after the call. -/
def getNormalMove (a : AI) (rnd : Draws) (g : Game) (availableMoves : List Position)
    (h : availableMoves ≠ []) : Move × Game :=
  if (findWinningMove g a.player).1 ≠ -1 then
    (((findWinningMove g a.player).1, (findWinningMove g a.player).2, none), g)
  else if (findWinningMove g a.opponent).1 ≠ -1 then
    (((findWinningMove g a.opponent).1, (findWinningMove g a.opponent).2, none), g)
  else if IsValidMove g 1 1 then ((1, 1, none), g)
  else
    match corners.find? (fun corner => IsValidMove g corner.Row corner.Col) with
    | some corner => ((corner.Row, corner.Col, none), g)
    | none =>
      (((randomMove rnd availableMoves h).Row, (randomMove rnd availableMoves h).Col, none), g)

/-- The candidate loop shared, up to the depth, by `getHardMove` (depth 4) and
`getPerfectMove` (depth 10). The loop state is the game `g` points to, `bestMove` and
`bestScore`; every candidate is played on `testGame`, a `copyGame` of `g`. -/
def bestMoveLoop (a : AI) (depth : Nat) (g : Game) (availableMoves : List Position) :
    Game × Position × Int :=
  availableMoves.foldl (fun (st : Game × Position × Int) move =>
    let testGame := copyGame st.1
    let testGame := (MakeMove testGame move.Row move.Col).2
    let score := minimax a testGame depth false
    if score > st.2.2 then (st.1, move, score) else st) (g, ⟨-1, -1⟩, -1000)

/-- `getHardMove`. The second component is the game `g` points to after the call. -/
def getHardMove (a : AI) (rnd : Draws) (g : Game) (availableMoves : List Position)
    (h : availableMoves ≠ []) : Move × Game :=
  let st := bestMoveLoop a 4 g availableMoves
  if st.2.1.Row = -1 then getNormalMove a rnd st.1 availableMoves h
  else ((st.2.1.Row, st.2.1.Col, none), st.1)

/-- `getPerfectMove`. The second component is the game `g` points to after the call. -/
def getPerfectMove (a : AI) (rnd : Draws) (g : Game) (availableMoves : List Position)
    (h : availableMoves ≠ []) : Move × Game :=
  let st := bestMoveLoop a 10 g availableMoves
  if st.2.1.Row = -1 then getHardMove a rnd st.1 availableMoves h
  else ((st.2.1.Row, st.2.1.Col, none), st.1)

/-- `GetMove`. The second component is the game `g` points to after the call. -/
def GetMove (a : AI) (rnd : Draws) (g : Game) : Move × Game :=
  if h : GetAvailableMoves g = [] then ((-1, -1, none), g)
  else if a.difficulty = Easy then getEasyMove a rnd g (GetAvailableMoves g) h
  else if a.difficulty = Normal then getNormalMove a rnd g (GetAvailableMoves g) h
  else if a.difficulty = Hard then getHardMove a rnd g (GetAvailableMoves g) h
  else if a.difficulty = INeverLose then getPerfectMove a rnd g (GetAvailableMoves g) h
  else getEasyMove a rnd g (GetAvailableMoves g) h

end ai

/-! ## Notions used to state the properties -/

namespace game

/-- The eight lines of the board: three rows, three columns, two diagonals. -/
def lines : List (List (Fin 3 × Fin 3)) :=
  [[(0, 0), (0, 1), (0, 2)], [(1, 0), (1, 1), (1, 2)], [(2, 0), (2, 1), (2, 2)],
   [(0, 0), (1, 0), (2, 0)], [(0, 1), (1, 1), (2, 1)], [(0, 2), (1, 2), (2, 2)],
   [(0, 0), (1, 1), (2, 2)], [(0, 2), (1, 1), (2, 0)]]

/-- Line `l` holds three times the non-`Empty` mark `p`. -/
def lineComplete (b : Board) (l : List (Fin 3 × Fin 3)) (p : Player) : Prop :=
  p ≠ Empty ∧ ∀ rc ∈ l, b.cell rc.1 rc.2 = p

/-- Some row, column or diagonal holds three identical non-`Empty` marks. -/
def hasLine (b : Board) : Prop := ∃ l ∈ lines, ∃ p, lineComplete b l p

/-- No cell of the board is `Empty`. -/
def noEmptyCell (b : Board) : Prop := ∀ r c : Fin 3, b.cell r c ≠ Empty

/-- The game states reached from `New()` by a sequence of `MakeMove` calls, accepted or
rejected. -/
inductive Reachable : Game → Prop
  | init : Reachable New
  | move (g : Game) (row col : Int) : Reachable g → Reachable (MakeMove g row col).2

end game

namespace game

/-- The game after the calls `MakeMove(m.Row, m.Col)` for `m` in `moves`, in order. -/
def applyMoves (g : Game) (moves : List Position) : Game :=
  moves.foldl (fun g m => (MakeMove g m.Row m.Col).2) g

/-- Every move of `moves`, played in order from `g`, is accepted and leaves the game
`StatusPlaying`. -/
def acceptedInProgress : Game → List Position → Prop
  | _, [] => True
  | g, m :: ms =>
    (MakeMove g m.Row m.Col).1 = none ∧ (MakeMove g m.Row m.Col).2.Status = StatusPlaying ∧
      acceptedInProgress (MakeMove g m.Row m.Col).2 ms

end game

namespace ai

open game

/-- The eight lines in the scan order of `findWinningMove`, each as the map from the loop
index to the cell visited. -/
def lineFns : List (Fin 3 → Fin 3 × Fin 3) :=
  [fun col => (0, col), fun col => (1, col), fun col => (2, col),
   fun row => (row, 0), fun row => (row, 1), fun row => (row, 2),
   fun i => (i, i), fun i => (i, 2 - i)]

/-- The cell one line contributes to `findWinningMove`: its `Empty` cell when the other
two cells hold `player`. -/
def hitCell (board : Board) (player : Player) (cellAt : Fin 3 → Fin 3 × Fin 3) :
    Option (Fin 3 × Fin 3) :=
  if (scanLine board player cellAt).1 = 2 ∧ (scanLine board player cellAt).2 ≠ -1 then
    some (cellAt (toIdx (scanLine board player cellAt).2))
  else none

/-- Filling the `Empty` cell `(r, c)` with the mark `p` completes a line of three `p`. -/
def winsAt (b : Board) (p : Player) (r c : Fin 3) : Prop :=
  b.cell r c = Player.Empty ∧ p ≠ Player.Empty ∧
    ∃ l ∈ lines, (r, c) ∈ l ∧ ∀ rc ∈ l, rc ≠ (r, c) → b.cell rc.1 rc.2 = p

end ai

namespace ai

open game

/-- The score the candidate loop of `getHardMove` and `getPerfectMove` gives to `move`:
`minimax` on a copy of `g` on which `move` has been played. -/
def moveScore (a : AI) (depth : Nat) (g : Game) (move : Position) : Int :=
  minimax a (MakeMove (copyGame g) move.Row move.Col).2 depth false

/-- What the candidate loop over `l`, started with `bestMove = bm` and `bestScore = bs`,
ends with: `g` untouched, and either the start values (no score exceeded `bs`) or a move
of `l` with its score, a maximal one and above `bs`. -/
def BestOf (a : AI) (depth : Nat) (g : Game) (l : List Position) (bm : Position) (bs : Int)
    (st : Game × Position × Int) : Prop :=
  st.1 = g ∧
  ((st.2 = (bm, bs) ∧ ∀ m ∈ l, moveScore a depth g m ≤ bs) ∨
   (st.2.1 ∈ l ∧ st.2.2 = moveScore a depth g st.2.1 ∧ bs < st.2.2 ∧
      ∀ m ∈ l, moveScore a depth g m ≤ st.2.2))

end ai

namespace ai

open game

/-- What every tier returns: the game `g` points to is untouched, the error is `nil`, and,
when `g` is `StatusPlaying` and the candidates are available moves of `g`, the position
passes `IsValidMove`. -/
def TierOk (g : Game) (availableMoves : List Position) (res : Move × Game) : Prop :=
  res.2 = g ∧ res.1.2.2 = none ∧
  (g.Status = StatusPlaying → (∀ m ∈ availableMoves, m ∈ GetAvailableMoves g) →
    IsValidMove g res.1.1 res.1.2.1 = true)

end ai

namespace ai

open game

/-- Whether `minimax`, run for the engine mark `p`, scores `g` at least `0`: as far as
`depth` plies show, the position is not lost for `p`. -/
def safe (p : Player) (g : Game) : Nat → Bool → Bool
  | depth, isMaximizing =>
    if g.Status = StatusWon then decide (g.Winner = p)
    else if g.Status = StatusDraw then true
    else
      match depth with
      | 0 => true
      | d + 1 =>
        if isMaximizing then
          (GetAvailableMoves g).any (fun move =>
            safe p (MakeMove (copyGame g) move.Row move.Col).2 d false)
        else
          (GetAvailableMoves g).all (fun move =>
            safe p (MakeMove (copyGame g) move.Row move.Col).2 d true)

/-- The number of `Empty` cells of a board. -/
def emptyCount (b : Board) : Nat :=
  (if b.cell 0 0 = Player.Empty then 1 else 0) + (if b.cell 0 1 = Player.Empty then 1 else 0) +
  (if b.cell 0 2 = Player.Empty then 1 else 0) + (if b.cell 1 0 = Player.Empty then 1 else 0) +
  (if b.cell 1 1 = Player.Empty then 1 else 0) + (if b.cell 1 2 = Player.Empty then 1 else 0) +
  (if b.cell 2 0 = Player.Empty then 1 else 0) + (if b.cell 2 1 = Player.Empty then 1 else 0) +
  (if b.cell 2 2 = Player.Empty then 1 else 0)

/-- A game whose turn belongs to a mark and that is `StatusPlaying` only while a cell is
left: what `New` and every `MakeMove` produce. -/
def Wf (g : Game) : Prop :=
  g.CurrentPlayer ≠ Player.Empty ∧ (g.Status = StatusPlaying → isBoardFull g = false)

/-- A game in progress on board `b` with `cur` to move. -/
def boardGame (b : Board) (cur : Player) : Game :=
  { game.New with Board := b, CurrentPlayer := cur }

/-- Evaluate a mark before passing it on. -/
def forcePlayer {α : Type} (x : Player) (k : Player → α) : α :=
  match x with
  | Player.PlayerX => k Player.PlayerX
  | Player.PlayerO => k Player.PlayerO
  | Player.Empty => k Player.Empty

/-- Evaluate the three cells of a row before passing it on. -/
def forceRow {α : Type} (r : Arr3 Player) (k : Arr3 Player → α) : α :=
  forcePlayer r.a0 fun a => forcePlayer r.a1 fun b => forcePlayer r.a2 fun c => k ⟨a, b, c⟩

/-- Evaluate the nine cells of a board before passing it on. -/
def forceBoard {α : Type} (b : Board) (k : Board → α) : α :=
  forceRow b.a0 fun r0 => forceRow b.a1 fun r1 => forceRow b.a2 fun r2 => k ⟨r0, r1, r2⟩

/-- The nine cells in row-major order. -/
def allCells : List (Fin 3 × Fin 3) :=
  [(0, 0), (0, 1), (0, 2), (1, 0), (1, 1), (1, 2), (2, 0), (2, 1), (2, 2)]

/-- Three cells hold the same mark, `PlayerX` or `PlayerO`. -/
def sameMark : Player → Player → Player → Bool
  | Player.PlayerX, Player.PlayerX, Player.PlayerX => true
  | Player.PlayerO, Player.PlayerO, Player.PlayerO => true
  | _, _, _ => false

/-- A quick test for a complete line, used only to order the search. -/
def quickWon : Board → Bool
  | ⟨⟨a, b, c⟩, ⟨d, e, f⟩, ⟨x, y, z⟩⟩ =>
    sameMark a b c || sameMark d e f || sameMark x y z || sameMark a d x ||
      sameMark b e y || sameMark c f z || sameMark a e z || sameMark c e x

/-- The cells the search tries for the engine: an immediately winning cell if there is
one, else a cell that blocks an immediate win of the opponent if there is one, else every
cell, centre first, then corners, then edges. Any list would do for soundness. -/
def candidates (b : Board) (cur : Player) : List (Fin 3 × Fin 3) :=
  let legal := [((1 : Fin 3), (1 : Fin 3)), (0, 0), (0, 2), (2, 0), (2, 2), (0, 1), (1, 0),
    (1, 2), (2, 1)].filter (fun rc => decide (b.cell rc.1 rc.2 = Player.Empty))
  let wins := legal.filter (fun rc => quickWon (b.setCell rc.1 rc.2 cur))
  let blocks := legal.filter (fun rc =>
    quickWon (b.setCell rc.1 rc.2 (if cur = PlayerX then PlayerO else PlayerX)))
  if wins.isEmpty then (if blocks.isEmpty then legal else blocks.take 1) else wins.take 1

/-- A search certificate for `safe` on an in-progress position, given by its board `b`
and the mark `cur` to move: at the engine's turn it looks at the `candidates` only, at
the opponent's turn at every cell; every board is evaluated before it is searched. -/
def safeB (p : Player) (b : Board) (cur : Player) : Nat → Bool → Bool
  | 0, _ => true
  | d + 1, isMaximizing =>
    if isMaximizing then
      (candidates b cur).any (fun rc =>
        decide (b.cell rc.1 rc.2 = Player.Empty) &&
        forceBoard (b.setCell rc.1 rc.2 cur) fun b' =>
          if checkWinner (boardGame b' cur) ≠ Player.Empty then
            decide (checkWinner (boardGame b' cur) = p)
          else if isBoardFull (boardGame b' cur) then true
          else safeB p b' (if cur = PlayerX then PlayerO else PlayerX) d false)
    else
      allCells.all (fun rc =>
        !decide (b.cell rc.1 rc.2 = Player.Empty) ||
        forceBoard (b.setCell rc.1 rc.2 cur) fun b' =>
          if checkWinner (boardGame b' cur) ≠ Player.Empty then
            decide (checkWinner (boardGame b' cur) = p)
          else if isBoardFull (boardGame b' cur) then true
          else safeB p b' (if cur = PlayerX then PlayerO else PlayerX) d true)

/-- The games in which a given engine plays: from `New()`, while the game is in progress
the engine's turns are played by `MakeMove` on the result of `GetMove` (for any draws of
its randomness source) and the opponent's turns by any accepted `MakeMove`. -/
inductive Plays (a : AI) : Game → Prop
  | init : Plays a game.New
  | engine (g : Game) (rnd : Draws) : Plays a g → g.Status = StatusPlaying →
      g.CurrentPlayer = a.player →
      Plays a (MakeMove g (GetMove a rnd g).1.1 (GetMove a rnd g).1.2.1).2
  | opponent (g : Game) (row col : Int) : Plays a g → g.Status = StatusPlaying →
      g.CurrentPlayer ≠ a.player → (MakeMove g row col).1 = none →
      Plays a (MakeMove g row col).2

end ai

namespace game

/-- The position of a cell. -/
def posOf (rc : Fin 3 × Fin 3) : Position := ⟨(rc.1.val : Int), (rc.2.val : Int)⟩

/-- Row-major order on positions: an earlier row, or the same row and an earlier column. -/
def rowMajorLt (m m' : Position) : Prop :=
  m.Row < m'.Row ∨ (m.Row = m'.Row ∧ m.Col < m'.Col)

/-- The number of cells of a board that hold `q`. -/
def countMark (b : Board) (q : Player) : Nat :=
  ai.allCells.countP (fun rc => decide (b.cell rc.1 rc.2 = q))

/-- The number of marks on a board: the cells that are not `Empty`. -/
def markCount (b : Board) : Nat :=
  ai.allCells.countP (fun rc => decide (b.cell rc.1 rc.2 ≠ Empty))

end game

namespace game

/-- The game states reached from `New()` by a sequence of `MakeMove` (accepted or
rejected) and `Reset` calls. -/
inductive ReachableR : Game → Prop
  | init : ReachableR New
  | move (g : Game) (row col : Int) : ReachableR g → ReachableR (MakeMove g row col).2
  | reset (g : Game) : ReachableR g → ReachableR (Reset g)

end game

namespace ai

open game

/-- At search depth `depth`, `GetMove` returns the first available move of maximal score:
the available moves are `l1 ++ best :: l2`, in row-major order, `GetMove` returns `best`,
every move before it scores strictly less and every move after it at most as much; every
score exceeds the initial `-1000`, and the candidate loop ends with a `bestMove` whose
row is not `-1`, so that the fallback branch is not taken. -/
def PicksFirstBest (a : AI) (rnd : Draws) (g : Game) (depth : Nat) : Prop :=
  ∃ (l1 : List Position) (best : Position) (l2 : List Position),
    GetAvailableMoves g = l1 ++ best :: l2 ∧
    (GetAvailableMoves g).Pairwise rowMajorLt ∧
    (GetMove a rnd g).1 = (best.Row, best.Col, none) ∧
    (∀ m ∈ l1, moveScore a depth g m < moveScore a depth g best) ∧
    (∀ m ∈ l2, moveScore a depth g m ≤ moveScore a depth g best) ∧
    (∀ m ∈ GetAvailableMoves g, -1000 < moveScore a depth g m) ∧
    (bestMoveLoop a depth g (GetAvailableMoves g)).2.1.Row ≠ -1

end ai

namespace ai

open game

/-- The procedure of `minimax` with the rule `if depth == 0 { return 0 }` removed: an
unbounded search that scores a terminal position by the depth remaining when it is
reached. The remaining depth is an `Int`, since nothing stops it at `0`; the recursion is
on `fuel`, the number of plies still allowed, and the result is `none` when the fuel runs
out on a position that is not terminal. -/
def minimaxNoCutoff (a : AI) (g : Game) : Nat → Int → Bool → Option Int
  | fuel, depth, isMaximizing =>
    if g.Status = StatusWon then
      if g.Winner = a.player then some (10 + depth) else some (-10 - depth)
    else if g.Status = StatusDraw then some 0
    else
      match fuel with
      | 0 => none
      | f + 1 =>
        if isMaximizing then
          (GetAvailableMoves g).foldl (fun maxScore move =>
            match maxScore,
              minimaxNoCutoff a (MakeMove (copyGame g) move.Row move.Col).2 f (depth - 1)
                false with
            | some s, some v => some (max s v)
            | _, _ => none) (some (-1000))
        else
          (GetAvailableMoves g).foldl (fun minScore move =>
            match minScore,
              minimaxNoCutoff a (MakeMove (copyGame g) move.Row move.Col).2 f (depth - 1)
                true with
            | some s, some v => some (min s v)
            | _, _ => none) (some 1000)

end ai

namespace ai

open game

/-- The calls `minimax(g, d, m)` that a search of `GetMove` with depth budget `depth` on
the game `g0` makes: the candidate loop of `getHardMove` and `getPerfectMove` calls it
with `depth` and `false` on the copy of `g0` after each available move, and a call on a
playing position with depth left calls it, with one less and the flag negated, on the
copy of its position after each available move. -/
inductive SearchCall (depth : Nat) (g0 : Game) : Game → Nat → Bool → Prop
  | root (move : Position) : move ∈ GetAvailableMoves g0 →
      SearchCall depth g0 (MakeMove (copyGame g0) move.Row move.Col).2 depth false
  | step (g : Game) (d : Nat) (m : Bool) (move : Position) :
      SearchCall depth g0 g (d + 1) m → g.Status = StatusPlaying →
      move ∈ GetAvailableMoves g →
      SearchCall depth g0 (MakeMove (copyGame g) move.Row move.Col).2 d (!m)

end ai

namespace ai

open game

/-- A line qualifies for the mark `p`: exactly two of its cells hold `p` and exactly one
of its cells is `Empty`. -/
def qualifies (b : Board) (p : Player) (l : List (Fin 3 × Fin 3)) : Bool :=
  decide (l.countP (fun rc => decide (b.cell rc.1 rc.2 = p)) = 2) &&
  decide (l.countP (fun rc => decide (b.cell rc.1 rc.2 = Player.Empty)) = 1)

/-- The result the specification asks of `findWinningMove`: the position of the `Empty`
cell of the first qualifying line of `lines` (rows, columns, main diagonal,
anti-diagonal), and `(-1, -1)` when no line qualifies. -/
def firstQualifyingCell (b : Board) (p : Player) : Int × Int :=
  match lines.find? (qualifies b p) with
  | some l =>
    match l.find? (fun rc => decide (b.cell rc.1 rc.2 = Player.Empty)) with
    | some rc => ((rc.1.val : Int), (rc.2.val : Int))
    | none => (-1, -1)
  | none => (-1, -1)

end ai

namespace game

/-- The moves of `moves` that `MakeMove` accepts when they are played in order from `g`. -/
def acceptedMoves : Game → List Position → List Position
  | _, [] => []
  | g, m :: ms =>
    if (MakeMove g m.Row m.Col).1 = none then
      m :: acceptedMoves (MakeMove g m.Row m.Col).2 ms
    else acceptedMoves (MakeMove g m.Row m.Col).2 ms

end game

namespace ai

open game

/-- What C27 says of a search tier with depth budget `depth`: `GetMove` returns an
immediately winning cell of the engine, the first one in row-major order; the score of
that candidate is `10 + depth`, and every available move that does not win at once
scores strictly less. -/
def PicksFirstWin (a : AI) (rnd : Draws) (g : Game) (depth : Nat) : Prop :=
  ∃ r c : Fin 3,
    (GetMove a rnd g).1 = ((r.val : Int), (c.val : Int), none) ∧
    winsAt g.Board a.player r c ∧
    (∀ r2 c2 : Fin 3, winsAt g.Board a.player r2 c2 →
      (r2, c2) = (r, c) ∨ rowMajorLt (posOf (r, c)) (posOf (r2, c2))) ∧
    moveScore a depth g (posOf (r, c)) = 10 + (depth : Int) ∧
    ∀ r2 c2 : Fin 3, g.Board.cell r2 c2 = Player.Empty → ¬ winsAt g.Board a.player r2 c2 →
      moveScore a depth g (posOf (r2, c2)) < 10 + (depth : Int)

end ai

namespace game

/-- The test of `checkWinner` on one line: its cells hold three identical marks,
`PlayerX` or `PlayerO`. -/
def lineDone (b : Board) (l : List (Fin 3 × Fin 3)) : Bool :=
  l.all (fun rc => decide (b.cell rc.1 rc.2 = PlayerX)) ||
    l.all (fun rc => decide (b.cell rc.1 rc.2 = PlayerO))

/-- The winner found when the lines are scanned in the order `order`: the mark of the
first complete line, `Empty` when none is complete. -/
def winnerInOrder (order : List (List (Fin 3 × Fin 3))) (b : Board) : Player :=
  match order.find? (lineDone b) with
  | some (rc :: _) => b.cell rc.1 rc.2
  | _ => Empty

/-- The lines that are complete on `b2` and were not complete on `b`, in scan order. -/
def newlyCompleted (b b2 : Board) : List (List (Fin 3 × Fin 3)) :=
  lines.filter (fun l => lineDone b2 l && !lineDone b l)

end game

namespace ai

open game

/-- The value of a Go `int` expression on the 64-bit targets: the integer `n` reduced
into `[-2^63, 2^63)`, as two's-complement addition and subtraction do. -/
def wrap64 (n : Int) : Int :=
  (n + 9223372036854775808) % 18446744073709551616 - 9223372036854775808

/-- `minimax` with Go's 64-bit `int` arithmetic: `depth` is any `int`, and the results of
`10 + depth`, `-10 - depth` and `depth-1` wrap around. The recursion of the Go code ends
because every simulated move fills a cell; here `fuel` bounds the number of plies
searched below the call, and the result is `none` when it runs out. -/
def minimax64 (a : AI) (g : Game) : Nat → Int → Bool → Option Int
  | fuel, depth, isMaximizing =>
    if g.Status = StatusWon then
      if g.Winner = a.player then some (wrap64 (10 + depth)) else some (wrap64 (-10 - depth))
    else if g.Status = StatusDraw then some 0
    else if depth = 0 then some 0
    else
      match fuel with
      | 0 => none
      | f + 1 =>
        if isMaximizing then
          (GetAvailableMoves g).foldl (fun maxScore move =>
            match maxScore,
              minimax64 a (MakeMove (copyGame g) move.Row move.Col).2 f (wrap64 (depth - 1))
                false with
            | some s, some v => some (max s v)
            | _, _ => none) (some (-1000))
        else
          (GetAvailableMoves g).foldl (fun minScore move =>
            match minScore,
              minimax64 a (MakeMove (copyGame g) move.Row move.Col).2 f (wrap64 (depth - 1))
                true with
            | some s, some v => some (min s v)
            | _, _ => none) (some 1000)

end ai

/-! ## Theorems: the board engine -/

namespace game

theorem toIdx_val (i : Fin 3) : toIdx (i.val : Int) = i := by
  fin_cases i <;> rfl

theorem toIdx_cast (row : Int) (h0 : 0 ≤ row) (h2 : row ≤ 2) :
    ((toIdx row).val : Int) = row := by
  have : row = 0 ∨ row = 1 ∨ row = 2 := by omega
  rcases this with h | h | h <;> subst h <;> rfl

theorem cell_setCell_same (b : Board) (r c : Fin 3) (p : Player) :
    (b.setCell r c p).cell r c = p := by
  fin_cases r <;> fin_cases c <;> rfl

theorem cell_setCell_other (b : Board) (r c r' c' : Fin 3) (p : Player)
    (h : (r', c') ≠ (r, c)) : (b.setCell r c p).cell r' c' = b.cell r' c' := by
  fin_cases r <;> fin_cases c <;> fin_cases r' <;> fin_cases c' <;>
    first | rfl | (exact absurd rfl h)

theorem checkGameStatus_Board (g : Game) : (checkGameStatus g).Board = g.Board := by
  unfold checkGameStatus; split_ifs <;> rfl

theorem checkGameStatus_MoveHistory (g : Game) :
    (checkGameStatus g).MoveHistory = g.MoveHistory := by
  unfold checkGameStatus; split_ifs <;> rfl

theorem checkGameStatus_Mode (g : Game) : (checkGameStatus g).Mode = g.Mode := by
  unfold checkGameStatus; split_ifs <;> rfl

theorem checkGameStatus_CurrentPlayer (g : Game) :
    (checkGameStatus g).CurrentPlayer = g.CurrentPlayer := by
  unfold checkGameStatus; split_ifs <;> rfl

theorem switchPlayer_Board (g : Game) : (switchPlayer g).Board = g.Board := by
  unfold switchPlayer; split_ifs <;> rfl

theorem switchPlayer_MoveHistory (g : Game) :
    (switchPlayer g).MoveHistory = g.MoveHistory := by
  unfold switchPlayer; split_ifs <;> rfl

theorem switchPlayer_Mode (g : Game) : (switchPlayer g).Mode = g.Mode := by
  unfold switchPlayer; split_ifs <;> rfl

theorem switchPlayer_Status (g : Game) : (switchPlayer g).Status = g.Status := by
  unfold switchPlayer; split_ifs <;> rfl

theorem switchPlayer_Winner (g : Game) : (switchPlayer g).Winner = g.Winner := by
  unfold switchPlayer; split_ifs <;> rfl

/-- The error component of `MakeMove`, guard by guard. -/
theorem MakeMove_fst (g : Game) (row col : Int) :
    (MakeMove g row col).1 =
      if g.Status ≠ StatusPlaying then some MoveError.notPlaying
      else if row < 0 ∨ row > 2 ∨ col < 0 ∨ col > 2 then
        some (MoveError.invalidPosition row col)
      else if g.Board.cell (toIdx row) (toIdx col) ≠ Empty then
        some (MoveError.occupied row col)
      else none := by
  unfold MakeMove
  dsimp only
  split_ifs <;> rfl

theorem MakeMove_snd_of_error (g : Game) (row col : Int)
    (h : g.Status ≠ StatusPlaying ∨ (row < 0 ∨ row > 2 ∨ col < 0 ∨ col > 2) ∨
        g.Board.cell (toIdx row) (toIdx col) ≠ Empty) : (MakeMove g row col).2 = g := by
  unfold MakeMove
  dsimp only
  split_ifs <;> first | rfl | (exfalso; tauto)

/-- A rejected `MakeMove` returns the game it was given. -/
theorem MakeMove_snd_of_rejected (g : Game) (row col : Int)
    (h : (MakeMove g row col).1 ≠ none) : (MakeMove g row col).2 = g := by
  apply MakeMove_snd_of_error
  rw [MakeMove_fst] at h
  split_ifs at h with h1 h2 h3
  · exact Or.inl h1
  · exact Or.inr (Or.inl h2)
  · exact Or.inr (Or.inr h3)
  · exact absurd rfl h

/-- The game after an accepted `MakeMove`. -/
theorem MakeMove_snd_of_ok (g : Game) (row col : Int)
    (hs : g.Status = StatusPlaying) (hb : ¬ (row < 0 ∨ row > 2 ∨ col < 0 ∨ col > 2))
    (he : g.Board.cell (toIdx row) (toIdx col) = Empty) :
    (MakeMove g row col).2 =
      if (checkGameStatus { g with
            Board := g.Board.setCell (toIdx row) (toIdx col) g.CurrentPlayer
            MoveHistory := g.MoveHistory ++ [⟨row, col⟩] }).Status = StatusPlaying then
        switchPlayer (checkGameStatus { g with
            Board := g.Board.setCell (toIdx row) (toIdx col) g.CurrentPlayer
            MoveHistory := g.MoveHistory ++ [⟨row, col⟩] })
      else checkGameStatus { g with
            Board := g.Board.setCell (toIdx row) (toIdx col) g.CurrentPlayer
            MoveHistory := g.MoveHistory ++ [⟨row, col⟩] } := by
  unfold MakeMove
  dsimp only
  rw [if_neg (by simpa using hs), if_neg hb, if_neg (by simpa using he)]
  split_ifs <;> rfl

/-- `checkWinner` returns `Empty` when no line is complete, and otherwise the mark of a
complete line. -/
theorem checkWinner_spec (g : Game) :
    (checkWinner g = Empty ∧ ¬ hasLine g.Board) ∨
      ∃ l ∈ lines, lineComplete g.Board l (checkWinner g) := by
  obtain ⟨⟨⟨a, b, c⟩, ⟨d, e, f⟩, ⟨x, y, z⟩⟩, cp, st, w, m, hist⟩ := g
  simp only [checkWinner, hasLine, lines, lineComplete, idx3, Board.cell, Arr3.get,
    List.find?, List.mem_cons, List.mem_singleton, List.not_mem_nil, or_false,
    exists_eq_or_imp, exists_eq_left, forall_eq_or_imp, forall_eq]
  rcases Bool.eq_false_or_eq_true
      (decide (a ≠ Empty) && decide (a = b) && decide (b = c)) with h1 | h1
  · simp only [h1]
    simp only [Bool.and_eq_true, decide_eq_true_eq] at h1
    obtain ⟨⟨h, rfl⟩, rfl⟩ := h1
    simp [h]
  simp only [h1]
  simp only [Bool.and_eq_false_iff, decide_eq_false_iff_not] at h1
  rcases Bool.eq_false_or_eq_true
      (decide (d ≠ Empty) && decide (d = e) && decide (e = f)) with h2 | h2
  · simp only [h2]
    simp only [Bool.and_eq_true, decide_eq_true_eq] at h2
    obtain ⟨⟨h, rfl⟩, rfl⟩ := h2
    simp [h]
  simp only [h2]
  simp only [Bool.and_eq_false_iff, decide_eq_false_iff_not] at h2
  rcases Bool.eq_false_or_eq_true
      (decide (x ≠ Empty) && decide (x = y) && decide (y = z)) with h3 | h3
  · simp only [h3]
    simp only [Bool.and_eq_true, decide_eq_true_eq] at h3
    obtain ⟨⟨h, rfl⟩, rfl⟩ := h3
    simp [h]
  simp only [h3]
  simp only [Bool.and_eq_false_iff, decide_eq_false_iff_not] at h3
  rcases Bool.eq_false_or_eq_true
      (decide (a ≠ Empty) && decide (a = d) && decide (d = x)) with h4 | h4
  · simp only [h4]
    simp only [Bool.and_eq_true, decide_eq_true_eq] at h4
    obtain ⟨⟨h, rfl⟩, rfl⟩ := h4
    simp [h]
  simp only [h4]
  simp only [Bool.and_eq_false_iff, decide_eq_false_iff_not] at h4
  rcases Bool.eq_false_or_eq_true
      (decide (b ≠ Empty) && decide (b = e) && decide (e = y)) with h5 | h5
  · simp only [h5]
    simp only [Bool.and_eq_true, decide_eq_true_eq] at h5
    obtain ⟨⟨h, rfl⟩, rfl⟩ := h5
    simp [h]
  simp only [h5]
  simp only [Bool.and_eq_false_iff, decide_eq_false_iff_not] at h5
  rcases Bool.eq_false_or_eq_true
      (decide (c ≠ Empty) && decide (c = f) && decide (f = z)) with h6 | h6
  · simp only [h6]
    simp only [Bool.and_eq_true, decide_eq_true_eq] at h6
    obtain ⟨⟨h, rfl⟩, rfl⟩ := h6
    simp [h]
  simp only [h6]
  simp only [Bool.and_eq_false_iff, decide_eq_false_iff_not] at h6
  split_ifs with h7 h8
  · obtain ⟨h, rfl, rfl⟩ := h7
    simp [h]
  · obtain ⟨h, rfl, rfl⟩ := h8
    simp [h]
  · left
    refine ⟨rfl, ?_⟩
    rintro (⟨p, hp, rfl, rfl, rfl⟩ | ⟨p, hp, rfl, rfl, rfl⟩ | ⟨p, hp, rfl, rfl, rfl⟩ |
      ⟨p, hp, rfl, rfl, rfl⟩ | ⟨p, hp, rfl, rfl, rfl⟩ | ⟨p, hp, rfl, rfl, rfl⟩ |
      ⟨p, hp, rfl, rfl, rfl⟩ | ⟨p, hp, rfl, rfl, rfl⟩) <;> simp_all

theorem checkWinner_ne_Empty_iff (g : Game) : checkWinner g ≠ Empty ↔ hasLine g.Board := by
  rcases checkWinner_spec g with ⟨h1, h2⟩ | ⟨l, hl, h⟩
  · simp [h1, h2]
  · exact ⟨fun _ => ⟨l, hl, _, h⟩, fun _ => h.1⟩

theorem isBoardFull_iff (g : Game) : isBoardFull g = true ↔ noEmptyCell g.Board := by
  simp only [isBoardFull, noEmptyCell, idx3, List.all_cons, List.all_nil, Bool.and_true,
    Bool.and_eq_true, decide_eq_true_eq]
  constructor
  · rintro ⟨⟨h1, h2, h3⟩, ⟨h4, h5, h6⟩, h7, h8, h9⟩ r c
    fin_cases r <;> fin_cases c <;> assumption
  · intro h
    exact ⟨⟨h 0 0, h 0 1, h 0 2⟩, ⟨h 1 0, h 1 1, h 1 2⟩, h 2 0, h 2 1, h 2 2⟩

end game

namespace game

/-- C2: `MakeMove` returns an error exactly when the game is not `StatusPlaying`, or the
position is outside `[0,2]`, or the target cell is not `Empty`; the error reported is the
not-playing one exactly when the game is not `StatusPlaying`, the out-of-bounds one
exactly when the game is playing and the position is out of bounds, and the occupied one
exactly when the game is playing, the position in bounds and the cell not `Empty`. -/
theorem MakeMove_error_iff (g : Game) (row col : Int) :
    ((MakeMove g row col).1 ≠ none ↔
      (g.Status ≠ StatusPlaying ∨ (row < 0 ∨ row > 2 ∨ col < 0 ∨ col > 2) ∨
        (0 ≤ row ∧ row ≤ 2 ∧ 0 ≤ col ∧ col ≤ 2 ∧
          g.Board.cell (toIdx row) (toIdx col) ≠ Empty))) ∧
    ((MakeMove g row col).1 = some MoveError.notPlaying ↔ g.Status ≠ StatusPlaying) ∧
    ((MakeMove g row col).1 = some (MoveError.invalidPosition row col) ↔
      (g.Status = StatusPlaying ∧ (row < 0 ∨ row > 2 ∨ col < 0 ∨ col > 2))) ∧
    ((MakeMove g row col).1 = some (MoveError.occupied row col) ↔
      (g.Status = StatusPlaying ∧ (0 ≤ row ∧ row ≤ 2 ∧ 0 ≤ col ∧ col ≤ 2) ∧
        g.Board.cell (toIdx row) (toIdx col) ≠ Empty)) := by
  rw [MakeMove_fst]
  refine ⟨?_, ?_, ?_, ?_⟩ <;> split_ifs <;> simp_all
  all_goals omega

/-- C3: a `MakeMove` that returns an error leaves the game (board, current player, status,
winner, mode and move history) exactly as it was. -/
theorem MakeMove_error_unchanged (g : Game) (row col : Int)
    (h : (MakeMove g row col).1 ≠ none) :
    (MakeMove g row col).2.Board = g.Board ∧
    (MakeMove g row col).2.CurrentPlayer = g.CurrentPlayer ∧
    (MakeMove g row col).2.Status = g.Status ∧
    (MakeMove g row col).2.Winner = g.Winner ∧
    (MakeMove g row col).2.Mode = g.Mode ∧
    (MakeMove g row col).2.MoveHistory = g.MoveHistory := by
  rw [MakeMove_snd_of_rejected g row col h]
  exact ⟨rfl, rfl, rfl, rfl, rfl, rfl⟩

theorem MakeMove_error_unchanged_witness :
    (MakeMove New 3 0).1 ≠ none ∧
    ((MakeMove New 3 0).2.Board = New.Board ∧
      (MakeMove New 3 0).2.CurrentPlayer = New.CurrentPlayer ∧
      (MakeMove New 3 0).2.Status = New.Status ∧
      (MakeMove New 3 0).2.Winner = New.Winner ∧
      (MakeMove New 3 0).2.Mode = New.Mode ∧
      (MakeMove New 3 0).2.MoveHistory = New.MoveHistory) :=
  ⟨by decide, MakeMove_error_unchanged New 3 0 (by decide)⟩

/-- C4: on an in-progress game, `MakeMove` on an in-bounds empty cell succeeds, writes the
previous `CurrentPlayer` into that cell, leaves every other cell unchanged, appends the
position to `MoveHistory`, and leaves `Mode` unchanged. -/
theorem MakeMove_success_effect (g : Game) (row col : Int)
    (hs : g.Status = StatusPlaying) (hr0 : 0 ≤ row) (hr2 : row ≤ 2) (hc0 : 0 ≤ col)
    (hc2 : col ≤ 2) (he : g.Board.cell (toIdx row) (toIdx col) = Empty) :
    (MakeMove g row col).1 = none ∧
    (MakeMove g row col).2.Board.cell (toIdx row) (toIdx col) = g.CurrentPlayer ∧
    (∀ r c : Fin 3, (r, c) ≠ (toIdx row, toIdx col) →
      (MakeMove g row col).2.Board.cell r c = g.Board.cell r c) ∧
    (MakeMove g row col).2.MoveHistory = g.MoveHistory ++ [⟨row, col⟩] ∧
    (MakeMove g row col).2.Mode = g.Mode := by
  have hb : ¬ (row < 0 ∨ row > 2 ∨ col < 0 ∨ col > 2) := by omega
  rw [MakeMove_fst, MakeMove_snd_of_ok g row col hs hb he]
  refine ⟨by simp [hs, hb, he], ?_⟩
  split_ifs <;>
    simp only [switchPlayer_Board, switchPlayer_MoveHistory, switchPlayer_Mode,
      checkGameStatus_Board, checkGameStatus_MoveHistory, checkGameStatus_Mode,
      cell_setCell_same, true_and] <;>
    exact ⟨fun r c hne => cell_setCell_other _ _ _ _ _ _ hne, trivial⟩

theorem MakeMove_success_effect_witness :
    (MakeMove New 1 2).1 = none ∧
    (MakeMove New 1 2).2.Board.cell (toIdx 1) (toIdx 2) = New.CurrentPlayer ∧
    (∀ r c : Fin 3, (r, c) ≠ (toIdx 1, toIdx 2) →
      (MakeMove New 1 2).2.Board.cell r c = New.Board.cell r c) ∧
    (MakeMove New 1 2).2.MoveHistory = New.MoveHistory ++ [⟨1, 2⟩] ∧
    (MakeMove New 1 2).2.Mode = New.Mode :=
  MakeMove_success_effect New 1 2 rfl (by decide) (by decide) (by decide) (by decide) rfl

end game

namespace game

theorem checkGameStatus_Status (g : Game) :
    (checkGameStatus g).Status =
      if checkWinner g ≠ Empty then StatusWon
      else if isBoardFull g = true then StatusDraw else g.Status := by
  unfold checkGameStatus; split_ifs <;> rfl

theorem checkWinner_congr (g g' : Game) (h : g.Board = g'.Board) :
    checkWinner g = checkWinner g' := by
  unfold checkWinner; rw [h]

theorem isBoardFull_congr (g g' : Game) (h : g.Board = g'.Board) :
    isBoardFull g = isBoardFull g' := by
  unfold isBoardFull; rw [h]

/-- The status a board calls for: won, drawn or still playing. -/
theorem status_cases_of_eq (g : Game)
    (h : g.Status = if checkWinner g ≠ Empty then StatusWon
      else if isBoardFull g = true then StatusDraw else StatusPlaying) :
    (g.Status = StatusWon ↔ hasLine g.Board) ∧
    (g.Status = StatusDraw ↔ noEmptyCell g.Board ∧ ¬ hasLine g.Board) ∧
    (g.Status = StatusPlaying ↔ ¬ hasLine g.Board ∧ ¬ noEmptyCell g.Board) := by
  rw [← checkWinner_ne_Empty_iff, ← isBoardFull_iff, h]
  split_ifs <;> simp_all

/-- After an accepted move the status is the one the new board calls for. -/
theorem MakeMove_ok_Status (g : Game) (row col : Int)
    (h : (MakeMove g row col).1 = none) :
    (MakeMove g row col).2.Status =
      if checkWinner (MakeMove g row col).2 ≠ Empty then StatusWon
      else if isBoardFull (MakeMove g row col).2 = true then StatusDraw
      else StatusPlaying := by
  rw [MakeMove_fst] at h
  split_ifs at h with h1 h2 h3
  have hs : g.Status = StatusPlaying := by simpa using h1
  have he : g.Board.cell (toIdx row) (toIdx col) = Empty := by simpa using h3
  rw [MakeMove_snd_of_ok g row col hs h2 he]
  generalize hg2 : ({ g with
            Board := g.Board.setCell (toIdx row) (toIdx col) g.CurrentPlayer
            MoveHistory := g.MoveHistory ++ [⟨row, col⟩] } : Game) = g2
  have hs2 : g2.Status = StatusPlaying := by rw [← hg2]; exact hs
  have key := checkGameStatus_Status g2
  rw [hs2] at key
  by_cases h4 : (checkGameStatus g2).Status = StatusPlaying
  · rw [if_pos h4, switchPlayer_Status,
      checkWinner_congr _ _ ((switchPlayer_Board _).trans (checkGameStatus_Board _)),
      isBoardFull_congr _ _ ((switchPlayer_Board _).trans (checkGameStatus_Board _))]
    exact key
  · rw [if_neg h4, checkWinner_congr _ _ (checkGameStatus_Board _),
      isBoardFull_congr _ _ (checkGameStatus_Board _)]
    exact key

theorem Reachable_status_eq (g : Game) (h : Reachable g) :
    g.Status = if checkWinner g ≠ Empty then StatusWon
      else if isBoardFull g = true then StatusDraw else StatusPlaying := by
  induction h with
  | init => decide
  | move g row col _ ih =>
    by_cases he : (MakeMove g row col).1 = none
    · exact MakeMove_ok_Status g row col he
    · rw [MakeMove_snd_of_rejected g row col he]
      exact ih

/-- C5: in every state reachable from `New()` by `MakeMove` calls (accepted or rejected),
the status is `StatusWon` exactly when some row, column or diagonal holds three identical
non-`Empty` marks, `StatusDraw` exactly when no cell is `Empty` and no such line exists,
and `StatusPlaying` exactly in the remaining case. -/
theorem Reachable_status (g : Game) (h : Reachable g) :
    (g.Status = StatusWon ↔ hasLine g.Board) ∧
    (g.Status = StatusDraw ↔ noEmptyCell g.Board ∧ ¬ hasLine g.Board) ∧
    (g.Status = StatusPlaying ↔ ¬ hasLine g.Board ∧ ¬ noEmptyCell g.Board) :=
  status_cases_of_eq g (Reachable_status_eq g h)

theorem Reachable_status_witness :
    Reachable (MakeMove New 1 1).2 ∧
    (((MakeMove New 1 1).2.Status = StatusWon ↔ hasLine (MakeMove New 1 1).2.Board) ∧
     ((MakeMove New 1 1).2.Status = StatusDraw ↔
        noEmptyCell (MakeMove New 1 1).2.Board ∧ ¬ hasLine (MakeMove New 1 1).2.Board) ∧
     ((MakeMove New 1 1).2.Status = StatusPlaying ↔
        ¬ hasLine (MakeMove New 1 1).2.Board ∧ ¬ noEmptyCell (MakeMove New 1 1).2.Board)) :=
  ⟨Reachable.move New 1 1 Reachable.init,
    Reachable_status _ (Reachable.move New 1 1 Reachable.init)⟩

end game

namespace game

/-- An accepted move that leaves the game in progress hands the turn to `PlayerO` if it
was `PlayerX`, and to `PlayerX` otherwise (`switchPlayer`). -/
theorem MakeMove_ok_playing_CurrentPlayer (g : Game) (row col : Int)
    (h : (MakeMove g row col).1 = none)
    (hp : (MakeMove g row col).2.Status = StatusPlaying) :
    (MakeMove g row col).2.CurrentPlayer =
      if g.CurrentPlayer = PlayerX then PlayerO else PlayerX := by
  rw [MakeMove_fst] at h
  split_ifs at h with h1 h2 h3
  have hs : g.Status = StatusPlaying := by simpa using h1
  have he : g.Board.cell (toIdx row) (toIdx col) = Empty := by simpa using h3
  rw [MakeMove_snd_of_ok g row col hs h2 he] at hp ⊢
  generalize hg2 : ({ g with
            Board := g.Board.setCell (toIdx row) (toIdx col) g.CurrentPlayer
            MoveHistory := g.MoveHistory ++ [⟨row, col⟩] } : Game) = g2 at hp ⊢
  have hc2 : g2.CurrentPlayer = g.CurrentPlayer := by rw [← hg2]
  by_cases h4 : (checkGameStatus g2).Status = StatusPlaying
  · rw [if_pos h4]
    unfold switchPlayer
    rw [checkGameStatus_CurrentPlayer, hc2]
    split_ifs <;> rfl
  · rw [if_neg h4] at hp
    exact absurd hp h4

theorem applyMoves_append (g : Game) (ms : List Position) (m : Position) :
    applyMoves g (ms ++ [m]) = (MakeMove (applyMoves g ms) m.Row m.Col).2 := by
  simp [applyMoves, List.foldl_append]

theorem acceptedInProgress_append (g : Game) (ms : List Position) (m : Position) :
    acceptedInProgress g (ms ++ [m]) ↔
      acceptedInProgress g ms ∧ (MakeMove (applyMoves g ms) m.Row m.Col).1 = none ∧
        (MakeMove (applyMoves g ms) m.Row m.Col).2.Status = StatusPlaying := by
  induction ms generalizing g with
  | nil => simp [acceptedInProgress, applyMoves]
  | cons a ms ih =>
    show (_ ∧ _ ∧ acceptedInProgress (MakeMove g a.Row a.Col).2 (ms ++ [m])) ↔ _
    rw [ih]
    simp only [acceptedInProgress, applyMoves, List.foldl_cons]
    tauto

theorem applyMoves_CurrentPlayer (moves : List Position)
    (h : acceptedInProgress New moves) :
    (applyMoves New moves).CurrentPlayer =
      if moves.length % 2 = 0 then PlayerX else PlayerO := by
  induction moves using List.reverseRecOn with
  | nil => rfl
  | append_singleton ms m ih =>
    rw [acceptedInProgress_append] at h
    rw [applyMoves_append, MakeMove_ok_playing_CurrentPlayer _ _ _ h.2.1 h.2.2, ih h.1,
      List.length_append, List.length_singleton]
    rcases Nat.mod_two_eq_zero_or_one ms.length with h0 | h1
    · have : (ms.length + 1) % 2 = 1 := by omega
      simp [h0, this]
    · have : (ms.length + 1) % 2 = 0 := by omega
      simp [h1, this]

/-- C6: after `k` accepted moves from `New()`, each leaving the game `StatusPlaying`,
`CurrentPlayer` is `PlayerX` when `k` is even and `PlayerO` when `k` is odd; and the last
of these moves flipped `CurrentPlayer` to the other mark. -/
theorem CurrentPlayer_alternates (moves : List Position)
    (h : acceptedInProgress New moves) :
    (applyMoves New moves).CurrentPlayer =
      (if moves.length % 2 = 0 then PlayerX else PlayerO) ∧
    ∀ ms m, moves = ms ++ [m] →
      ((applyMoves New ms).CurrentPlayer = PlayerX ∧
          (applyMoves New moves).CurrentPlayer = PlayerO) ∨
      ((applyMoves New ms).CurrentPlayer = PlayerO ∧
          (applyMoves New moves).CurrentPlayer = PlayerX) := by
  refine ⟨applyMoves_CurrentPlayer moves h, ?_⟩
  rintro ms m rfl
  have h1 := applyMoves_CurrentPlayer _ h
  have h2 := applyMoves_CurrentPlayer ms ((acceptedInProgress_append _ _ _).mp h).1
  rw [List.length_append, List.length_singleton] at h1
  rcases Nat.mod_two_eq_zero_or_one ms.length with h0 | h0
  · have : (ms.length + 1) % 2 = 1 := by omega
    left
    simp_all
  · have : (ms.length + 1) % 2 = 0 := by omega
    right
    simp_all

theorem CurrentPlayer_alternates_witness :
    acceptedInProgress New [⟨1, 1⟩, ⟨0, 0⟩, ⟨2, 1⟩] ∧
    ((applyMoves New [⟨1, 1⟩, ⟨0, 0⟩, ⟨2, 1⟩]).CurrentPlayer =
      (if [(⟨1, 1⟩ : Position), ⟨0, 0⟩, ⟨2, 1⟩].length % 2 = 0 then PlayerX else PlayerO) ∧
    ∀ ms m, [(⟨1, 1⟩ : Position), ⟨0, 0⟩, ⟨2, 1⟩] = ms ++ [m] →
      ((applyMoves New ms).CurrentPlayer = PlayerX ∧
          (applyMoves New [⟨1, 1⟩, ⟨0, 0⟩, ⟨2, 1⟩]).CurrentPlayer = PlayerO) ∨
      ((applyMoves New ms).CurrentPlayer = PlayerO ∧
          (applyMoves New [⟨1, 1⟩, ⟨0, 0⟩, ⟨2, 1⟩]).CurrentPlayer = PlayerX)) :=
  ⟨⟨rfl, rfl, rfl, rfl, rfl, rfl, trivial⟩,
    CurrentPlayer_alternates _ ⟨rfl, rfl, rfl, rfl, rfl, rfl, trivial⟩⟩

end game

namespace ai

open game

theorem mem_idx3 (i : Fin 3) : i ∈ idx3 := by
  fin_cases i <;> simp [idx3]

theorem mem_GetAvailableMoves (g : Game) (m : Position) :
    m ∈ GetAvailableMoves g ↔
      ∃ r c : Fin 3, m = ⟨(r.val : Int), (c.val : Int)⟩ ∧ g.Board.cell r c = Player.Empty := by
  unfold GetAvailableMoves
  simp only [List.mem_flatMap, List.mem_map, List.mem_filter, mem_idx3, true_and,
    decide_eq_true_eq]
  constructor
  · rintro ⟨r, c, hc, rfl⟩
    exact ⟨r, c, rfl, hc⟩
  · rintro ⟨r, c, rfl, hc⟩
    exact ⟨r, c, hc, rfl⟩

/-- The outcome of one line scan, from the three cells of the line: the scan hits
exactly when two cells hold `p` and the third is `Empty`, and then reports the index of
the `Empty` cell. -/
theorem scanLine_hit (b : Board) (p : Player) (cellAt : Fin 3 → Fin 3 × Fin 3) :
    ((scanLine b p cellAt).1 = 2 ∧ (scanLine b p cellAt).2 ≠ -1) ↔
      p ≠ Player.Empty ∧
      ((b.cell (cellAt 0).1 (cellAt 0).2 = Player.Empty ∧ b.cell (cellAt 1).1 (cellAt 1).2 = p ∧
          b.cell (cellAt 2).1 (cellAt 2).2 = p ∧ (scanLine b p cellAt).2 = 0) ∨
        (b.cell (cellAt 0).1 (cellAt 0).2 = p ∧ b.cell (cellAt 1).1 (cellAt 1).2 = Player.Empty ∧
          b.cell (cellAt 2).1 (cellAt 2).2 = p ∧ (scanLine b p cellAt).2 = 1) ∨
        (b.cell (cellAt 0).1 (cellAt 0).2 = p ∧ b.cell (cellAt 1).1 (cellAt 1).2 = p ∧
          b.cell (cellAt 2).1 (cellAt 2).2 = Player.Empty ∧ (scanLine b p cellAt).2 = 2)) := by
  simp only [scanLine, idx3, List.foldl]
  generalize b.cell (cellAt 0).1 (cellAt 0).2 = u
  generalize b.cell (cellAt 1).1 (cellAt 1).2 = v
  generalize b.cell (cellAt 2).1 (cellAt 2).2 = w
  cases p <;> cases u <;> cases v <;> cases w <;> decide

theorem hitCell_of_hit (b : Board) (p : Player) (cellAt : Fin 3 → Fin 3 × Fin 3)
    (H : (scanLine b p cellAt).1 = 2 ∧ (scanLine b p cellAt).2 ≠ -1) :
    ∃ i : Fin 3, (scanLine b p cellAt).2 = (i.val : Int) ∧
      hitCell b p cellAt = some (cellAt i) := by
  unfold hitCell
  rw [if_pos H]
  rcases ((scanLine_hit b p cellAt).mp H).2 with h | h | h
  · exact ⟨0, h.2.2.2, by rw [h.2.2.2]; rfl⟩
  · exact ⟨1, h.2.2.2, by rw [h.2.2.2]; rfl⟩
  · exact ⟨2, h.2.2.2, by rw [h.2.2.2]; rfl⟩

theorem hitCell_of_not_hit (b : Board) (p : Player) (cellAt : Fin 3 → Fin 3 × Fin 3)
    (H : ¬ ((scanLine b p cellAt).1 = 2 ∧ (scanLine b p cellAt).2 ≠ -1)) :
    hitCell b p cellAt = none := by
  unfold hitCell
  rw [if_neg H]

/-- `findWinningMove` returns the cell of the first line, in scan order, that has two
cells holding `p` and one `Empty` cell, and `(-1, -1)` when there is no such line. -/
theorem findWinningMove_eq (g : Game) (p : Player) :
    findWinningMove g p =
      match lineFns.findSome? (hitCell g.Board p) with
      | some rc => ((rc.1.val : Int), (rc.2.val : Int))
      | none => (-1, -1) := by
  simp only [findWinningMove, lineFns, idx3, List.find?, List.findSome?]
  rcases Bool.eq_false_or_eq_true
      (decide ((scanLine g.Board p (fun col => ((0 : Fin 3), col))).1 = 2) &&
        decide ((scanLine g.Board p (fun col => ((0 : Fin 3), col))).2 ≠ -1)) with h1 | h1
  · simp only [h1]
    have H : (scanLine g.Board p (fun col => ((0 : Fin 3), col))).1 = 2 ∧
        (scanLine g.Board p (fun col => ((0 : Fin 3), col))).2 ≠ -1 := by simpa using h1
    obtain ⟨i, hi, hc⟩ := hitCell_of_hit _ _ _ H
    simp only [hc, hi]
  simp only [h1]
  rw [hitCell_of_not_hit _ _ _ (by simpa using h1)]
  dsimp only
  rcases Bool.eq_false_or_eq_true
      (decide ((scanLine g.Board p (fun col => ((1 : Fin 3), col))).1 = 2) &&
        decide ((scanLine g.Board p (fun col => ((1 : Fin 3), col))).2 ≠ -1)) with h2 | h2
  · simp only [h2]
    have H : (scanLine g.Board p (fun col => ((1 : Fin 3), col))).1 = 2 ∧
        (scanLine g.Board p (fun col => ((1 : Fin 3), col))).2 ≠ -1 := by simpa using h2
    obtain ⟨i, hi, hc⟩ := hitCell_of_hit _ _ _ H
    simp only [hc, hi]
  simp only [h2]
  rw [hitCell_of_not_hit _ _ _ (by simpa using h2)]
  dsimp only
  rcases Bool.eq_false_or_eq_true
      (decide ((scanLine g.Board p (fun col => ((2 : Fin 3), col))).1 = 2) &&
        decide ((scanLine g.Board p (fun col => ((2 : Fin 3), col))).2 ≠ -1)) with h3 | h3
  · simp only [h3]
    have H : (scanLine g.Board p (fun col => ((2 : Fin 3), col))).1 = 2 ∧
        (scanLine g.Board p (fun col => ((2 : Fin 3), col))).2 ≠ -1 := by simpa using h3
    obtain ⟨i, hi, hc⟩ := hitCell_of_hit _ _ _ H
    simp only [hc, hi]
  simp only [h3]
  rw [hitCell_of_not_hit _ _ _ (by simpa using h3)]
  dsimp only
  rcases Bool.eq_false_or_eq_true
      (decide ((scanLine g.Board p (fun row => (row, (0 : Fin 3)))).1 = 2) &&
        decide ((scanLine g.Board p (fun row => (row, (0 : Fin 3)))).2 ≠ -1)) with h4 | h4
  · simp only [h4]
    have H : (scanLine g.Board p (fun row => (row, (0 : Fin 3)))).1 = 2 ∧
        (scanLine g.Board p (fun row => (row, (0 : Fin 3)))).2 ≠ -1 := by simpa using h4
    obtain ⟨i, hi, hc⟩ := hitCell_of_hit _ _ _ H
    simp only [hc, hi]
  simp only [h4]
  rw [hitCell_of_not_hit _ _ _ (by simpa using h4)]
  dsimp only
  rcases Bool.eq_false_or_eq_true
      (decide ((scanLine g.Board p (fun row => (row, (1 : Fin 3)))).1 = 2) &&
        decide ((scanLine g.Board p (fun row => (row, (1 : Fin 3)))).2 ≠ -1)) with h5 | h5
  · simp only [h5]
    have H : (scanLine g.Board p (fun row => (row, (1 : Fin 3)))).1 = 2 ∧
        (scanLine g.Board p (fun row => (row, (1 : Fin 3)))).2 ≠ -1 := by simpa using h5
    obtain ⟨i, hi, hc⟩ := hitCell_of_hit _ _ _ H
    simp only [hc, hi]
  simp only [h5]
  rw [hitCell_of_not_hit _ _ _ (by simpa using h5)]
  dsimp only
  rcases Bool.eq_false_or_eq_true
      (decide ((scanLine g.Board p (fun row => (row, (2 : Fin 3)))).1 = 2) &&
        decide ((scanLine g.Board p (fun row => (row, (2 : Fin 3)))).2 ≠ -1)) with h6 | h6
  · simp only [h6]
    have H : (scanLine g.Board p (fun row => (row, (2 : Fin 3)))).1 = 2 ∧
        (scanLine g.Board p (fun row => (row, (2 : Fin 3)))).2 ≠ -1 := by simpa using h6
    obtain ⟨i, hi, hc⟩ := hitCell_of_hit _ _ _ H
    simp only [hc, hi]
  simp only [h6]
  rw [hitCell_of_not_hit _ _ _ (by simpa using h6)]
  dsimp only
  by_cases h7 : (scanLine g.Board p (fun i => (i, i))).1 = 2 ∧
      (scanLine g.Board p (fun i => (i, i))).2 ≠ -1
  · obtain ⟨i, hi, hc⟩ := hitCell_of_hit _ _ _ h7
    rw [if_pos h7]
    simp only [hc, hi]
  rw [if_neg h7, hitCell_of_not_hit _ _ _ h7]
  dsimp only
  by_cases h8 : (scanLine g.Board p (fun i => (i, 2 - i))).1 = 2 ∧
      (scanLine g.Board p (fun i => (i, 2 - i))).2 ≠ -1
  · obtain ⟨i, hi, hc⟩ := hitCell_of_hit _ _ _ h8
    rw [if_pos h8]
    simp only [hc, hi]
    fin_cases i <;> rfl
  rw [if_neg h8, hitCell_of_not_hit _ _ _ h8]

end ai

namespace ai

open game

/-- When a line scan hits, the reported cell is `Empty` and the two other cells of the
line hold `p`. -/
theorem hitCell_eq_some (b : Board) (p : Player) (cellAt : Fin 3 → Fin 3 × Fin 3)
    (rc : Fin 3 × Fin 3) (h : hitCell b p cellAt = some rc) :
    p ≠ Player.Empty ∧ ∃ i : Fin 3, rc = cellAt i ∧
      b.cell (cellAt i).1 (cellAt i).2 = Player.Empty ∧
      ∀ j : Fin 3, j ≠ i → b.cell (cellAt j).1 (cellAt j).2 = p := by
  unfold hitCell at h
  split_ifs at h with H
  have hrc : rc = cellAt (toIdx (scanLine b p cellAt).2) := by
    simpa using h.symm
  obtain ⟨hp, h1 | h1 | h1⟩ := (scanLine_hit b p cellAt).mp H
  · refine ⟨hp, 0, by rw [hrc, h1.2.2.2]; rfl, h1.1, ?_⟩
    intro j hj
    fin_cases j
    · exact absurd rfl hj
    · exact h1.2.1
    · exact h1.2.2.1
  · refine ⟨hp, 1, by rw [hrc, h1.2.2.2]; rfl, h1.2.1, ?_⟩
    intro j hj
    fin_cases j
    · exact h1.1
    · exact absurd rfl hj
    · exact h1.2.2.1
  · refine ⟨hp, 2, by rw [hrc, h1.2.2.2]; rfl, h1.2.2.1, ?_⟩
    intro j hj
    fin_cases j
    · exact h1.1
    · exact h1.2.1
    · exact absurd rfl hj

theorem scanLine_hit_of (b : Board) (p : Player) (cellAt : Fin 3 → Fin 3 × Fin 3)
    (hp : p ≠ Player.Empty)
    (h : (b.cell (cellAt 0).1 (cellAt 0).2 = Player.Empty ∧ b.cell (cellAt 1).1 (cellAt 1).2 = p ∧
          b.cell (cellAt 2).1 (cellAt 2).2 = p) ∨
        (b.cell (cellAt 0).1 (cellAt 0).2 = p ∧ b.cell (cellAt 1).1 (cellAt 1).2 = Player.Empty ∧
          b.cell (cellAt 2).1 (cellAt 2).2 = p) ∨
        (b.cell (cellAt 0).1 (cellAt 0).2 = p ∧ b.cell (cellAt 1).1 (cellAt 1).2 = p ∧
          b.cell (cellAt 2).1 (cellAt 2).2 = Player.Empty)) :
    (scanLine b p cellAt).1 = 2 ∧ (scanLine b p cellAt).2 ≠ -1 := by
  revert h
  simp only [scanLine, idx3, List.foldl]
  generalize b.cell (cellAt 0).1 (cellAt 0).2 = u
  generalize b.cell (cellAt 1).1 (cellAt 1).2 = v
  generalize b.cell (cellAt 2).1 (cellAt 2).2 = w
  revert hp
  cases p <;> cases u <;> cases v <;> cases w <;> decide

/-- A line with one `Empty` cell and `p` in the two others is hit by the scan. -/
theorem hitCell_ne_none (b : Board) (p : Player) (cellAt : Fin 3 → Fin 3 × Fin 3)
    (hp : p ≠ Player.Empty) (i : Fin 3)
    (he : b.cell (cellAt i).1 (cellAt i).2 = Player.Empty)
    (ho : ∀ j : Fin 3, j ≠ i → b.cell (cellAt j).1 (cellAt j).2 = p) :
    hitCell b p cellAt ≠ none := by
  have H : (scanLine b p cellAt).1 = 2 ∧ (scanLine b p cellAt).2 ≠ -1 := by
    apply scanLine_hit_of b p cellAt hp
    fin_cases i
    · exact Or.inl ⟨he, ho 1 (by decide), ho 2 (by decide)⟩
    · exact Or.inr (Or.inl ⟨ho 0 (by decide), he, ho 2 (by decide)⟩)
    · exact Or.inr (Or.inr ⟨ho 0 (by decide), ho 1 (by decide), he⟩)
  obtain ⟨j, _, hj⟩ := hitCell_of_hit b p cellAt H
  rw [hj]
  exact Option.some_ne_none _

/-- Every scan line is one of the eight lines of the board. -/
theorem lineFns_lines (f : Fin 3 → Fin 3 × Fin 3) (hf : f ∈ lineFns) :
    [f 0, f 1, f 2] ∈ lines := by
  simp only [lineFns, List.mem_cons, List.mem_singleton, List.not_mem_nil, or_false] at hf
  rcases hf with rfl | rfl | rfl | rfl | rfl | rfl | rfl | rfl <;> decide

/-- Every line of the board is scanned, and its scan map is one-to-one. -/
theorem lines_lineFns (l : List (Fin 3 × Fin 3)) (hl : l ∈ lines) :
    ∃ f ∈ lineFns, l = [f 0, f 1, f 2] ∧ ∀ i j : Fin 3, f i = f j → i = j := by
  simp only [lines, List.mem_cons, List.mem_singleton, List.not_mem_nil, or_false] at hl
  rcases hl with rfl | rfl | rfl | rfl | rfl | rfl | rfl | rfl
  · exact ⟨fun col => (0, col), by simp [lineFns], rfl, by decide⟩
  · exact ⟨fun col => (1, col), by simp [lineFns], rfl, by decide⟩
  · exact ⟨fun col => (2, col), by simp [lineFns], rfl, by decide⟩
  · exact ⟨fun row => (row, 0), by simp [lineFns], rfl, by decide⟩
  · exact ⟨fun row => (row, 1), by simp [lineFns], rfl, by decide⟩
  · exact ⟨fun row => (row, 2), by simp [lineFns], rfl, by decide⟩
  · exact ⟨fun i => (i, i), by simp [lineFns], rfl, by decide⟩
  · exact ⟨fun i => (i, 2 - i), by simp [lineFns], by decide, by decide⟩

theorem mem_line3 (f : Fin 3 → Fin 3 × Fin 3) (rc : Fin 3 × Fin 3) :
    rc ∈ [f 0, f 1, f 2] ↔ ∃ i : Fin 3, rc = f i := by
  simp only [List.mem_cons, List.mem_singleton, List.not_mem_nil, or_false]
  constructor
  · rintro (h | h | h)
    · exact ⟨0, h⟩
    · exact ⟨1, h⟩
    · exact ⟨2, h⟩
  · rintro ⟨i, h⟩
    fin_cases i
    · exact Or.inl h
    · exact Or.inr (Or.inl h)
    · exact Or.inr (Or.inr h)

/-- Soundness of `findWinningMove`: a result other than `(-1, -1)` is an `Empty` cell
that completes a line for `p`. -/
theorem findWinningMove_sound (g : Game) (p : Player)
    (h : (findWinningMove g p).1 ≠ -1) :
    ∃ r c : Fin 3, findWinningMove g p = ((r.val : Int), (c.val : Int)) ∧
      winsAt g.Board p r c := by
  rw [findWinningMove_eq] at h ⊢
  cases hf : lineFns.findSome? (hitCell g.Board p) with
  | none => rw [hf] at h; exact absurd rfl h
  | some rc =>
    obtain ⟨f, hfm, hfe⟩ := List.exists_of_findSome?_eq_some hf
    obtain ⟨hp, i, hi, he, ho⟩ := hitCell_eq_some _ _ _ _ hfe
    refine ⟨rc.1, rc.2, rfl, ?_, hp, [f 0, f 1, f 2], lineFns_lines f hfm, ?_, ?_⟩
    · rw [hi]; exact he
    · exact (mem_line3 f _).mpr ⟨i, hi⟩
    · intro rc' hrc' hne
      obtain ⟨j, rfl⟩ := (mem_line3 f _).mp hrc'
      apply ho
      rintro rfl
      exact hne hi.symm

/-- Completeness of `findWinningMove`: if some `Empty` cell completes a line for `p`, the
result is not `(-1, -1)`. -/
theorem findWinningMove_complete (g : Game) (p : Player) (r c : Fin 3)
    (h : winsAt g.Board p r c) : (findWinningMove g p).1 ≠ -1 := by
  obtain ⟨he, hp, l, hl, hmem, ho⟩ := h
  obtain ⟨f, hfm, rfl, hinj⟩ := lines_lineFns l hl
  obtain ⟨i, hi⟩ := (mem_line3 f _).mp hmem
  have hne : hitCell g.Board p f ≠ none := by
    apply hitCell_ne_none _ _ _ hp i
    · rw [← hi]; exact he
    · intro j hj
      apply ho _ ((mem_line3 f _).mpr ⟨j, rfl⟩)
      rw [hi]
      exact fun hfj => hj (hinj _ _ hfj)
  rw [findWinningMove_eq]
  cases hf : lineFns.findSome? (hitCell g.Board p) with
  | none => exact absurd ((List.findSome?_eq_none_iff.mp hf) f hfm) hne
  | some rc =>
    have : (0 : Int) ≤ (rc.1.val : Int) := Int.ofNat_nonneg _
    show (rc.1.val : Int) ≠ -1
    omega

end ai

namespace ai

open game

theorem IsValidMove_fin (g : Game) (r c : Fin 3) :
    IsValidMove g (r.val : Int) (c.val : Int) = true ↔
      g.Board.cell r c = Player.Empty ∧ g.Status = StatusPlaying := by
  have hr : ¬ (((r.val : Int) < 0) ∨ ((r.val : Int) > 2) ∨ ((c.val : Int) < 0) ∨
      ((c.val : Int) > 2)) := by
    have := r.isLt
    have := c.isLt
    omega
  unfold IsValidMove
  rw [if_neg hr, toIdx_val, toIdx_val]
  simp

theorem IsValidMove_of_mem (g : Game) (m : Position) (hs : g.Status = StatusPlaying)
    (hm : m ∈ GetAvailableMoves g) : IsValidMove g m.Row m.Col = true := by
  obtain ⟨r, c, rfl, he⟩ := (mem_GetAvailableMoves g m).mp hm
  exact (IsValidMove_fin g r c).mpr ⟨he, hs⟩

theorem randomMove_mem (rnd : Draws) (l : List Position) (h : l ≠ []) :
    randomMove rnd l h ∈ l := by
  unfold randomMove
  exact List.get_mem _ _ _

theorem bestMoveLoop_fold (a : AI) (depth : Nat) (g : Game) (l : List Position)
    (bm : Position) (bs : Int) :
    BestOf a depth g l bm bs
      (l.foldl (fun (st : Game × Position × Int) move =>
        if moveScore a depth st.1 move > st.2.2 then (st.1, move, moveScore a depth st.1 move)
        else st) (g, bm, bs)) := by
  induction l generalizing bm bs with
  | nil => exact ⟨rfl, Or.inl ⟨rfl, by simp⟩⟩
  | cons m l ih =>
    rw [List.foldl_cons]
    by_cases hgt : moveScore a depth g m > bs
    · simp only [hgt, if_true]
      obtain ⟨h1, h2 | h2⟩ := ih m (moveScore a depth g m)
      · refine ⟨h1, Or.inr ?_⟩
        rw [h2.1]
        refine ⟨List.mem_cons_self _ _, rfl, hgt, ?_⟩
        intro m' hm'
        rcases List.mem_cons.mp hm' with rfl | hm'
        · exact le_refl _
        · exact h2.2 m' hm'
      · refine ⟨h1, Or.inr ⟨List.mem_cons_of_mem _ h2.1, h2.2.1, lt_trans hgt h2.2.2.1, ?_⟩⟩
        intro m' hm'
        rcases List.mem_cons.mp hm' with rfl | hm'
        · exact le_of_lt h2.2.2.1
        · exact h2.2.2.2 m' hm'
    · simp only [hgt, if_false]
      obtain ⟨h1, h2 | h2⟩ := ih bm bs
      · refine ⟨h1, Or.inl ⟨h2.1, ?_⟩⟩
        intro m' hm'
        rcases List.mem_cons.mp hm' with rfl | hm'
        · exact not_lt.mp hgt
        · exact h2.2 m' hm'
      · refine ⟨h1, Or.inr ⟨List.mem_cons_of_mem _ h2.1, h2.2.1, h2.2.2.1, ?_⟩⟩
        intro m' hm'
        rcases List.mem_cons.mp hm' with rfl | hm'
        · exact le_trans (not_lt.mp hgt) (le_of_lt h2.2.2.1)
        · exact h2.2.2.2 m' hm'

/-- The candidate loop ends with `g` untouched and a move of maximal score, or
with its start values when no score exceeds `-1000`. -/
theorem bestMoveLoop_spec (a : AI) (depth : Nat) (g : Game) (l : List Position) :
    BestOf a depth g l ⟨-1, -1⟩ (-1000) (bestMoveLoop a depth g l) :=
  bestMoveLoop_fold a depth g l ⟨-1, -1⟩ (-1000)

end ai

namespace ai

open game

theorem findWinningMove_valid (g : Game) (p : Player) (hs : g.Status = StatusPlaying)
    (h : (findWinningMove g p).1 ≠ -1) :
    IsValidMove g (findWinningMove g p).1 (findWinningMove g p).2 = true := by
  obtain ⟨r, c, he, hw⟩ := findWinningMove_sound g p h
  rw [he]
  exact (IsValidMove_fin g r c).mpr ⟨hw.1, hs⟩

theorem getEasyMove_ok (a : AI) (rnd : Draws) (g : Game) (l : List Position) (h : l ≠ []) :
    TierOk g l (getEasyMove a rnd g l h) := by
  unfold getEasyMove
  split_ifs with h1 h2
  · exact ⟨rfl, rfl, fun hs _ => findWinningMove_valid g _ hs h1.2⟩
  · exact ⟨rfl, rfl, fun hs _ => findWinningMove_valid g _ hs h2.2⟩
  · exact ⟨rfl, rfl, fun hs hl => IsValidMove_of_mem g _ hs (hl _ (randomMove_mem rnd l h))⟩

theorem getNormalMove_ok (a : AI) (rnd : Draws) (g : Game) (l : List Position) (h : l ≠ []) :
    TierOk g l (getNormalMove a rnd g l h) := by
  unfold getNormalMove
  split_ifs with h1 h2 h3
  · exact ⟨rfl, rfl, fun hs _ => findWinningMove_valid g _ hs h1⟩
  · exact ⟨rfl, rfl, fun hs _ => findWinningMove_valid g _ hs h2⟩
  · exact ⟨rfl, rfl, fun _ _ => h3⟩
  · split
    · next corner hc =>
      have hv : IsValidMove g corner.Row corner.Col = true :=
        @List.find?_some _ (fun corner => IsValidMove g corner.Row corner.Col) corner _ hc
      exact ⟨rfl, rfl, fun _ _ => hv⟩
    · exact ⟨rfl, rfl, fun hs hl => IsValidMove_of_mem g _ hs (hl _ (randomMove_mem rnd l h))⟩

theorem Row_ne_neg_one_of_mem (g : Game) (m : Position) (hm : m ∈ GetAvailableMoves g) :
    m.Row ≠ -1 := by
  obtain ⟨r, c, rfl, _⟩ := (mem_GetAvailableMoves g m).mp hm
  show (r.val : Int) ≠ -1
  omega

theorem getHardMove_ok (a : AI) (rnd : Draws) (g : Game) (l : List Position) (h : l ≠ []) :
    TierOk g l (getHardMove a rnd g l h) := by
  unfold getHardMove
  obtain ⟨hg, hb⟩ := bestMoveLoop_spec a 4 g l
  dsimp only
  split_ifs with h1
  · rw [hg]; exact getNormalMove_ok a rnd g l h
  · refine ⟨hg, rfl, fun hs hl => ?_⟩
    rcases hb with hb | hb
    · rw [hb.1] at h1; exact absurd rfl h1
    · exact IsValidMove_of_mem g _ hs (hl _ hb.1)

theorem getPerfectMove_ok (a : AI) (rnd : Draws) (g : Game) (l : List Position)
    (h : l ≠ []) : TierOk g l (getPerfectMove a rnd g l h) := by
  unfold getPerfectMove
  obtain ⟨hg, hb⟩ := bestMoveLoop_spec a 10 g l
  dsimp only
  split_ifs with h1
  · rw [hg]; exact getHardMove_ok a rnd g l h
  · refine ⟨hg, rfl, fun hs hl => ?_⟩
    rcases hb with hb | hb
    · rw [hb.1] at h1; exact absurd rfl h1
    · exact IsValidMove_of_mem g _ hs (hl _ hb.1)

/-- With at least one available move, `GetMove` is one of the four tier functions, each
of which meets `TierOk`. -/
theorem GetMove_ok (a : AI) (rnd : Draws) (g : Game) (h : GetAvailableMoves g ≠ []) :
    TierOk g (GetAvailableMoves g) (GetMove a rnd g) := by
  unfold GetMove
  rw [dif_neg h]
  split_ifs
  · exact getEasyMove_ok a rnd g _ h
  · exact getNormalMove_ok a rnd g _ h
  · exact getHardMove_ok a rnd g _ h
  · exact getPerfectMove_ok a rnd g _ h
  · exact getEasyMove_ok a rnd g _ h

theorem GetAvailableMoves_ne_nil (g : Game) (r c : Fin 3)
    (h : g.Board.cell r c = Player.Empty) : GetAvailableMoves g ≠ [] := by
  have : (⟨(r.val : Int), (c.val : Int)⟩ : Position) ∈ GetAvailableMoves g :=
    (mem_GetAvailableMoves g _).mpr ⟨r, c, rfl, h⟩
  exact List.ne_nil_of_mem this

theorem GetAvailableMoves_eq_nil_iff (g : Game) :
    GetAvailableMoves g = [] ↔ isBoardFull g = true := by
  rw [isBoardFull_iff]
  constructor
  · intro h r c hc
    exact GetAvailableMoves_ne_nil g r c hc h
  · intro h
    rw [List.eq_nil_iff_forall_not_mem]
    intro m hm
    obtain ⟨r, c, _, he⟩ := (mem_GetAvailableMoves g m).mp hm
    exact h r c he

/-- C7: for every tier (any value of `difficulty`, any draws of the randomness source)
and every game that is `StatusPlaying` with some `Empty` cell, the position `GetMove`
returns passes `IsValidMove` on that game. -/
theorem GetMove_valid (a : AI) (rnd : Draws) (g : Game)
    (hs : g.Status = StatusPlaying) (he : ∃ r c : Fin 3, g.Board.cell r c = Player.Empty) :
    IsValidMove g (GetMove a rnd g).1.1 (GetMove a rnd g).1.2.1 = true := by
  obtain ⟨r, c, hc⟩ := he
  exact (GetMove_ok a rnd g (GetAvailableMoves_ne_nil g r c hc)).2.2 hs (fun _ hm => hm)

theorem GetMove_valid_witness :
    game.New.Status = StatusPlaying ∧
    (∃ r c : Fin 3, game.New.Board.cell r c = Player.Empty) ∧
    IsValidMove game.New (GetMove (ai.New Easy PlayerO) ⟨true, 7⟩ game.New).1.1
      (GetMove (ai.New Easy PlayerO) ⟨true, 7⟩ game.New).1.2.1 = true :=
  ⟨rfl, ⟨0, 0, rfl⟩, GetMove_valid _ _ _ rfl ⟨0, 0, rfl⟩⟩

/-- C9: for every tier and every game `g`, the game `g` points to after `GetMove` equals
the game before the call in every field; the candidate loops of `getHardMove` and
`getPerfectMove` play their moves on `copyGame` copies. -/
theorem GetMove_frame (a : AI) (rnd : Draws) (g : Game) :
    (GetMove a rnd g).2.Board = g.Board ∧
    (GetMove a rnd g).2.CurrentPlayer = g.CurrentPlayer ∧
    (GetMove a rnd g).2.Status = g.Status ∧
    (GetMove a rnd g).2.Winner = g.Winner ∧
    (GetMove a rnd g).2.Mode = g.Mode ∧
    (GetMove a rnd g).2.MoveHistory = g.MoveHistory := by
  have hg : (GetMove a rnd g).2 = g := by
    by_cases h : GetAvailableMoves g = []
    · unfold GetMove
      rw [dif_pos h]
    · exact (GetMove_ok a rnd g h).1
  rw [hg]
  exact ⟨rfl, rfl, rfl, rfl, rfl, rfl⟩

end ai

namespace ai

open game

theorem GetMove_err (a : AI) (rnd : Draws) (g : Game) : (GetMove a rnd g).1.2.2 = none := by
  by_cases h : GetAvailableMoves g = []
  · unfold GetMove
    rw [dif_pos h]
  · exact (GetMove_ok a rnd g h).2.1

/-- C8, as the code has it: for every tier and every game whose board has no `Empty`
cell, `GetMove` returns the no-move sentinel `(-1, -1)`; and `GetMove` returns a `nil`
error on every input. -/
theorem GetMove_full_board (a : AI) (rnd : Draws) (g : Game) :
    (noEmptyCell g.Board → (GetMove a rnd g).1 = (-1, -1, none)) ∧
    (GetMove a rnd g).1.2.2 = none := by
  refine ⟨fun h => ?_, GetMove_err a rnd g⟩
  have hnil : GetAvailableMoves g = [] :=
    (GetAvailableMoves_eq_nil_iff g).mpr ((isBoardFull_iff g).mpr h)
  unfold GetMove
  rw [dif_pos hnil]

theorem GetMove_full_board_witness :
    (GetMove (ai.New Hard PlayerO) ⟨false, 0⟩
      (applyMoves game.New [⟨0, 0⟩, ⟨0, 1⟩, ⟨0, 2⟩, ⟨1, 1⟩, ⟨1, 0⟩, ⟨1, 2⟩, ⟨2, 1⟩, ⟨2, 0⟩,
        ⟨2, 2⟩])).1 = (-1, -1, none) :=
  (GetMove_full_board (ai.New Hard PlayerO) ⟨false, 0⟩
      (applyMoves game.New [⟨0, 0⟩, ⟨0, 1⟩, ⟨0, 2⟩, ⟨1, 1⟩, ⟨1, 0⟩, ⟨1, 2⟩, ⟨2, 1⟩, ⟨2, 0⟩,
        ⟨2, 2⟩])).1 ((isBoardFull_iff _).mp (by decide))

/-- C8 fails as stated: after the seven moves of the test "should handle full board",
`PlayerX` has won (the game has ended) with two cells still `Empty`, and `GetMove` at
tier `Normal` returns the cell `(2, 2)`, not the sentinel `(-1, -1)`. -/
theorem GetMove_ended_game_returns_cell :
    (applyMoves game.New [⟨0, 0⟩, ⟨0, 1⟩, ⟨0, 2⟩, ⟨1, 0⟩, ⟨1, 1⟩, ⟨1, 2⟩, ⟨2, 0⟩]).Status =
      StatusWon ∧
    (GetMove (ai.New Normal PlayerO) ⟨false, 0⟩
      (applyMoves game.New [⟨0, 0⟩, ⟨0, 1⟩, ⟨0, 2⟩, ⟨1, 0⟩, ⟨1, 1⟩, ⟨1, 2⟩, ⟨2, 0⟩])).1 =
      (2, 2, none) ∧
    (GetMove (ai.New Normal PlayerO) ⟨false, 0⟩
      (applyMoves game.New [⟨0, 0⟩, ⟨0, 1⟩, ⟨0, 2⟩, ⟨1, 0⟩, ⟨1, 1⟩, ⟨1, 2⟩, ⟨2, 0⟩])).1 ≠
      (-1, -1, none) := by
  decide

end ai

namespace ai

open game

/-- On an in-progress game with no complete line, playing an `Empty` cell that completes
a line for the player to move is accepted and wins the game for that player. -/
theorem MakeMove_wins (g : Game) (p : Player) (r c : Fin 3)
    (hs : g.Status = StatusPlaying) (hcp : g.CurrentPlayer = p)
    (hno : checkWinner g = Player.Empty) (hw : winsAt g.Board p r c) :
    (MakeMove g (r.val : Int) (c.val : Int)).1 = none ∧
    (MakeMove g (r.val : Int) (c.val : Int)).2.Status = StatusWon ∧
    (MakeMove g (r.val : Int) (c.val : Int)).2.Winner = p := by
  subst hcp
  obtain ⟨he, hp, l, hl, hmem, ho⟩ := hw
  have hb : ¬ (((r.val : Int) < 0) ∨ ((r.val : Int) > 2) ∨ ((c.val : Int) < 0) ∨
      ((c.val : Int) > 2)) := by
    have := r.isLt
    have := c.isLt
    omega
  have he' : g.Board.cell (toIdx (r.val : Int)) (toIdx (c.val : Int)) = Player.Empty := by
    rw [toIdx_val, toIdx_val]; exact he
  have hfst : (MakeMove g (r.val : Int) (c.val : Int)).1 = none := by
    rw [MakeMove_fst, if_neg (by simpa using hs), if_neg hb, if_neg (by simpa using he')]
  refine ⟨hfst, ?_⟩
  rw [MakeMove_snd_of_ok g _ _ hs hb he', toIdx_val, toIdx_val]
  generalize hg2 : ({ g with
            Board := g.Board.setCell r c g.CurrentPlayer
            MoveHistory := g.MoveHistory ++ [⟨(r.val : Int), (c.val : Int)⟩] } : Game) = g2
  have hB : g2.Board = g.Board.setCell r c g.CurrentPlayer := by rw [← hg2]
  have hline : lineComplete g2.Board l g.CurrentPlayer := by
    refine ⟨hp, fun rc hrc => ?_⟩
    rw [hB]
    by_cases hrc' : rc = (r, c)
    · rw [hrc']; exact cell_setCell_same _ _ _ _
    · rw [cell_setCell_other _ _ _ _ _ _ hrc']
      exact ho rc hrc hrc'
  have hne : checkWinner g2 ≠ Player.Empty :=
    (checkWinner_ne_Empty_iff g2).mpr ⟨l, hl, _, hline⟩
  have hwin : checkWinner g2 = g.CurrentPlayer := by
    rcases checkWinner_spec g2 with ⟨h1, _⟩ | ⟨l2, hl2, hq, hc2⟩
    · exact absurd h1 hne
    · by_cases hin : (r, c) ∈ l2
      · have := hc2 _ hin
        rw [hB, cell_setCell_same] at this
        exact this.symm
      · exfalso
        apply (checkWinner_ne_Empty_iff g).not.mp (by simpa using hno)
        refine ⟨l2, hl2, checkWinner g2, hq, fun rc hrc => ?_⟩
        have hne' : rc ≠ (r, c) := fun h => hin (h ▸ hrc)
        have := hc2 rc hrc
        rwa [hB, cell_setCell_other _ _ _ _ _ _ hne'] at this
  have hst : (checkGameStatus g2).Status = StatusWon := by
    rw [checkGameStatus_Status, if_pos hne]
  have hwn : (checkGameStatus g2).Winner = g.CurrentPlayer := by
    unfold checkGameStatus
    rw [if_pos hne]
    exact hwin
  rw [if_neg (by rw [hst]; decide)]
  exact ⟨hst, hwn⟩

theorem GetMove_Normal (p : Player) (rnd : Draws) (g : Game)
    (h : GetAvailableMoves g ≠ []) :
    GetMove (ai.New Normal p) rnd g =
      getNormalMove (ai.New Normal p) rnd g (GetAvailableMoves g) h := by
  unfold GetMove
  have h1 : ¬ (ai.New Normal p).difficulty = Easy := by simp [ai.New, Normal, Easy]
  have h2 : (ai.New Normal p).difficulty = Normal := rfl
  rw [dif_neg h, if_neg h1, if_pos h2]

/-- C10: on an in-progress board (status `StatusPlaying`, no line complete yet) on which
it is the `Normal` engine's turn: if some `Empty` cell would complete a line for the
engine, `GetMove` returns such a cell and playing it through `MakeMove` yields
`StatusWon` with `Winner` the engine's mark; otherwise, if some `Empty` cell would
complete a line for the opponent, `GetMove` returns such a cell. -/
theorem GetMove_Normal_win_or_block (p : Player) (rnd : Draws) (g : Game)
    (hs : g.Status = StatusPlaying) (hno : checkWinner g = Player.Empty)
    (hcp : g.CurrentPlayer = p) :
    ((∃ r c : Fin 3, winsAt g.Board p r c) →
      ∃ r c : Fin 3, (GetMove (ai.New Normal p) rnd g).1 = ((r.val : Int), (c.val : Int), none) ∧
        winsAt g.Board p r c ∧
        (MakeMove g (r.val : Int) (c.val : Int)).1 = none ∧
        (MakeMove g (r.val : Int) (c.val : Int)).2.Status = StatusWon ∧
        (MakeMove g (r.val : Int) (c.val : Int)).2.Winner = p) ∧
    ((¬ ∃ r c : Fin 3, winsAt g.Board p r c) →
      (∃ r c : Fin 3, winsAt g.Board (ai.New Normal p).opponent r c) →
      ∃ r c : Fin 3, (GetMove (ai.New Normal p) rnd g).1 = ((r.val : Int), (c.val : Int), none) ∧
        winsAt g.Board (ai.New Normal p).opponent r c) := by
  constructor
  · rintro ⟨r, c, hw⟩
    have hne := GetAvailableMoves_ne_nil g r c hw.1
    have hf := findWinningMove_complete g p r c hw
    obtain ⟨r', c', he, hw'⟩ := findWinningMove_sound g p hf
    refine ⟨r', c', ?_, hw', MakeMove_wins g p r' c' hs hcp hno hw'⟩
    rw [GetMove_Normal p rnd g hne]
    unfold getNormalMove
    have hf' : (findWinningMove g (ai.New Normal p).player).1 ≠ -1 := hf
    rw [if_pos hf']
    show ((findWinningMove g p).1, (findWinningMove g p).2, none) = _
    rw [he]
  · rintro hnone ⟨r, c, hw⟩
    have hne := GetAvailableMoves_ne_nil g r c hw.1
    have hf := findWinningMove_complete g _ r c hw
    obtain ⟨r', c', he, hw'⟩ := findWinningMove_sound g _ hf
    refine ⟨r', c', ?_, hw'⟩
    rw [GetMove_Normal p rnd g hne]
    unfold getNormalMove
    have hf1 : ¬ (findWinningMove g (ai.New Normal p).player).1 ≠ -1 := by
      intro h1
      obtain ⟨r1, c1, _, hw1⟩ := findWinningMove_sound g _ h1
      exact hnone ⟨r1, c1, hw1⟩
    rw [if_neg hf1, if_pos hf]
    show ((findWinningMove g _).1, (findWinningMove g _).2, none) = _
    rw [he]

theorem GetMove_Normal_win_or_block_witness :
    ∃ r c : Fin 3,
      (GetMove (ai.New Normal PlayerX) ⟨false, 0⟩
        (applyMoves game.New [⟨0, 0⟩, ⟨1, 1⟩, ⟨0, 1⟩, ⟨2, 2⟩])).1 =
          ((r.val : Int), (c.val : Int), none) ∧
      winsAt (applyMoves game.New [⟨0, 0⟩, ⟨1, 1⟩, ⟨0, 1⟩, ⟨2, 2⟩]).Board PlayerX r c ∧
      (MakeMove (applyMoves game.New [⟨0, 0⟩, ⟨1, 1⟩, ⟨0, 1⟩, ⟨2, 2⟩])
        (r.val : Int) (c.val : Int)).1 = none ∧
      (MakeMove (applyMoves game.New [⟨0, 0⟩, ⟨1, 1⟩, ⟨0, 1⟩, ⟨2, 2⟩])
        (r.val : Int) (c.val : Int)).2.Status = StatusWon ∧
      (MakeMove (applyMoves game.New [⟨0, 0⟩, ⟨1, 1⟩, ⟨0, 1⟩, ⟨2, 2⟩])
        (r.val : Int) (c.val : Int)).2.Winner = PlayerX :=
  (GetMove_Normal_win_or_block PlayerX ⟨false, 0⟩
    (applyMoves game.New [⟨0, 0⟩, ⟨1, 1⟩, ⟨0, 1⟩, ⟨2, 2⟩]) rfl rfl rfl).1
    ⟨0, 2, rfl, by decide, [(0, 0), (0, 1), (0, 2)], by decide, by decide, by decide⟩

end ai

namespace ai

open game

theorem forcePlayer_eq {α : Type} (x : Player) (k : Player → α) : forcePlayer x k = k x := by
  cases x <;> rfl

theorem forceRow_eq {α : Type} (r : Arr3 Player) (k : Arr3 Player → α) :
    forceRow r k = k r := by
  unfold forceRow
  rw [forcePlayer_eq, forcePlayer_eq, forcePlayer_eq]

theorem forceBoard_eq {α : Type} (b : Board) (k : Board → α) : forceBoard b k = k b := by
  unfold forceBoard
  rw [forceRow_eq, forceRow_eq, forceRow_eq]

theorem safe_zero (p : Player) (g : Game) (m : Bool) :
    safe p g 0 m =
      if g.Status = StatusWon then decide (g.Winner = p)
      else if g.Status = StatusDraw then true else true := by
  unfold safe; rfl

theorem safe_succ (p : Player) (g : Game) (d : Nat) (m : Bool) :
    safe p g (d + 1) m =
      if g.Status = StatusWon then decide (g.Winner = p)
      else if g.Status = StatusDraw then true
      else if m then
        (GetAvailableMoves g).any (fun move =>
          safe p (MakeMove (copyGame g) move.Row move.Col).2 d false)
      else
        (GetAvailableMoves g).all (fun move =>
          safe p (MakeMove (copyGame g) move.Row move.Col).2 d true) := by
  rw [safe]

theorem minimax_zero (a : AI) (g : Game) (m : Bool) :
    minimax a g 0 m =
      if g.Status = StatusWon then
        (if g.Winner = a.player then 10 + ((0 : Nat) : Int) else -10 - ((0 : Nat) : Int))
      else if g.Status = StatusDraw then 0 else 0 := by
  unfold minimax; rfl

theorem minimax_succ (a : AI) (g : Game) (d : Nat) (m : Bool) :
    minimax a g (d + 1) m =
      if g.Status = StatusWon then
        (if g.Winner = a.player then 10 + ((d + 1 : Nat) : Int) else -10 - ((d + 1 : Nat) : Int))
      else if g.Status = StatusDraw then 0
      else if m then
        (GetAvailableMoves g).foldl (fun maxScore move =>
            max maxScore (minimax a (MakeMove (copyGame g) move.Row move.Col).2 d false))
            (-1000)
      else
        (GetAvailableMoves g).foldl (fun minScore move =>
            min minScore (minimax a (MakeMove (copyGame g) move.Row move.Col).2 d true))
            1000 := by
  rw [minimax]

theorem foldl_max_nonneg {α : Type} (f : α → Int) (l : List α) (init : Int) :
    0 ≤ l.foldl (fun acc x => max acc (f x)) init ↔ 0 ≤ init ∨ ∃ x ∈ l, 0 ≤ f x := by
  induction l generalizing init with
  | nil => simp
  | cons y l ih =>
    rw [List.foldl_cons, ih]
    simp only [List.mem_cons, exists_eq_or_imp]
    unfold max
    split_ifs with h
    · have : 0 ≤ f y → 0 ≤ init := by omega
      tauto
    · have : 0 ≤ init → 0 ≤ f y := by omega
      tauto

theorem foldl_min_nonneg {α : Type} (f : α → Int) (l : List α) (init : Int) :
    0 ≤ l.foldl (fun acc x => min acc (f x)) init ↔ 0 ≤ init ∧ ∀ x ∈ l, 0 ≤ f x := by
  induction l generalizing init with
  | nil => simp
  | cons y l ih =>
    rw [List.foldl_cons, ih]
    simp only [List.mem_cons, forall_eq_or_imp]
    unfold min
    split_ifs with h
    · have : 0 ≤ init → 0 ≤ f y := by omega
      tauto
    · have : 0 ≤ f y → 0 ≤ init := by omega
      tauto

end ai

namespace ai

open game

/-- The function `safe` is the sign of `minimax`: it holds exactly when the score is at
least `0`. -/
theorem safe_iff_minimax (a : AI) (d : Nat) (g : Game) (m : Bool) :
    safe a.player g d m = true ↔ 0 ≤ minimax a g d m := by
  induction d generalizing g m with
  | zero =>
    rw [safe_zero, minimax_zero]
    split_ifs <;> simp_all
  | succ d ih =>
    rw [safe_succ, minimax_succ]
    split_ifs with h1 h2 h3 h4
    · simp only [h2, decide_True, true_iff]
      omega
    · simp only [h2, decide_False, Bool.false_eq_true, false_iff]
      omega
    · simp
    · rw [foldl_max_nonneg (fun (move : Position) =>
        minimax a (MakeMove (copyGame g) move.Row move.Col).2 d false), List.any_eq_true]
      simp only [ih]
      constructor
      · intro h; exact Or.inr h
      · rintro (h | h)
        · omega
        · exact h
    · rw [foldl_min_nonneg (fun (move : Position) =>
        minimax a (MakeMove (copyGame g) move.Row move.Col).2 d true), List.all_eq_true]
      simp only [ih]
      constructor
      · intro h; exact ⟨by omega, h⟩
      · rintro ⟨_, h⟩; exact h

end ai

namespace game

theorem checkGameStatus_Winner (g : Game) :
    (checkGameStatus g).Winner =
      if checkWinner g ≠ Empty then checkWinner g else g.Winner := by
  unfold checkGameStatus; split_ifs <;> rfl

/-- The board after an accepted move. -/
theorem MakeMove_ok_Board (g : Game) (row col : Int) (h : (MakeMove g row col).1 = none) :
    (MakeMove g row col).2.Board =
      g.Board.setCell (toIdx row) (toIdx col) g.CurrentPlayer := by
  rw [MakeMove_fst] at h
  split_ifs at h with h1 h2 h3
  have hs : g.Status = StatusPlaying := by simpa using h1
  have he : g.Board.cell (toIdx row) (toIdx col) = Empty := by simpa using h3
  rw [MakeMove_snd_of_ok g row col hs h2 he]
  split_ifs
  · rw [switchPlayer_Board, checkGameStatus_Board]
  · rw [checkGameStatus_Board]

/-- The winner after an accepted move: the mark `checkWinner` finds on the new board, or
the previous value when it finds none. -/
theorem MakeMove_ok_Winner (g : Game) (row col : Int) (h : (MakeMove g row col).1 = none) :
    (MakeMove g row col).2.Winner =
      if checkWinner (MakeMove g row col).2 ≠ Empty then checkWinner (MakeMove g row col).2
      else g.Winner := by
  rw [MakeMove_fst] at h
  split_ifs at h with h1 h2 h3
  have hs : g.Status = StatusPlaying := by simpa using h1
  have he : g.Board.cell (toIdx row) (toIdx col) = Empty := by simpa using h3
  rw [MakeMove_snd_of_ok g row col hs h2 he]
  generalize hg2 : ({ g with
            Board := g.Board.setCell (toIdx row) (toIdx col) g.CurrentPlayer
            MoveHistory := g.MoveHistory ++ [⟨row, col⟩] } : Game) = g2
  have hw2 : g2.Winner = g.Winner := by rw [← hg2]
  by_cases h4 : (checkGameStatus g2).Status = StatusPlaying
  · rw [if_pos h4, switchPlayer_Winner, checkGameStatus_Winner,
      checkWinner_congr _ _ ((switchPlayer_Board _).trans (checkGameStatus_Board _)), hw2]
  · rw [if_neg h4, checkGameStatus_Winner, checkWinner_congr _ _ (checkGameStatus_Board _),
      hw2]

theorem MakeMove_ok_Mode (g : Game) (row col : Int) :
    (MakeMove g row col).2.Mode = g.Mode := by
  by_cases h : (MakeMove g row col).1 = none
  · rw [MakeMove_fst] at h
    split_ifs at h with h1 h2 h3
    have hs : g.Status = StatusPlaying := by simpa using h1
    have he : g.Board.cell (toIdx row) (toIdx col) = Empty := by simpa using h3
    rw [MakeMove_snd_of_ok g row col hs h2 he]
    split_ifs
    · rw [switchPlayer_Mode, checkGameStatus_Mode]
    · rw [checkGameStatus_Mode]
  · rw [MakeMove_snd_of_rejected g row col h]

/-- After an accepted move that ends the game, `CurrentPlayer` is unchanged. -/
theorem MakeMove_ok_over_CurrentPlayer (g : Game) (row col : Int)
    (h : (MakeMove g row col).1 = none)
    (hp : (MakeMove g row col).2.Status ≠ StatusPlaying) :
    (MakeMove g row col).2.CurrentPlayer = g.CurrentPlayer := by
  rw [MakeMove_fst] at h
  split_ifs at h with h1 h2 h3
  have hs : g.Status = StatusPlaying := by simpa using h1
  have he : g.Board.cell (toIdx row) (toIdx col) = Empty := by simpa using h3
  rw [MakeMove_snd_of_ok g row col hs h2 he] at hp ⊢
  generalize hg2 : ({ g with
            Board := g.Board.setCell (toIdx row) (toIdx col) g.CurrentPlayer
            MoveHistory := g.MoveHistory ++ [⟨row, col⟩] } : Game) = g2 at hp ⊢
  have hc2 : g2.CurrentPlayer = g.CurrentPlayer := by rw [← hg2]
  by_cases h4 : (checkGameStatus g2).Status = StatusPlaying
  · rw [if_pos h4, switchPlayer_Status] at hp
    exact absurd h4 hp
  · rw [if_neg h4, checkGameStatus_CurrentPlayer, hc2]

/-- A move is accepted exactly when the game is playing and the position is an in-bounds
`Empty` cell. -/
theorem MakeMove_fst_eq_none_iff (g : Game) (row col : Int) :
    (MakeMove g row col).1 = none ↔
      g.Status = StatusPlaying ∧ (0 ≤ row ∧ row ≤ 2 ∧ 0 ≤ col ∧ col ≤ 2) ∧
        g.Board.cell (toIdx row) (toIdx col) = Empty := by
  rw [MakeMove_fst]
  split_ifs <;> simp_all
  all_goals omega

end game

namespace ai

open game

theorem emptyCount_le (b : Board) : emptyCount b ≤ 9 := by
  unfold emptyCount
  split_ifs <;> omega

theorem emptyCount_pos (b : Board) (r c : Fin 3) (h : b.cell r c = Player.Empty) :
    0 < emptyCount b := by
  obtain ⟨⟨a0, a1, a2⟩, ⟨b0, b1, b2⟩, ⟨c0, c1, c2⟩⟩ := b
  fin_cases r <;> fin_cases c <;>
    simp only [Board.cell, Arr3.get] at h <;>
    simp only [emptyCount, Board.cell, Arr3.get, h, if_true] <;>
    omega

theorem emptyCount_setCell (b : Board) (r c : Fin 3) (q : Player)
    (h : b.cell r c = Player.Empty) (hq : q ≠ Player.Empty) :
    emptyCount (b.setCell r c q) + 1 = emptyCount b := by
  obtain ⟨⟨a0, a1, a2⟩, ⟨b0, b1, b2⟩, ⟨c0, c1, c2⟩⟩ := b
  fin_cases r <;> fin_cases c <;>
    simp only [Board.cell, Arr3.get] at h <;>
    simp only [emptyCount, Board.cell, Board.setCell, Arr3.get, Arr3.set, h, hq, if_true,
      if_false] <;>
    omega

end ai

namespace ai

open game

theorem Wf_New : Wf game.New := ⟨by decide, fun _ => by decide⟩

theorem Wf_MakeMove (g : Game) (row col : Int) (h : Wf g) : Wf (MakeMove g row col).2 := by
  by_cases hok : (MakeMove g row col).1 = none
  · constructor
    · by_cases hp : (MakeMove g row col).2.Status = StatusPlaying
      · rw [MakeMove_ok_playing_CurrentPlayer g row col hok hp]
        split_ifs <;> decide
      · rw [MakeMove_ok_over_CurrentPlayer g row col hok hp]
        exact h.1
    · intro hp
      have hst := MakeMove_ok_Status g row col hok
      rw [hp] at hst
      split_ifs at hst with h1 h2
      simpa using h2
  · rw [MakeMove_snd_of_rejected g row col hok]
    exact h

theorem Wf_copyGame (g : Game) (h : Wf g) : Wf (copyGame g) :=
  ⟨h.1, fun hs => (isBoardFull_congr (copyGame g) g rfl).trans (h.2 hs)⟩

theorem emptyCount_pos_of_playing (g : Game) (h : Wf g) (hs : g.Status = StatusPlaying) :
    0 < emptyCount g.Board := by
  have hf := h.2 hs
  have hn : ¬ noEmptyCell g.Board := by
    rw [← isBoardFull_iff, hf]
    decide
  unfold noEmptyCell at hn
  push_neg at hn
  obtain ⟨r, c, hc⟩ := hn
  exact emptyCount_pos _ r c hc

/-- The position the search reaches by playing an available move on a copy of a playing
game: the move is accepted, and one `Empty` cell fewer is left. -/
theorem child_spec (g : Game) (m : Position) (hw : Wf g) (hs : g.Status = StatusPlaying)
    (hm : m ∈ GetAvailableMoves g) :
    (MakeMove (copyGame g) m.Row m.Col).1 = none ∧
    Wf (MakeMove (copyGame g) m.Row m.Col).2 ∧
    emptyCount (MakeMove (copyGame g) m.Row m.Col).2.Board + 1 = emptyCount g.Board := by
  obtain ⟨r, c, rfl, he⟩ := (mem_GetAvailableMoves g m).mp hm
  have hok : (MakeMove (copyGame g) (r.val : Int) (c.val : Int)).1 = none := by
    rw [MakeMove_fst_eq_none_iff, toIdx_val, toIdx_val]
    have := r.isLt
    have := c.isLt
    exact ⟨hs, by omega, he⟩
  refine ⟨hok, Wf_MakeMove _ _ _ (Wf_copyGame g hw), ?_⟩
  rw [MakeMove_ok_Board _ _ _ hok, toIdx_val, toIdx_val]
  exact emptyCount_setCell g.Board r c g.CurrentPlayer he hw.1

theorem safe_of_Won (p : Player) (g : Game) (d : Nat) (m : Bool)
    (h : g.Status = StatusWon) : safe p g d m = decide (g.Winner = p) := by
  cases d with
  | zero => rw [safe_zero, if_pos h]
  | succ d => rw [safe_succ, if_pos h]

theorem safe_of_Draw (p : Player) (g : Game) (d : Nat) (m : Bool)
    (h : g.Status = StatusDraw) : safe p g d m = true := by
  have h1 : ¬ g.Status = StatusWon := by rw [h]; decide
  cases d with
  | zero => rw [safe_zero, if_neg h1, if_pos h]
  | succ d => rw [safe_succ, if_neg h1, if_pos h]

theorem safe_succ_playing (p : Player) (g : Game) (d : Nat) (m : Bool)
    (h : g.Status = StatusPlaying) :
    safe p g (d + 1) m =
      if m then
        (GetAvailableMoves g).any (fun move =>
          safe p (MakeMove (copyGame g) move.Row move.Col).2 d false)
      else
        (GetAvailableMoves g).all (fun move =>
          safe p (MakeMove (copyGame g) move.Row move.Col).2 d true) := by
  have h1 : ¬ g.Status = StatusWon := by rw [h]; decide
  have h2 : ¬ g.Status = StatusDraw := by rw [h]; decide
  rw [safe_succ, if_neg h1, if_neg h2]

theorem any_congr_mem {α : Type} (l : List α) (f g : α → Bool)
    (h : ∀ x ∈ l, f x = g x) : l.any f = l.any g := by
  induction l with
  | nil => rfl
  | cons a l ih =>
    rw [List.any_cons, List.any_cons, h a (List.mem_cons_self _ _),
      ih (fun x hx => h x (List.mem_cons_of_mem _ hx))]

theorem all_congr_mem {α : Type} (l : List α) (f g : α → Bool)
    (h : ∀ x ∈ l, f x = g x) : l.all f = l.all g := by
  induction l with
  | nil => rfl
  | cons a l ih =>
    rw [List.all_cons, List.all_cons, h a (List.mem_cons_self _ _),
      ih (fun x hx => h x (List.mem_cons_of_mem _ hx))]

/-- Once the depth is at least the number of `Empty` cells, the depth-exhausted rule is
never applied, and `safe` no longer depends on the depth. -/
theorem safe_depth_irrel (p : Player) (d d' : Nat) (g : Game) (m : Bool) (hw : Wf g)
    (hd : emptyCount g.Board ≤ d) (hd' : emptyCount g.Board ≤ d') :
    safe p g d m = safe p g d' m := by
  induction d generalizing d' g m with
  | zero =>
    cases hst : g.Status with
    | StatusPlaying =>
      have := emptyCount_pos_of_playing g hw hst
      omega
    | StatusWon => rw [safe_of_Won p g _ m hst, safe_of_Won p g _ m hst]
    | StatusDraw => rw [safe_of_Draw p g _ m hst, safe_of_Draw p g _ m hst]
  | succ n ih =>
    cases hst : g.Status with
    | StatusWon => rw [safe_of_Won p g _ m hst, safe_of_Won p g _ m hst]
    | StatusDraw => rw [safe_of_Draw p g _ m hst, safe_of_Draw p g _ m hst]
    | StatusPlaying =>
      have hpos := emptyCount_pos_of_playing g hw hst
      obtain ⟨n', rfl⟩ : ∃ n', d' = n' + 1 := ⟨d' - 1, by omega⟩
      rw [safe_succ_playing p g n m hst, safe_succ_playing p g n' m hst]
      cases m with
      | true =>
        simp only [if_true]
        apply any_congr_mem
        intro mv hmv
        obtain ⟨_, hcw, hce⟩ := child_spec g mv hw hst hmv
        exact ih n' _ false hcw (by omega) (by omega)
      | false =>
        simp only [Bool.false_eq_true, if_false]
        apply all_congr_mem
        intro mv hmv
        obtain ⟨_, hcw, hce⟩ := child_spec g mv hw hst hmv
        exact ih n' _ true hcw (by omega) (by omega)

end ai

namespace ai

open game

theorem copyGame_eq_iff (g1 g2 : Game) :
    copyGame g1 = copyGame g2 ↔
      g1.Board = g2.Board ∧ g1.CurrentPlayer = g2.CurrentPlayer ∧ g1.Status = g2.Status ∧
        g1.Winner = g2.Winner ∧ g1.Mode = g2.Mode := by
  unfold copyGame
  simp only [Game.mk.injEq, and_true]

/-- `MakeMove` reads only the fields `copyGame` keeps: on two games that agree on them it
returns the same error and games that again agree on them. -/
theorem MakeMove_core (g1 g2 : Game) (row col : Int) (h : copyGame g1 = copyGame g2) :
    (MakeMove g1 row col).1 = (MakeMove g2 row col).1 ∧
    copyGame (MakeMove g1 row col).2 = copyGame (MakeMove g2 row col).2 := by
  obtain ⟨hB, hC, hS, hW, hM⟩ := (copyGame_eq_iff g1 g2).mp h
  have hfst : (MakeMove g1 row col).1 = (MakeMove g2 row col).1 := by
    rw [MakeMove_fst, MakeMove_fst, hB, hS]
  refine ⟨hfst, ?_⟩
  by_cases hok : (MakeMove g1 row col).1 = none
  · have hok2 : (MakeMove g2 row col).1 = none := hfst ▸ hok
    have hB' : (MakeMove g1 row col).2.Board = (MakeMove g2 row col).2.Board := by
      rw [MakeMove_ok_Board _ _ _ hok, MakeMove_ok_Board _ _ _ hok2, hB, hC]
    have hS' : (MakeMove g1 row col).2.Status = (MakeMove g2 row col).2.Status := by
      rw [MakeMove_ok_Status _ _ _ hok, MakeMove_ok_Status _ _ _ hok2,
        checkWinner_congr _ _ hB', isBoardFull_congr _ _ hB']
    rw [copyGame_eq_iff]
    refine ⟨hB', ?_, hS', ?_, ?_⟩
    · by_cases hp : (MakeMove g1 row col).2.Status = StatusPlaying
      · rw [MakeMove_ok_playing_CurrentPlayer _ _ _ hok hp,
          MakeMove_ok_playing_CurrentPlayer _ _ _ hok2 (hS' ▸ hp), hC]
      · rw [MakeMove_ok_over_CurrentPlayer _ _ _ hok hp,
          MakeMove_ok_over_CurrentPlayer _ _ _ hok2 (hS' ▸ hp), hC]
    · rw [MakeMove_ok_Winner _ _ _ hok, MakeMove_ok_Winner _ _ _ hok2,
        checkWinner_congr _ _ hB', hW]
    · rw [MakeMove_ok_Mode, MakeMove_ok_Mode, hM]
  · have hok2 : (MakeMove g2 row col).1 ≠ none := hfst ▸ hok
    rw [MakeMove_snd_of_rejected _ _ _ hok, MakeMove_snd_of_rejected _ _ _ hok2]
    exact h

theorem copyGame_copyGame (g : Game) : copyGame (copyGame g) = copyGame g := rfl

theorem GetAvailableMoves_congr (g1 g2 : Game) (h : g1.Board = g2.Board) :
    GetAvailableMoves g1 = GetAvailableMoves g2 := by
  unfold GetAvailableMoves; rw [h]

/-- The function `safe` reads only the fields `copyGame` keeps. -/
theorem safe_core (p : Player) (g1 g2 : Game) (d : Nat) (m : Bool)
    (h : copyGame g1 = copyGame g2) : safe p g1 d m = safe p g2 d m := by
  obtain ⟨hB, hC, hS, hW, hM⟩ := (copyGame_eq_iff g1 g2).mp h
  cases d with
  | zero => rw [safe_zero, safe_zero, hS, hW]
  | succ d => rw [safe_succ, safe_succ, hS, hW, GetAvailableMoves_congr g1 g2 hB, h]

theorem safeB_succ (p : Player) (b : Board) (cur : Player) (d : Nat) (m : Bool) :
    safeB p b cur (d + 1) m =
      if m then
        (candidates b cur).any (fun rc =>
          decide (b.cell rc.1 rc.2 = Player.Empty) &&
          forceBoard (b.setCell rc.1 rc.2 cur) fun b' =>
            if checkWinner (boardGame b' cur) ≠ Player.Empty then
              decide (checkWinner (boardGame b' cur) = p)
            else if isBoardFull (boardGame b' cur) then true
            else safeB p b' (if cur = PlayerX then PlayerO else PlayerX) d false)
      else
        allCells.all (fun rc =>
          !decide (b.cell rc.1 rc.2 = Player.Empty) ||
          forceBoard (b.setCell rc.1 rc.2 cur) fun b' =>
            if checkWinner (boardGame b' cur) ≠ Player.Empty then
              decide (checkWinner (boardGame b' cur) = p)
            else if isBoardFull (boardGame b' cur) then true
            else safeB p b' (if cur = PlayerX then PlayerO else PlayerX) d true) := by
  rw [safeB]

theorem mem_allCells (rc : Fin 3 × Fin 3) : rc ∈ allCells := by
  obtain ⟨r, c⟩ := rc
  fin_cases r <;> fin_cases c <;> simp [allCells]

/-- The search certificate is sound: where `safeB` holds for the board and turn of a
playing game, `safe` holds for the game. -/
theorem safeB_sound (p : Player) (d : Nat) (g : Game) (m : Bool) (hw : Wf g)
    (hs : g.Status = StatusPlaying) (h : safeB p g.Board g.CurrentPlayer d m = true) :
    safe p g d m = true := by
  induction d generalizing g m with
  | zero =>
    rw [safe_zero]
    split_ifs <;> simp_all
  | succ d ih =>
    have node : ∀ (r c : Fin 3) (m' : Bool), g.Board.cell r c = Player.Empty →
        (if checkWinner (boardGame (g.Board.setCell r c g.CurrentPlayer) g.CurrentPlayer) ≠
            Player.Empty then
          decide (checkWinner (boardGame (g.Board.setCell r c g.CurrentPlayer)
            g.CurrentPlayer) = p)
        else if isBoardFull (boardGame (g.Board.setCell r c g.CurrentPlayer)
            g.CurrentPlayer) then true
        else safeB p (g.Board.setCell r c g.CurrentPlayer)
          (if g.CurrentPlayer = PlayerX then PlayerO else PlayerX) d m') = true →
        safe p (MakeMove (copyGame g) (r.val : Int) (c.val : Int)).2 d m' = true := by
      intro r c m' he hv
      have hmem : (⟨(r.val : Int), (c.val : Int)⟩ : Position) ∈ GetAvailableMoves g :=
        (mem_GetAvailableMoves g _).mpr ⟨r, c, rfl, he⟩
      obtain ⟨hok, hcw, _⟩ := child_spec g _ hw hs hmem
      have hB := MakeMove_ok_Board _ _ _ hok
      rw [toIdx_val, toIdx_val] at hB
      have hB' : (MakeMove (copyGame g) (r.val : Int) (c.val : Int)).2.Board =
          (boardGame (g.Board.setCell r c g.CurrentPlayer) g.CurrentPlayer).Board := hB
      have hst := MakeMove_ok_Status _ _ _ hok
      have hwn := MakeMove_ok_Winner _ _ _ hok
      rw [checkWinner_congr _ _ hB', isBoardFull_congr _ _ hB'] at hst
      rw [checkWinner_congr _ _ hB'] at hwn
      by_cases h1 : checkWinner (boardGame (g.Board.setCell r c g.CurrentPlayer)
          g.CurrentPlayer) ≠ Player.Empty
      · rw [if_pos h1] at hv hst hwn
        rw [safe_of_Won p _ d m' hst, hwn]
        exact hv
      · rw [if_neg h1] at hv hst
        by_cases h2 : isBoardFull (boardGame (g.Board.setCell r c g.CurrentPlayer)
            g.CurrentPlayer) = true
        · rw [if_pos h2] at hst
          exact safe_of_Draw p _ d m' hst
        · rw [if_neg h2] at hv hst
          apply ih _ m' hcw hst
          rw [hB, MakeMove_ok_playing_CurrentPlayer _ _ _ hok hst]
          exact hv
    rw [safe_succ_playing p g d m hs]
    rw [safeB_succ] at h
    cases m with
    | true =>
      simp only [if_true] at h ⊢
      rw [List.any_eq_true] at h ⊢
      obtain ⟨rc, _, hrc⟩ := h
      rw [Bool.and_eq_true, decide_eq_true_eq, forceBoard_eq] at hrc
      exact ⟨⟨(rc.1.val : Int), (rc.2.val : Int)⟩,
        (mem_GetAvailableMoves g _).mpr ⟨rc.1, rc.2, rfl, hrc.1⟩,
        node rc.1 rc.2 false hrc.1 hrc.2⟩
    | false =>
      simp only [Bool.false_eq_true, if_false] at h ⊢
      rw [List.all_eq_true] at h ⊢
      intro mv hmv
      obtain ⟨r, c, rfl, he⟩ := (mem_GetAvailableMoves g mv).mp hmv
      have hrc := h (r, c) (mem_allCells _)
      rw [Bool.or_eq_true, forceBoard_eq] at hrc
      rcases hrc with hrc | hrc
      · simp [he] at hrc
      · exact node r c true he hrc

end ai

namespace ai

open game

theorem safe_flag_of_over (p : Player) (g : Game) (d : Nat) (m m' : Bool)
    (h : g.Status ≠ StatusPlaying) : safe p g d m = safe p g d m' := by
  cases hst : g.Status with
  | StatusPlaying => exact absurd hst h
  | StatusWon => rw [safe_of_Won p g d m hst, safe_of_Won p g d m' hst]
  | StatusDraw => rw [safe_of_Draw p g d m hst, safe_of_Draw p g d m' hst]

set_option maxRecDepth 100000 in
/-- The search certificate for the engine playing `PlayerX`, from the empty board. -/
theorem safeB_New_X : safeB PlayerX game.New.Board PlayerX 10 true = true := by
  decide!

set_option maxRecDepth 100000 in
/-- The search certificate for the engine playing `PlayerO`, from the empty board. -/
theorem safeB_New_O : safeB PlayerO game.New.Board PlayerX 10 false = true := by
  decide!

/-- From the empty board the engine is not lost, whichever mark it plays. -/
theorem safe_New (p : Player) (hp : p = PlayerX ∨ p = PlayerO) :
    safe p game.New 10 (decide (game.New.CurrentPlayer = p)) = true := by
  rcases hp with rfl | rfl
  · exact safeB_sound PlayerX 10 game.New true Wf_New rfl safeB_New_X
  · exact safeB_sound PlayerO 10 game.New false Wf_New rfl safeB_New_O

theorem GetMove_INeverLose (a : AI) (rnd : Draws) (g : Game) (hd : a.difficulty = INeverLose)
    (h : GetAvailableMoves g ≠ []) :
    GetMove a rnd g = getPerfectMove a rnd g (GetAvailableMoves g) h := by
  unfold GetMove
  rw [dif_neg h, hd, if_neg (by decide), if_neg (by decide), if_neg (by decide), if_pos rfl]

/-- On a playing game that `safe` reports as not lost with the engine to move, the
`INeverLose` tier returns an available move after which `safe` still reports the position
as not lost. -/
theorem GetMove_INeverLose_safe (a : AI) (rnd : Draws) (g : Game)
    (hd : a.difficulty = INeverLose) (hw : Wf g) (hs : g.Status = StatusPlaying)
    (h : safe a.player g 10 true = true) :
    ∃ best ∈ GetAvailableMoves g, (GetMove a rnd g).1 = (best.Row, best.Col, none) ∧
      safe a.player (MakeMove (copyGame g) best.Row best.Col).2 10 false = true := by
  rw [safe_succ_playing a.player g 9 true hs] at h
  simp only [if_true] at h
  rw [List.any_eq_true] at h
  obtain ⟨m0, hm0, hsafe0⟩ := h
  obtain ⟨_, hcw0, _⟩ := child_spec g m0 hw hs hm0
  have hle := emptyCount_le (MakeMove (copyGame g) m0.Row m0.Col).2.Board
  rw [safe_depth_irrel a.player 9 10 _ false hcw0 hle (le_trans hle (by decide)),
    safe_iff_minimax]
    at hsafe0
  have hne : GetAvailableMoves g ≠ [] := List.ne_nil_of_mem hm0
  rw [GetMove_INeverLose a rnd g hd hne]
  unfold getPerfectMove
  obtain ⟨hg, hb⟩ := bestMoveLoop_spec a 10 g (GetAvailableMoves g)
  rcases hb with hb | hb
  · have := hb.2 m0 hm0
    unfold moveScore at this
    omega
  · have hrow := Row_ne_neg_one_of_mem g _ hb.1
    dsimp only
    rw [if_neg hrow]
    refine ⟨_, hb.1, rfl, ?_⟩
    rw [safe_iff_minimax]
    have h1 := hb.2.2.2 m0 hm0
    have h2 := hb.2.1
    unfold moveScore at h1 h2
    omega

end ai

namespace ai

open game

theorem mem_GetAvailableMoves_of_ok (g : Game) (row col : Int)
    (h : (MakeMove g row col).1 = none) :
    (⟨row, col⟩ : Position) ∈ GetAvailableMoves g := by
  obtain ⟨_, hb, he⟩ := (MakeMove_fst_eq_none_iff g row col).mp h
  refine (mem_GetAvailableMoves g _).mpr ⟨toIdx row, toIdx col, ?_, he⟩
  rw [toIdx_cast row hb.1 hb.2.1, toIdx_cast col hb.2.2.1 hb.2.2.2]

/-- Along every game the `INeverLose` engine plays, the game is well formed and `safe`
reports the position as not lost for the engine. -/
theorem Plays_safe (p : Player) (hp : p = PlayerX ∨ p = PlayerO) (g : Game)
    (h : Plays (ai.New INeverLose p) g) :
    Wf g ∧ safe p g 10 (decide (g.CurrentPlayer = p)) = true := by
  induction h with
  | init => exact ⟨Wf_New, safe_New p hp⟩
  | engine g rnd _ hs hcp ih =>
    have hcp' : g.CurrentPlayer = p := hcp
    have h1 : safe (ai.New INeverLose p).player g 10 true = true := by
      have := ih.2
      rwa [hcp', decide_eq_true rfl] at this
    obtain ⟨best, hbm, hget, hsafe⟩ :=
      GetMove_INeverLose_safe (ai.New INeverLose p) rnd g rfl ih.1 hs h1
    rw [hget]
    show Wf (MakeMove g best.Row best.Col).2 ∧
      safe p (MakeMove g best.Row best.Col).2 10
        (decide ((MakeMove g best.Row best.Col).2.CurrentPlayer = p)) = true
    have hcore := MakeMove_core g (copyGame g) best.Row best.Col rfl
    have hok : (MakeMove g best.Row best.Col).1 = none := by
      rw [hcore.1]; exact (child_spec g best ih.1 hs hbm).1
    have hsafe' : safe p (MakeMove g best.Row best.Col).2 10 false = true := by
      rw [safe_core p _ _ 10 false hcore.2]; exact hsafe
    refine ⟨Wf_MakeMove g _ _ ih.1, ?_⟩
    by_cases hpl : (MakeMove g best.Row best.Col).2.Status = StatusPlaying
    · have hne : ¬ (MakeMove g best.Row best.Col).2.CurrentPlayer = p := by
        rw [MakeMove_ok_playing_CurrentPlayer g _ _ hok hpl, hcp']
        rcases hp with rfl | rfl <;> decide
      rw [decide_eq_false hne]
      exact hsafe'
    · rw [safe_flag_of_over p _ 10 _ false hpl]
      exact hsafe'
  | opponent g row col _ hs hcp hok ih =>
    have hcp' : ¬ g.CurrentPlayer = p := hcp
    have h1 : safe p g 10 false = true := by
      have := ih.2
      rwa [decide_eq_false hcp'] at this
    rw [safe_succ_playing p g 9 false hs] at h1
    simp only [Bool.false_eq_true, if_false] at h1
    rw [List.all_eq_true] at h1
    have hmem := mem_GetAvailableMoves_of_ok g row col hok
    have h2 := h1 _ hmem
    obtain ⟨_, hcw, _⟩ := child_spec g _ ih.1 hs hmem
    have hle := emptyCount_le (MakeMove (copyGame g) row col).2.Board
    have hcore := MakeMove_core g (copyGame g) row col rfl
    have hsafe' : safe p (MakeMove g row col).2 10 true = true := by
      rw [safe_core p _ _ 10 true hcore.2,
        ← safe_depth_irrel p 9 10 _ true hcw hle (le_trans hle (by decide))]
      exact h2
    refine ⟨Wf_MakeMove g _ _ ih.1, ?_⟩
    by_cases hpl : (MakeMove g row col).2.Status = StatusPlaying
    · have heq : (MakeMove g row col).2.CurrentPlayer = p := by
        rw [MakeMove_ok_playing_CurrentPlayer g _ _ hok hpl]
        have hne := ih.1.1
        revert hcp' hne
        generalize g.CurrentPlayer = q
        rcases hp with rfl | rfl <;> cases q <;> decide
      rw [decide_eq_true heq]
      exact hsafe'
    · rw [safe_flag_of_over p _ 10 _ true hpl]
      exact hsafe'

/-- C1: for the `INeverLose` engine playing either mark, in every game from `New()` in
which the engine's turns are played by `MakeMove` on the result of `GetMove` and the
opponent's turns by any accepted moves, the game never is `StatusWon` with `Winner` the
opponent's mark: once it has ended it is won by the engine or drawn. -/
theorem INeverLose_never_loses (p : Player) (hp : p = PlayerX ∨ p = PlayerO) (g : Game)
    (h : Plays (ai.New INeverLose p) g) :
    ¬ (g.Status = StatusWon ∧ g.Winner = (ai.New INeverLose p).opponent) ∧
    (g.Status ≠ StatusPlaying →
      (g.Status = StatusWon ∧ g.Winner = p) ∨ g.Status = StatusDraw) := by
  obtain ⟨_, hsafe⟩ := Plays_safe p hp g h
  have hwon : g.Status = StatusWon → g.Winner = p := by
    intro hs
    rw [safe_of_Won p g 10 _ hs] at hsafe
    exact of_decide_eq_true hsafe
  constructor
  · rintro ⟨hs, hw⟩
    rw [hwon hs] at hw
    rcases hp with rfl | rfl <;> exact absurd hw (by decide)
  · intro hne
    cases hst : g.Status with
    | StatusPlaying => exact absurd hst hne
    | StatusWon => exact Or.inl ⟨rfl, hwon hst⟩
    | StatusDraw => exact Or.inr rfl

theorem INeverLose_never_loses_witness :
    Plays (ai.New INeverLose PlayerO)
      (MakeMove (MakeMove game.New 0 0).2
        (GetMove (ai.New INeverLose PlayerO) ⟨false, 0⟩ (MakeMove game.New 0 0).2).1.1
        (GetMove (ai.New INeverLose PlayerO) ⟨false, 0⟩ (MakeMove game.New 0 0).2).1.2.1).2 ∧
    ¬ ((MakeMove (MakeMove game.New 0 0).2
        (GetMove (ai.New INeverLose PlayerO) ⟨false, 0⟩ (MakeMove game.New 0 0).2).1.1
        (GetMove (ai.New INeverLose PlayerO) ⟨false, 0⟩
          (MakeMove game.New 0 0).2).1.2.1).2.Status = StatusWon ∧
      (MakeMove (MakeMove game.New 0 0).2
        (GetMove (ai.New INeverLose PlayerO) ⟨false, 0⟩ (MakeMove game.New 0 0).2).1.1
        (GetMove (ai.New INeverLose PlayerO) ⟨false, 0⟩
          (MakeMove game.New 0 0).2).1.2.1).2.Winner = PlayerX) :=
  ⟨Plays.engine _ ⟨false, 0⟩
      (Plays.opponent _ 0 0 Plays.init rfl (by decide) rfl) rfl rfl,
    (INeverLose_never_loses PlayerO (Or.inr rfl) _
      (Plays.engine _ ⟨false, 0⟩
        (Plays.opponent _ 0 0 Plays.init rfl (by decide) rfl) rfl rfl)).1⟩

end ai

namespace game

/-- C13: `IsValidMove(row, col)` is true exactly when `0 ≤ row ≤ 2`, `0 ≤ col ≤ 2`, the
status is `StatusPlaying` and `Board[row][col]` is `Empty`; so it is true exactly when
`MakeMove(row, col)` returns no error. -/
theorem IsValidMove_iff (g : Game) (row col : Int) :
    (IsValidMove g row col = true ↔
      (0 ≤ row ∧ row ≤ 2) ∧ (0 ≤ col ∧ col ≤ 2) ∧ g.Status = StatusPlaying ∧
        g.Board.cell (toIdx row) (toIdx col) = Empty) ∧
    (IsValidMove g row col = true ↔ (MakeMove g row col).1 = none) := by
  have h1 : IsValidMove g row col = true ↔
      (0 ≤ row ∧ row ≤ 2) ∧ (0 ≤ col ∧ col ≤ 2) ∧ g.Status = StatusPlaying ∧
        g.Board.cell (toIdx row) (toIdx col) = Empty := by
    unfold IsValidMove
    split_ifs with hb
    · constructor
      · intro h; exact absurd h (by decide)
      · rintro ⟨hr, hc, _⟩; omega
    · rw [Bool.and_eq_true, decide_eq_true_eq, decide_eq_true_eq]
      constructor
      · rintro ⟨he, hs⟩; exact ⟨by omega, by omega, hs, he⟩
      · rintro ⟨_, _, hs, he⟩; exact ⟨he, hs⟩
  refine ⟨h1, ?_⟩
  rw [h1, MakeMove_fst_eq_none_iff]
  constructor
  · rintro ⟨hr, hc, hs, he⟩; exact ⟨hs, ⟨hr.1, hr.2, hc.1, hc.2⟩, he⟩
  · rintro ⟨hs, hb, he⟩; exact ⟨⟨hb.1, hb.2.1⟩, ⟨hb.2.2.1, hb.2.2.2⟩, hs, he⟩

/-- C14: `Reset()` yields the grid, `CurrentPlayer`, `Status`, `Winner` and `MoveHistory`
that `New()` creates and leaves `Mode` as it was; this holds on every game, so on every
game reached from `New()` by `MakeMove` calls, where `Mode` is still the one of `New()`
and `Reset()` therefore yields `New()` itself. -/
theorem Reset_spec (g : Game) :
    (Reset g).Board = New.Board ∧
    (∀ r c : Fin 3, (Reset g).Board.cell r c = Empty) ∧
    (Reset g).CurrentPlayer = PlayerX ∧
    (Reset g).Status = StatusPlaying ∧
    (Reset g).Winner = Empty ∧
    (Reset g).MoveHistory = [] ∧
    (Reset g).Mode = g.Mode ∧
    (Reachable g → Reset g = New) := by
  refine ⟨rfl, fun r c => by fin_cases r <;> fin_cases c <;> rfl, rfl, rfl, rfl, rfl, rfl, ?_⟩
  intro h
  have hm : g.Mode = PlayerVsPlayer := by
    induction h with
    | init => rfl
    | move g row col _ ih => rw [MakeMove_ok_Mode]; exact ih
  unfold Reset
  rw [hm]
  rfl

theorem Reset_spec_witness :
    Reachable (applyMoves New [⟨0, 0⟩, ⟨1, 1⟩]) ∧
      Reset (applyMoves New [⟨0, 0⟩, ⟨1, 1⟩]) = New :=
  ⟨Reachable.move _ 1 1 (Reachable.move _ 0 0 Reachable.init),
    (Reset_spec (applyMoves New [⟨0, 0⟩, ⟨1, 1⟩])).2.2.2.2.2.2.2
      (Reachable.move _ 1 1 (Reachable.move _ 0 0 Reachable.init))⟩

end game

namespace game

theorem GetAvailableMoves_row (b : Board) (r : Fin 3) :
    (idx3.filter (fun col => decide (b.cell r col = Empty))).map
        (fun col => (⟨(r.val : Int), (col.val : Int)⟩ : Position)) =
      ((idx3.map (fun c => (r, c))).filter
        (fun rc => decide (b.cell rc.1 rc.2 = Empty))).map posOf := by
  rw [List.filter_map, List.map_map]
  rfl

/-- `GetAvailableMoves` is the row-major list of cells, filtered by `Empty`. -/
theorem GetAvailableMoves_eq (g : Game) :
    GetAvailableMoves g =
      (ai.allCells.filter (fun rc => decide (g.Board.cell rc.1 rc.2 = Empty))).map posOf := by
  have hcells : ai.allCells =
      idx3.map (fun c => ((0 : Fin 3), c)) ++ (idx3.map (fun c => ((1 : Fin 3), c)) ++
        idx3.map (fun c => ((2 : Fin 3), c))) := rfl
  rw [hcells, List.filter_append, List.filter_append, List.map_append, List.map_append,
    ← GetAvailableMoves_row, ← GetAvailableMoves_row, ← GetAvailableMoves_row]
  unfold GetAvailableMoves
  simp only [idx3, List.flatMap_cons, List.flatMap_nil, List.append_nil]

theorem allCells_pairwise : (ai.allCells.map posOf).Pairwise rowMajorLt := by
  unfold rowMajorLt
  decide

theorem GetAvailableMoves_pairwise (g : Game) :
    (GetAvailableMoves g).Pairwise rowMajorLt := by
  rw [GetAvailableMoves_eq]
  exact List.Pairwise.sublist ((List.filter_sublist _).map posOf) allCells_pairwise

theorem rowMajorLt_ne (m m' : Position) (h : rowMajorLt m m') : m ≠ m' := by
  rintro rfl
  rcases h with h | h
  · omega
  · omega

end game

namespace game

theorem length_GetAvailableMoves (g : Game) :
    (GetAvailableMoves g).length + markCount g.Board = 9 := by
  rw [GetAvailableMoves_eq, List.length_map, ← List.countP_eq_length_filter]
  have h := List.length_eq_countP_add_countP
    (fun rc : Fin 3 × Fin 3 => decide (g.Board.cell rc.1 rc.2 = Empty)) ai.allCells
  have h9 : ai.allCells.length = 9 := rfl
  rw [h9] at h
  unfold markCount
  rw [h]
  congr 1
  apply List.countP_congr
  intro rc _
  simp

/-- C12, as the code has it: `GetAvailableMoves` returns exactly the positions of the
`Empty` cells, each once, in row-major order, so its length is `9` minus the number of
marks on the board; it is the empty sequence exactly when no cell is `Empty`, whatever
the status. -/
theorem GetAvailableMoves_spec (g : Game) :
    (∀ m : Position, m ∈ GetAvailableMoves g ↔
      ∃ r c : Fin 3, m = ⟨(r.val : Int), (c.val : Int)⟩ ∧ g.Board.cell r c = Empty) ∧
    (GetAvailableMoves g).Nodup ∧
    (GetAvailableMoves g).Pairwise rowMajorLt ∧
    (GetAvailableMoves g).length = 9 - markCount g.Board ∧
    (GetAvailableMoves g = [] ↔ noEmptyCell g.Board) := by
  refine ⟨ai.mem_GetAvailableMoves g, ?_, GetAvailableMoves_pairwise g, ?_, ?_⟩
  · exact (GetAvailableMoves_pairwise g).imp (fun h => rowMajorLt_ne _ _ h)
  · have := length_GetAvailableMoves g
    omega
  · rw [ai.GetAvailableMoves_eq_nil_iff, isBoardFull_iff]

/-- C12 fails as stated: after the seven moves of the test "should handle full board" the
game has ended (`PlayerX` has won), and `GetAvailableMoves` still returns the two `Empty`
cells instead of the empty sequence. -/
theorem GetAvailableMoves_ended_game_nonempty :
    (applyMoves New [⟨0, 0⟩, ⟨0, 1⟩, ⟨0, 2⟩, ⟨1, 0⟩, ⟨1, 1⟩, ⟨1, 2⟩, ⟨2, 0⟩]).Status =
      StatusWon ∧
    GetAvailableMoves
        (applyMoves New [⟨0, 0⟩, ⟨0, 1⟩, ⟨0, 2⟩, ⟨1, 0⟩, ⟨1, 1⟩, ⟨1, 2⟩, ⟨2, 0⟩]) =
      [⟨2, 1⟩, ⟨2, 2⟩] ∧
    GetAvailableMoves
        (applyMoves New [⟨0, 0⟩, ⟨0, 1⟩, ⟨0, 2⟩, ⟨1, 0⟩, ⟨1, 1⟩, ⟨1, 2⟩, ⟨2, 0⟩]) ≠ [] := by
  decide

end game

namespace game

theorem countMark_setCell_same (b : Board) (r c : Fin 3) (q : Player)
    (h : b.cell r c = Empty) (hq : q ≠ Empty) :
    countMark (b.setCell r c q) q = countMark b q + 1 := by
  obtain ⟨⟨a0, a1, a2⟩, ⟨b0, b1, b2⟩, ⟨c0, c1, c2⟩⟩ := b
  have hq' : ¬ Empty = q := fun h => hq h.symm
  fin_cases r <;> fin_cases c <;>
    simp only [Board.cell, Arr3.get] at h <;>
    simp only [countMark, ai.allCells, List.countP_cons, List.countP_nil, Board.cell,
      Board.setCell, Arr3.get, Arr3.set, h, hq', decide_True, decide_False, if_true,
      if_false, Bool.false_eq_true] <;>
    omega

theorem countMark_setCell_other (b : Board) (r c : Fin 3) (q q' : Player)
    (h : b.cell r c = Empty) (hq : q' ≠ Empty) (hne : q ≠ q') :
    countMark (b.setCell r c q) q' = countMark b q' := by
  obtain ⟨⟨a0, a1, a2⟩, ⟨b0, b1, b2⟩, ⟨c0, c1, c2⟩⟩ := b
  have hq' : ¬ Empty = q' := fun h => hq h.symm
  fin_cases r <;> fin_cases c <;>
    simp only [Board.cell, Arr3.get] at h <;>
    simp only [countMark, ai.allCells, List.countP_cons, List.countP_nil, Board.cell,
      Board.setCell, Arr3.get, Arr3.set, h, hq', hne, decide_True, decide_False, if_true,
      if_false, Bool.false_eq_true]

end game

namespace game

/-- The turn and the mark counts go together: while the game is playing, either
`PlayerX` is to move and the counts are equal, or `PlayerO` is to move and `PlayerX` is
one ahead; once it has ended the counts are still equal or `PlayerX` is one ahead. -/
theorem ReachableR_balance (g : Game) (h : ReachableR g) :
    (g.Status = StatusPlaying →
      (g.CurrentPlayer = PlayerX ∧ countMark g.Board PlayerX = countMark g.Board PlayerO) ∨
      (g.CurrentPlayer = PlayerO ∧
        countMark g.Board PlayerX = countMark g.Board PlayerO + 1)) ∧
    (countMark g.Board PlayerX = countMark g.Board PlayerO ∨
      countMark g.Board PlayerX = countMark g.Board PlayerO + 1) := by
  induction h with
  | init => exact ⟨fun _ => Or.inl ⟨rfl, rfl⟩, Or.inl rfl⟩
  | reset g _ _ => exact ⟨fun _ => Or.inl ⟨rfl, rfl⟩, Or.inl rfl⟩
  | move g row col _ ih =>
    by_cases hok : (MakeMove g row col).1 = none
    · obtain ⟨hs, -, he⟩ := (MakeMove_fst_eq_none_iff g row col).mp hok
      have hB := MakeMove_ok_Board g row col hok
      have hcp := MakeMove_ok_playing_CurrentPlayer g row col hok
      rw [hB]
      rcases ih.1 hs with ⟨hc, hxo⟩ | ⟨hc, hxo⟩
      · rw [hc] at hcp ⊢
        rw [countMark_setCell_same _ _ _ _ he (by decide),
          countMark_setCell_other _ _ _ _ _ he (by decide) (by decide), hxo]
        exact ⟨fun hp => Or.inr ⟨hcp hp, rfl⟩, Or.inr rfl⟩
      · rw [hc] at hcp ⊢
        rw [countMark_setCell_same _ _ _ _ he (by decide),
          countMark_setCell_other _ _ _ _ _ he (by decide) (by decide), hxo]
        exact ⟨fun hp => Or.inl ⟨hcp hp, rfl⟩, Or.inl rfl⟩
    · rw [MakeMove_snd_of_rejected g row col hok]
      exact ih

/-- C15: in every state reachable from `New()` through `MakeMove` and `Reset` calls, the
number of `PlayerX` cells minus the number of `PlayerO` cells is `0` or `1`, and while
the game is in progress it is `0` exactly when `CurrentPlayer` is `PlayerX`. -/
theorem ReachableR_mark_difference (g : Game) (h : ReachableR g) :
    ((countMark g.Board PlayerX : Int) - (countMark g.Board PlayerO : Int) = 0 ∨
      (countMark g.Board PlayerX : Int) - (countMark g.Board PlayerO : Int) = 1) ∧
    (g.Status = StatusPlaying →
      ((countMark g.Board PlayerX : Int) - (countMark g.Board PlayerO : Int) = 0 ↔
        g.CurrentPlayer = PlayerX)) := by
  obtain ⟨h1, h2⟩ := ReachableR_balance g h
  constructor
  · rcases h2 with h2 | h2
    · left; omega
    · right; omega
  · intro hs
    rcases h1 hs with ⟨hc, hxo⟩ | ⟨hc, hxo⟩
    · rw [hc]
      exact ⟨fun _ => rfl, fun _ => by omega⟩
    · rw [hc]
      constructor
      · intro h0; omega
      · intro hne; exact absurd hne (by decide)

theorem ReachableR_mark_difference_witness :
    ReachableR (MakeMove (Reset (MakeMove New 0 0).2) 1 1).2 ∧
    ((((countMark (MakeMove (Reset (MakeMove New 0 0).2) 1 1).2.Board PlayerX : Int) -
        (countMark (MakeMove (Reset (MakeMove New 0 0).2) 1 1).2.Board PlayerO : Int) = 0 ∨
      (countMark (MakeMove (Reset (MakeMove New 0 0).2) 1 1).2.Board PlayerX : Int) -
        (countMark (MakeMove (Reset (MakeMove New 0 0).2) 1 1).2.Board PlayerO : Int) = 1)) ∧
    ((MakeMove (Reset (MakeMove New 0 0).2) 1 1).2.Status = StatusPlaying →
      ((countMark (MakeMove (Reset (MakeMove New 0 0).2) 1 1).2.Board PlayerX : Int) -
        (countMark (MakeMove (Reset (MakeMove New 0 0).2) 1 1).2.Board PlayerO : Int) = 0 ↔
        (MakeMove (Reset (MakeMove New 0 0).2) 1 1).2.CurrentPlayer = PlayerX))) :=
  ⟨ReachableR.move _ 1 1 (ReachableR.reset _ (ReachableR.move _ 0 0 ReachableR.init)),
    ReachableR_mark_difference _
      (ReachableR.move _ 1 1 (ReachableR.reset _ (ReachableR.move _ 0 0 ReachableR.init)))⟩

end game

namespace game

/-- After a mark `q` is written into a cell of a board without a complete line,
`checkWinner` finds no line or a line of `q`. -/
theorem checkWinner_setCell (g g2 : Game) (r c : Fin 3) (q : Player)
    (hB : g2.Board = g.Board.setCell r c q) (hno : checkWinner g = Empty) :
    checkWinner g2 = Empty ∨ checkWinner g2 = q := by
  rcases checkWinner_spec g2 with ⟨h1, _⟩ | ⟨l2, hl2, hq, hc2⟩
  · exact Or.inl h1
  · right
    by_cases hin : (r, c) ∈ l2
    · have := hc2 _ hin
      rw [hB, cell_setCell_same] at this
      exact this.symm
    · exfalso
      apply (checkWinner_ne_Empty_iff g).not.mp (by simpa using hno)
      refine ⟨l2, hl2, checkWinner g2, hq, fun rc hrc => ?_⟩
      have hne' : rc ≠ (r, c) := fun h => hin (h ▸ hrc)
      have := hc2 rc hrc
      rwa [hB, cell_setCell_other _ _ _ _ _ _ hne'] at this

theorem Reachable_playing_checkWinner (g : Game) (h : Reachable g)
    (hs : g.Status = StatusPlaying) : checkWinner g = Empty := by
  have he := Reachable_status_eq g h
  rw [hs] at he
  by_contra hne
  rw [if_pos hne] at he
  exact absurd he (by decide)

/-- On states reached from `New()`, `Winner` is `Empty` unless the game is won. -/
theorem Reachable_Winner (g : Game) (h : Reachable g) (hs : g.Status ≠ StatusWon) :
    g.Winner = Empty := by
  induction h with
  | init => rfl
  | move g row col _ ih =>
    by_cases hok : (MakeMove g row col).1 = none
    · have hst := MakeMove_ok_Status g row col hok
      have hw := MakeMove_ok_Winner g row col hok
      have hps := ((MakeMove_fst_eq_none_iff g row col).mp hok).1
      by_cases hcw : checkWinner (MakeMove g row col).2 ≠ Empty
      · rw [if_pos hcw] at hst
        exact absurd hst hs
      · rw [if_neg hcw] at hw
        rw [hw]
        exact ih (by rw [hps]; decide)
    · rw [MakeMove_snd_of_rejected g row col hok] at hs ⊢
      exact ih hs

/-- Once the game has ended, every sequence of `MakeMove` calls leaves it as it is. -/
theorem applyMoves_of_over (g : Game) (hs : g.Status ≠ StatusPlaying) (ms : List Position) :
    applyMoves g ms = g := by
  induction ms with
  | nil => rfl
  | cons m ms ih =>
    show applyMoves (MakeMove g m.Row m.Col).2 ms = g
    rw [MakeMove_snd_of_error g m.Row m.Col (Or.inl hs)]
    exact ih

/-- C16: for an in-progress state reachable from `New()` and an accepted move: if the
move ends the game, `CurrentPlayer` is not flipped and stays the mark that made the move;
if the result is `StatusWon`, `Winner` is that mark; if the result is `StatusDraw` or
`StatusPlaying`, `Winner` stays `Empty`; and once the game has ended every `MakeMove`
call is rejected and no sequence of calls changes the game (so neither `CurrentPlayer`
nor `Status` nor `Winner`). -/
theorem final_move_freezes (g : Game) (row col : Int) (hr : Reachable g)
    (hs : g.Status = StatusPlaying) (hok : (MakeMove g row col).1 = none) :
    ((MakeMove g row col).2.Status ≠ StatusPlaying →
      (MakeMove g row col).2.CurrentPlayer = g.CurrentPlayer) ∧
    ((MakeMove g row col).2.Status = StatusWon →
      (MakeMove g row col).2.Winner = g.CurrentPlayer) ∧
    ((MakeMove g row col).2.Status = StatusDraw ∨
        (MakeMove g row col).2.Status = StatusPlaying →
      (MakeMove g row col).2.Winner = Empty) ∧
    ((MakeMove g row col).2.Status ≠ StatusPlaying →
      (∀ row' col' : Int,
        (MakeMove (MakeMove g row col).2 row' col').1 = some MoveError.notPlaying ∧
        (MakeMove (MakeMove g row col).2 row' col').2 = (MakeMove g row col).2) ∧
      ∀ ms : List Position,
        (applyMoves (MakeMove g row col).2 ms).CurrentPlayer =
          (MakeMove g row col).2.CurrentPlayer ∧
        (applyMoves (MakeMove g row col).2 ms).Status = (MakeMove g row col).2.Status ∧
        (applyMoves (MakeMove g row col).2 ms).Winner = (MakeMove g row col).2.Winner) := by
  have hst := MakeMove_ok_Status g row col hok
  have hw := MakeMove_ok_Winner g row col hok
  have hB := MakeMove_ok_Board g row col hok
  refine ⟨MakeMove_ok_over_CurrentPlayer g row col hok, ?_, ?_, ?_⟩
  · intro hwon
    by_cases hcw : checkWinner (MakeMove g row col).2 ≠ Empty
    · rw [if_pos hcw] at hw
      rw [hw]
      rcases checkWinner_setCell g _ _ _ _ hB (Reachable_playing_checkWinner g hr hs) with
        h | h
      · exact absurd h hcw
      · exact h
    · rw [if_neg hcw] at hst
      split_ifs at hst <;> rw [hst] at hwon <;> exact absurd hwon (by decide)
  · intro hdp
    apply Reachable_Winner _ (Reachable.move g row col hr)
    rcases hdp with h | h <;> rw [h] <;> decide
  · intro hover
    refine ⟨fun row' col' => ⟨?_, MakeMove_snd_of_error _ row' col' (Or.inl hover)⟩, ?_⟩
    · rw [MakeMove_fst, if_pos hover]
    · intro ms
      rw [applyMoves_of_over _ hover ms]
      exact ⟨rfl, rfl, rfl⟩

theorem final_move_freezes_witness :
    (MakeMove (applyMoves New [⟨0, 0⟩, ⟨1, 0⟩, ⟨0, 1⟩, ⟨1, 1⟩]) 0 2).2.Status = StatusWon ∧
    (MakeMove (applyMoves New [⟨0, 0⟩, ⟨1, 0⟩, ⟨0, 1⟩, ⟨1, 1⟩]) 0 2).2.Winner =
      (applyMoves New [⟨0, 0⟩, ⟨1, 0⟩, ⟨0, 1⟩, ⟨1, 1⟩]).CurrentPlayer :=
  ⟨by decide,
    (final_move_freezes (applyMoves New [⟨0, 0⟩, ⟨1, 0⟩, ⟨0, 1⟩, ⟨1, 1⟩]) 0 2
      (Reachable.move _ 1 1 (Reachable.move _ 0 1 (Reachable.move _ 1 0
        (Reachable.move _ 0 0 Reachable.init)))) (by decide) (by decide)).2.1 (by decide)⟩

end game

namespace ai

open game

/-- The value of the maximising loop of `minimax`: the start value or one of the scores,
and at least the start value and every score. -/
theorem foldl_max_spec {α : Type} (f : α → Int) (l : List α) (init : Int) :
    (l.foldl (fun acc x => max acc (f x)) init = init ∨
      ∃ x ∈ l, l.foldl (fun acc x => max acc (f x)) init = f x) ∧
    init ≤ l.foldl (fun acc x => max acc (f x)) init ∧
    ∀ x ∈ l, f x ≤ l.foldl (fun acc x => max acc (f x)) init := by
  induction l generalizing init with
  | nil => simp
  | cons y l ih =>
    rw [List.foldl_cons]
    obtain ⟨h1, h2, h3⟩ := ih (max init (f y))
    have hm : max init (f y) = init ∨ max init (f y) = f y := by
      unfold max; split_ifs <;> simp
    have hi : init ≤ max init (f y) := by
      unfold max; split_ifs <;> omega
    have hy : f y ≤ max init (f y) := by
      unfold max; split_ifs <;> omega
    refine ⟨?_, le_trans hi h2, ?_⟩
    · rcases h1 with h1 | ⟨x, hx, h1⟩
      · rcases hm with hm | hm
        · exact Or.inl (h1.trans hm)
        · exact Or.inr ⟨y, List.mem_cons_self _ _, h1.trans hm⟩
      · exact Or.inr ⟨x, List.mem_cons_of_mem _ hx, h1⟩
    · intro x hx
      rcases List.mem_cons.mp hx with rfl | hx
      · exact le_trans hy h2
      · exact h3 x hx

/-- The value of the minimising loop of `minimax`: the start value or one of the scores,
and at most the start value and every score. -/
theorem foldl_min_spec {α : Type} (f : α → Int) (l : List α) (init : Int) :
    (l.foldl (fun acc x => min acc (f x)) init = init ∨
      ∃ x ∈ l, l.foldl (fun acc x => min acc (f x)) init = f x) ∧
    l.foldl (fun acc x => min acc (f x)) init ≤ init ∧
    ∀ x ∈ l, l.foldl (fun acc x => min acc (f x)) init ≤ f x := by
  induction l generalizing init with
  | nil => simp
  | cons y l ih =>
    rw [List.foldl_cons]
    obtain ⟨h1, h2, h3⟩ := ih (min init (f y))
    have hm : min init (f y) = init ∨ min init (f y) = f y := by
      unfold min; split_ifs <;> simp
    have hi : min init (f y) ≤ init := by
      unfold min; split_ifs <;> omega
    have hy : min init (f y) ≤ f y := by
      unfold min; split_ifs <;> omega
    refine ⟨?_, le_trans h2 hi, ?_⟩
    · rcases h1 with h1 | ⟨x, hx, h1⟩
      · rcases hm with hm | hm
        · exact Or.inl (h1.trans hm)
        · exact Or.inr ⟨y, List.mem_cons_self _ _, h1.trans hm⟩
      · exact Or.inr ⟨x, List.mem_cons_of_mem _ hx, h1⟩
    · intro x hx
      rcases List.mem_cons.mp hx with rfl | hx
      · exact le_trans h2 hy
      · exact h3 x hx

/-- An available move played on a copy of a playing game is accepted, and the copy is
then `StatusPlaying` only if a cell is left. -/
theorem child_ok (g : Game) (m : Position) (hs : g.Status = StatusPlaying)
    (hm : m ∈ GetAvailableMoves g) :
    (MakeMove (copyGame g) m.Row m.Col).1 = none ∧
    ((MakeMove (copyGame g) m.Row m.Col).2.Status = StatusPlaying →
      isBoardFull (MakeMove (copyGame g) m.Row m.Col).2 = false) := by
  obtain ⟨r, c, rfl, he⟩ := (mem_GetAvailableMoves g m).mp hm
  have hok : (MakeMove (copyGame g) (r.val : Int) (c.val : Int)).1 = none := by
    rw [MakeMove_fst_eq_none_iff, toIdx_val, toIdx_val]
    have := r.isLt
    have := c.isLt
    exact ⟨hs, by omega, he⟩
  refine ⟨hok, fun hp => ?_⟩
  have hst := MakeMove_ok_Status _ _ _ hok
  rw [hp] at hst
  split_ifs at hst with h1 h2
  simpa using h2

theorem minimax_succ_playing (a : AI) (g : Game) (d : Nat) (m : Bool)
    (h : g.Status = StatusPlaying) :
    minimax a g (d + 1) m =
      if m then
        (GetAvailableMoves g).foldl (fun maxScore move =>
            max maxScore (minimax a (MakeMove (copyGame g) move.Row move.Col).2 d false))
            (-1000)
      else
        (GetAvailableMoves g).foldl (fun minScore move =>
            min minScore (minimax a (MakeMove (copyGame g) move.Row move.Col).2 d true))
            1000 := by
  have h1 : ¬ g.Status = StatusWon := by rw [h]; decide
  have h2 : ¬ g.Status = StatusDraw := by rw [h]; decide
  rw [minimax_succ, if_neg h1, if_neg h2]

theorem GetAvailableMoves_ne_nil_of_not_full (g : Game) (h : isBoardFull g = false) :
    GetAvailableMoves g ≠ [] := by
  intro hnil
  rw [GetAvailableMoves_eq_nil_iff, h] at hnil
  exact absurd hnil (by decide)

/-- On a game that is `StatusPlaying` only while a cell is left, `minimax` at depth `d`
lies between `-10 - d` and `10 + d`. -/
theorem minimax_bounds (a : AI) (d : Nat) (g : Game) (m : Bool)
    (hf : g.Status = StatusPlaying → isBoardFull g = false) :
    -10 - (d : Int) ≤ minimax a g d m ∧ minimax a g d m ≤ 10 + (d : Int) := by
  induction d generalizing g m with
  | zero =>
    rw [minimax_zero]
    split_ifs <;> constructor <;> omega
  | succ d ih =>
    cases hst : g.Status with
    | StatusWon =>
      rw [minimax_succ, if_pos hst]
      split_ifs <;> constructor <;> omega
    | StatusDraw =>
      have h1 : ¬ g.Status = StatusWon := by rw [hst]; decide
      rw [minimax_succ, if_neg h1, if_pos hst]
      constructor <;> omega
    | StatusPlaying =>
      rw [minimax_succ_playing a g d m hst]
      have hne := GetAvailableMoves_ne_nil_of_not_full g (hf hst)
      obtain ⟨m0, hm0⟩ := List.exists_mem_of_ne_nil _ hne
      have hch : ∀ mv ∈ GetAvailableMoves g, ∀ m' : Bool,
          -10 - (d : Int) ≤ minimax a (MakeMove (copyGame g) mv.Row mv.Col).2 d m' ∧
          minimax a (MakeMove (copyGame g) mv.Row mv.Col).2 d m' ≤ 10 + (d : Int) :=
        fun mv hmv m' => ih _ m' (child_ok g mv hst hmv).2
      cases m with
      | true =>
        simp only [if_true]
        obtain ⟨h1, h2, h3⟩ := foldl_max_spec (fun (mv : Position) =>
          minimax a (MakeMove (copyGame g) mv.Row mv.Col).2 d false)
          (GetAvailableMoves g) (-1000)
        constructor
        · have := h3 m0 hm0
          have := (hch m0 hm0 false).1
          push_cast
          omega
        · rcases h1 with h1 | ⟨x, hx, h1⟩
          · rw [h1]; push_cast; omega
          · rw [h1]
            have := (hch x hx false).2
            push_cast
            omega
      | false =>
        simp only [Bool.false_eq_true, if_false]
        obtain ⟨h1, h2, h3⟩ := foldl_min_spec (fun (mv : Position) =>
          minimax a (MakeMove (copyGame g) mv.Row mv.Col).2 d true)
          (GetAvailableMoves g) 1000
        constructor
        · rcases h1 with h1 | ⟨x, hx, h1⟩
          · rw [h1]; push_cast; omega
          · rw [h1]
            have := (hch x hx true).1
            push_cast
            omega
        · have := h3 m0 hm0
          have := (hch m0 hm0 true).2
          push_cast
          omega

end ai

namespace ai

open game

/-- The candidate loop keeps the first move of maximal score: it ends with its start
values when no score exceeds `bs`, and otherwise with a move that splits the list into
moves of strictly smaller score before it and moves of at most its score after it. -/
theorem bestMoveLoop_first (a : AI) (depth : Nat) (g : Game) (l : List Position)
    (bm : Position) (bs : Int) :
    ((l.foldl (fun (st : Game × Position × Int) move =>
        if moveScore a depth st.1 move > st.2.2 then (st.1, move, moveScore a depth st.1 move)
        else st) (g, bm, bs)).2 = (bm, bs) ∧ ∀ m ∈ l, moveScore a depth g m ≤ bs) ∨
    ∃ l1 l2, l = l1 ++ (l.foldl (fun (st : Game × Position × Int) move =>
        if moveScore a depth st.1 move > st.2.2 then (st.1, move, moveScore a depth st.1 move)
        else st) (g, bm, bs)).2.1 :: l2 ∧
      (l.foldl (fun (st : Game × Position × Int) move =>
        if moveScore a depth st.1 move > st.2.2 then (st.1, move, moveScore a depth st.1 move)
        else st) (g, bm, bs)).2.2 =
        moveScore a depth g (l.foldl (fun (st : Game × Position × Int) move =>
          if moveScore a depth st.1 move > st.2.2 then
            (st.1, move, moveScore a depth st.1 move)
          else st) (g, bm, bs)).2.1 ∧
      bs < (l.foldl (fun (st : Game × Position × Int) move =>
        if moveScore a depth st.1 move > st.2.2 then (st.1, move, moveScore a depth st.1 move)
        else st) (g, bm, bs)).2.2 ∧
      (∀ m ∈ l1, moveScore a depth g m < (l.foldl (fun (st : Game × Position × Int) move =>
        if moveScore a depth st.1 move > st.2.2 then (st.1, move, moveScore a depth st.1 move)
        else st) (g, bm, bs)).2.2) ∧
      (∀ m ∈ l2, moveScore a depth g m ≤ (l.foldl (fun (st : Game × Position × Int) move =>
        if moveScore a depth st.1 move > st.2.2 then (st.1, move, moveScore a depth st.1 move)
        else st) (g, bm, bs)).2.2) := by
  induction l generalizing bm bs with
  | nil => exact Or.inl ⟨rfl, by simp⟩
  | cons m l ih =>
    rw [List.foldl_cons]
    by_cases hgt : moveScore a depth g m > bs
    · simp only [hgt, if_true]
      rcases ih m (moveScore a depth g m) with h | ⟨l1, l2, h1, h2, h3, h4, h5⟩
      · right
        refine ⟨[], l, ?_, ?_, ?_, ?_, ?_⟩
        · rw [h.1]; rfl
        · rw [h.1]
        · rw [h.1]; exact hgt
        · simp
        · rw [h.1]; exact h.2
      · right
        refine ⟨m :: l1, l2, ?_, h2, lt_trans hgt h3, ?_, h5⟩
        · rw [List.cons_append, ← h1]
        · intro m' hm'
          rcases List.mem_cons.mp hm' with rfl | hm'
          · exact h3
          · exact h4 m' hm'
    · simp only [hgt, if_false]
      rcases ih bm bs with h | ⟨l1, l2, h1, h2, h3, h4, h5⟩
      · left
        refine ⟨h.1, ?_⟩
        intro m' hm'
        rcases List.mem_cons.mp hm' with rfl | hm'
        · exact not_lt.mp hgt
        · exact h.2 m' hm'
      · right
        refine ⟨m :: l1, l2, ?_, h2, h3, ?_, h5⟩
        · rw [List.cons_append, ← h1]
        · intro m' hm'
          rcases List.mem_cons.mp hm' with rfl | hm'
          · exact lt_of_le_of_lt (not_lt.mp hgt) h3
          · exact h4 m' hm'

theorem GetMove_Hard (a : AI) (rnd : Draws) (g : Game) (hd : a.difficulty = Hard)
    (h : GetAvailableMoves g ≠ []) :
    GetMove a rnd g = getHardMove a rnd g (GetAvailableMoves g) h := by
  unfold GetMove
  rw [dif_neg h, hd, if_neg (by decide), if_neg (by decide), if_pos rfl]

/-- Every candidate score lies between `-10 - depth` and `10 + depth`. -/
theorem moveScore_bounds (a : AI) (depth : Nat) (g : Game) (m : Position)
    (hs : g.Status = StatusPlaying) (hm : m ∈ GetAvailableMoves g) :
    -10 - (depth : Int) ≤ moveScore a depth g m ∧ moveScore a depth g m ≤ 10 + (depth : Int) :=
  minimax_bounds a depth _ false (child_ok g m hs hm).2

/-- What the candidate loop of `getHardMove` and `getPerfectMove` ends with on a playing
game with an available move, for a depth below `990`. -/
theorem bestMoveLoop_picks (a : AI) (depth : Nat) (g : Game) (hd : depth < 990)
    (hs : g.Status = StatusPlaying) (hne : GetAvailableMoves g ≠ []) :
    ∃ (l1 : List Position) (l2 : List Position),
      GetAvailableMoves g =
        l1 ++ (bestMoveLoop a depth g (GetAvailableMoves g)).2.1 :: l2 ∧
      (∀ m ∈ l1, moveScore a depth g m <
        moveScore a depth g (bestMoveLoop a depth g (GetAvailableMoves g)).2.1) ∧
      (∀ m ∈ l2, moveScore a depth g m ≤
        moveScore a depth g (bestMoveLoop a depth g (GetAvailableMoves g)).2.1) ∧
      (∀ m ∈ GetAvailableMoves g, -1000 < moveScore a depth g m) ∧
      (bestMoveLoop a depth g (GetAvailableMoves g)).2.1.Row ≠ -1 ∧
      (bestMoveLoop a depth g (GetAvailableMoves g)).1 = g := by
  have hsc : ∀ m ∈ GetAvailableMoves g, -1000 < moveScore a depth g m := by
    intro m hm
    have := (moveScore_bounds a depth g m hs hm).1
    omega
  obtain ⟨m0, hm0⟩ := List.exists_mem_of_ne_nil _ hne
  have hfirst := bestMoveLoop_first a depth g (GetAvailableMoves g) ⟨-1, -1⟩ (-1000)
  have hg := (bestMoveLoop_spec a depth g (GetAvailableMoves g)).1
  rcases hfirst with h | ⟨l1, l2, h1, h2, h3, h4, h5⟩
  · have := h.2 m0 hm0
    have := hsc m0 hm0
    omega
  · have h1' : GetAvailableMoves g =
        l1 ++ (bestMoveLoop a depth g (GetAvailableMoves g)).2.1 :: l2 := h1
    have hmem : (bestMoveLoop a depth g (GetAvailableMoves g)).2.1 ∈ GetAvailableMoves g :=
      (congrArg (fun l => (bestMoveLoop a depth g (GetAvailableMoves g)).2.1 ∈ l) h1').mpr
        (List.mem_append.mpr (Or.inr (List.mem_cons_self _ _)))
    refine ⟨l1, l2, h1', ?_, ?_, hsc, Row_ne_neg_one_of_mem g _ hmem, hg⟩
    · intro m hm
      have := h4 m hm
      rw [h2] at this
      exact this
    · intro m hm
      have := h5 m hm
      rw [h2] at this
      exact this

/-- C19: on every in-progress game with at least one available move, the `Hard` tier
(depth 4) and the `INeverLose` tier (depth 10) return the first available move, in
row-major order, whose score `minimax(copy after the move, depth, false)` is maximal;
every score exceeds the initial `-1000`, so the fallback branch is not taken. -/
theorem search_tiers_pick_first_best (a : AI) (rnd : Draws) (g : Game)
    (hs : g.Status = StatusPlaying) (he : ∃ r c : Fin 3, g.Board.cell r c = Player.Empty) :
    (a.difficulty = Hard → PicksFirstBest a rnd g 4) ∧
    (a.difficulty = INeverLose → PicksFirstBest a rnd g 10) := by
  obtain ⟨r, c, hc⟩ := he
  have hne := GetAvailableMoves_ne_nil g r c hc
  constructor
  · intro hd
    obtain ⟨l1, l2, h1, h2, h3, h4, h5, h6⟩ := bestMoveLoop_picks a 4 g (by decide) hs hne
    refine ⟨l1, _, l2, h1, GetAvailableMoves_pairwise g, ?_, h2, h3, h4, h5⟩
    rw [GetMove_Hard a rnd g hd hne]
    unfold getHardMove
    dsimp only
    rw [if_neg h5]
  · intro hd
    obtain ⟨l1, l2, h1, h2, h3, h4, h5, h6⟩ := bestMoveLoop_picks a 10 g (by decide) hs hne
    refine ⟨l1, _, l2, h1, GetAvailableMoves_pairwise g, ?_, h2, h3, h4, h5⟩
    rw [GetMove_INeverLose a rnd g hd hne]
    unfold getPerfectMove
    dsimp only
    rw [if_neg h5]

theorem search_tiers_pick_first_best_witness :
    PicksFirstBest (ai.New Hard PlayerO) ⟨false, 0⟩
      (applyMoves game.New [⟨0, 0⟩, ⟨1, 1⟩, ⟨0, 1⟩]) 4 :=
  (search_tiers_pick_first_best (ai.New Hard PlayerO) ⟨false, 0⟩
    (applyMoves game.New [⟨0, 0⟩, ⟨1, 1⟩, ⟨0, 1⟩]) rfl ⟨0, 2, rfl⟩).1 rfl

end ai

namespace ai

open game

theorem Reachable_Wf (g : Game) (h : Reachable g) : Wf g := by
  induction h with
  | init => exact Wf_New
  | move g row col _ ih => exact Wf_MakeMove g row col ih

theorem minimaxNoCutoff_zero (a : AI) (g : Game) (depth : Int) (m : Bool) :
    minimaxNoCutoff a g 0 depth m =
      if g.Status = StatusWon then
        (if g.Winner = a.player then some (10 + depth) else some (-10 - depth))
      else if g.Status = StatusDraw then some 0 else none := by
  unfold minimaxNoCutoff; rfl

theorem minimaxNoCutoff_succ (a : AI) (g : Game) (f : Nat) (depth : Int) (m : Bool) :
    minimaxNoCutoff a g (f + 1) depth m =
      if g.Status = StatusWon then
        (if g.Winner = a.player then some (10 + depth) else some (-10 - depth))
      else if g.Status = StatusDraw then some 0
      else if m then
        (GetAvailableMoves g).foldl (fun maxScore move =>
          match maxScore,
            minimaxNoCutoff a (MakeMove (copyGame g) move.Row move.Col).2 f (depth - 1)
              false with
          | some s, some v => some (max s v)
          | _, _ => none) (some (-1000))
      else
        (GetAvailableMoves g).foldl (fun minScore move =>
          match minScore,
            minimaxNoCutoff a (MakeMove (copyGame g) move.Row move.Col).2 f (depth - 1)
              true with
          | some s, some v => some (min s v)
          | _, _ => none) (some 1000) := by
  rw [minimaxNoCutoff]

theorem foldl_option_eq {α : Type} (op : Int → Int → Int) (og : α → Option Int)
    (f : α → Int) (l : List α) (init : Int) (h : ∀ x ∈ l, og x = some (f x)) :
    l.foldl (fun acc x =>
        match acc, og x with
        | some s, some v => some (op s v)
        | _, _ => none) (some init) =
      some (l.foldl (fun acc x => op acc (f x)) init) := by
  induction l generalizing init with
  | nil => rfl
  | cons y l ih =>
    rw [List.foldl_cons, List.foldl_cons, h y (List.mem_cons_self _ _)]
    exact ih _ (fun x hx => h x (List.mem_cons_of_mem _ hx))

/-- With fuel and depth at least the number of `Empty` cells, the search without the
depth rule returns, and returns what `minimax` returns. -/
theorem minimaxNoCutoff_eq (a : AI) (fuel d : Nat) (g : Game) (m : Bool) (hw : Wf g)
    (hf : emptyCount g.Board ≤ fuel) (hd : emptyCount g.Board ≤ d) :
    minimaxNoCutoff a g fuel (d : Int) m = some (minimax a g d m) := by
  induction fuel generalizing d g m with
  | zero =>
    cases hst : g.Status with
    | StatusPlaying =>
      have := emptyCount_pos_of_playing g hw hst
      omega
    | StatusWon =>
      rw [minimaxNoCutoff_zero, if_pos hst]
      cases d with
      | zero => rw [minimax_zero, if_pos hst]; split_ifs <;> rfl
      | succ d => rw [minimax_succ, if_pos hst]; split_ifs <;> rfl
    | StatusDraw =>
      have h1 : ¬ g.Status = StatusWon := by rw [hst]; decide
      rw [minimaxNoCutoff_zero, if_neg h1, if_pos hst]
      cases d with
      | zero => rw [minimax_zero, if_neg h1, if_pos hst]
      | succ d => rw [minimax_succ, if_neg h1, if_pos hst]
  | succ f ih =>
    cases hst : g.Status with
    | StatusWon =>
      rw [minimaxNoCutoff_succ, if_pos hst]
      cases d with
      | zero => rw [minimax_zero, if_pos hst]; split_ifs <;> rfl
      | succ d => rw [minimax_succ, if_pos hst]; split_ifs <;> rfl
    | StatusDraw =>
      have h1 : ¬ g.Status = StatusWon := by rw [hst]; decide
      rw [minimaxNoCutoff_succ, if_neg h1, if_pos hst]
      cases d with
      | zero => rw [minimax_zero, if_neg h1, if_pos hst]
      | succ d => rw [minimax_succ, if_neg h1, if_pos hst]
    | StatusPlaying =>
      have hpos := emptyCount_pos_of_playing g hw hst
      obtain ⟨d', rfl⟩ : ∃ d', d = d' + 1 := ⟨d - 1, by omega⟩
      have h1 : ¬ g.Status = StatusWon := by rw [hst]; decide
      have h2 : ¬ g.Status = StatusDraw := by rw [hst]; decide
      have hcast : ((d' + 1 : Nat) : Int) - 1 = (d' : Int) := by push_cast; omega
      rw [minimaxNoCutoff_succ, if_neg h1, if_neg h2, minimax_succ_playing a g d' m hst,
        hcast]
      have hch : ∀ mv ∈ GetAvailableMoves g, ∀ m' : Bool,
          minimaxNoCutoff a (MakeMove (copyGame g) mv.Row mv.Col).2 f (d' : Int) m' =
            some (minimax a (MakeMove (copyGame g) mv.Row mv.Col).2 d' m') := by
        intro mv hmv m'
        obtain ⟨_, hcw, hce⟩ := child_spec g mv hw hst hmv
        exact ih d' _ m' hcw (by omega) (by omega)
      cases m with
      | true =>
        simp only [if_true]
        exact foldl_option_eq max _ (fun (mv : Position) =>
          minimax a (MakeMove (copyGame g) mv.Row mv.Col).2 d' false) _ _
          (fun mv hmv => hch mv hmv false)
      | false =>
        simp only [Bool.false_eq_true, if_false]
        exact foldl_option_eq min _ (fun (mv : Position) =>
          minimax a (MakeMove (copyGame g) mv.Row mv.Col).2 d' true) _ _
          (fun mv hmv => hch mv hmv true)

/-- C20: on every game reachable from `New()`, `minimax` with depth budget 10 equals the
same procedure with the rule "depth == 0 returns 0" removed, which returns as soon as it
is allowed 9 plies: the depth-exhausted rule is never applied to a position that is not
terminal. -/
theorem minimax_depth10_no_cutoff (a : AI) (g : Game) (m : Bool) (fuel : Nat)
    (h : Reachable g) (hf : 9 ≤ fuel) :
    minimaxNoCutoff a g fuel 10 m = some (minimax a g 10 m) := by
  have hle := emptyCount_le g.Board
  exact minimaxNoCutoff_eq a fuel 10 g m (Reachable_Wf g h) (by omega) (by omega)

theorem minimax_depth10_no_cutoff_witness :
    Reachable (applyMoves game.New [⟨0, 0⟩, ⟨1, 1⟩]) ∧
    minimaxNoCutoff (ai.New INeverLose PlayerX) (applyMoves game.New [⟨0, 0⟩, ⟨1, 1⟩]) 9 10
        true =
      some (minimax (ai.New INeverLose PlayerX) (applyMoves game.New [⟨0, 0⟩, ⟨1, 1⟩]) 10
        true) :=
  ⟨Reachable.move _ 1 1 (Reachable.move _ 0 0 Reachable.init),
    minimax_depth10_no_cutoff _ _ true 9
      (Reachable.move _ 1 1 (Reachable.move _ 0 0 Reachable.init)) (by decide)⟩

end ai

namespace ai

open game

/-- In the calls of a search started on a playing game with the engine to move, a
position that is still playing has a mark to move, and the flag says whether that mark
is the engine's. -/
theorem SearchCall_flag (depth : Nat) (g0 g : Game) (d : Nat) (m : Bool) (p : Player)
    (hp : p = PlayerX ∨ p = PlayerO) (hs0 : g0.Status = StatusPlaying)
    (hc0 : g0.CurrentPlayer = p) (h : SearchCall depth g0 g d m)
    (hs : g.Status = StatusPlaying) :
    (g.CurrentPlayer = PlayerX ∨ g.CurrentPlayer = PlayerO) ∧
      (m = true ↔ g.CurrentPlayer = p) := by
  induction h with
  | root move hmove =>
    have hok := (child_ok g0 move hs0 hmove).1
    have hcg : (copyGame g0).CurrentPlayer = g0.CurrentPlayer := rfl
    rw [MakeMove_ok_playing_CurrentPlayer _ _ _ hok hs, hcg, hc0]
    rcases hp with rfl | rfl <;> simp
  | step g1 d1 m1 move _ hs1 hmove ih =>
    have hok := (child_ok g1 move hs1 hmove).1
    have hcg : (copyGame g1).CurrentPlayer = g1.CurrentPlayer := rfl
    rw [MakeMove_ok_playing_CurrentPlayer _ _ _ hok hs, hcg]
    obtain ⟨hxo, hflag⟩ := ih hs1
    revert hflag hxo
    generalize g1.CurrentPlayer = q
    rcases hp with rfl | rfl <;> cases q <;> cases m1 <;> simp

/-- On a playing game with an available move and for a depth `d + 1` up to `991`, the
value `minimax` returns is the greatest, for the flag `true`, and the least, for the flag
`false`, of the values of the available moves. -/
theorem minimax_is_extremum (a : AI) (g : Game) (d : Nat) (hs : g.Status = StatusPlaying)
    (hne : GetAvailableMoves g ≠ []) (hd : d ≤ 990) :
    ((∃ mv ∈ GetAvailableMoves g, minimax a g (d + 1) true =
        minimax a (MakeMove (copyGame g) mv.Row mv.Col).2 d false) ∧
      ∀ mv ∈ GetAvailableMoves g,
        minimax a (MakeMove (copyGame g) mv.Row mv.Col).2 d false ≤
          minimax a g (d + 1) true) ∧
    ((∃ mv ∈ GetAvailableMoves g, minimax a g (d + 1) false =
        minimax a (MakeMove (copyGame g) mv.Row mv.Col).2 d true) ∧
      ∀ mv ∈ GetAvailableMoves g,
        minimax a g (d + 1) false ≤
          minimax a (MakeMove (copyGame g) mv.Row mv.Col).2 d true) := by
  obtain ⟨m0, hm0⟩ := List.exists_mem_of_ne_nil _ hne
  have hch : ∀ mv ∈ GetAvailableMoves g, ∀ m' : Bool,
      -10 - (d : Int) ≤ minimax a (MakeMove (copyGame g) mv.Row mv.Col).2 d m' ∧
      minimax a (MakeMove (copyGame g) mv.Row mv.Col).2 d m' ≤ 10 + (d : Int) :=
    fun mv hmv m' => minimax_bounds a d _ m' (child_ok g mv hs hmv).2
  constructor
  · rw [minimax_succ_playing a g d true hs]
    simp only [if_true]
    obtain ⟨h1, h2, h3⟩ := foldl_max_spec (fun (mv : Position) =>
      minimax a (MakeMove (copyGame g) mv.Row mv.Col).2 d false) (GetAvailableMoves g) (-1000)
    refine ⟨?_, h3⟩
    rcases h1 with h1 | h1
    · refine ⟨m0, hm0, ?_⟩
      have := h3 m0 hm0
      have := (hch m0 hm0 false).1
      omega
    · exact h1
  · rw [minimax_succ_playing a g d false hs]
    simp only [Bool.false_eq_true, if_false]
    obtain ⟨h1, h2, h3⟩ := foldl_min_spec (fun (mv : Position) =>
      minimax a (MakeMove (copyGame g) mv.Row mv.Col).2 d true) (GetAvailableMoves g) 1000
    refine ⟨?_, h3⟩
    rcases h1 with h1 | h1
    · refine ⟨m0, hm0, ?_⟩
      have := h3 m0 hm0
      have := (hch m0 hm0 true).2
      omega
    · exact h1

/-- C18, as the code has it: on every in-progress position with an `Empty` cell and for
every depth from `1` to `991`, `minimax(g, d, true)` is the maximum and
`minimax(g, d, false)` the minimum, over the available moves, of `minimax` at depth
`d - 1` with the flag negated on a copy of `g` on which the move has been played; and in
every call that a search of `GetMove` makes on an in-progress board with the engine to
move, if the position called on is still in progress, the flag is `true` exactly when
its `CurrentPlayer` is the engine's mark. -/
theorem minimax_extremum_and_flag :
    (∀ (a : AI) (g : Game) (d : Nat), g.Status = StatusPlaying →
      (∃ r c : Fin 3, g.Board.cell r c = Player.Empty) → d ≤ 990 →
      ((∃ mv ∈ GetAvailableMoves g, minimax a g (d + 1) true =
          minimax a (MakeMove (copyGame g) mv.Row mv.Col).2 d false) ∧
        ∀ mv ∈ GetAvailableMoves g,
          minimax a (MakeMove (copyGame g) mv.Row mv.Col).2 d false ≤
            minimax a g (d + 1) true) ∧
      ((∃ mv ∈ GetAvailableMoves g, minimax a g (d + 1) false =
          minimax a (MakeMove (copyGame g) mv.Row mv.Col).2 d true) ∧
        ∀ mv ∈ GetAvailableMoves g,
          minimax a g (d + 1) false ≤
            minimax a (MakeMove (copyGame g) mv.Row mv.Col).2 d true)) ∧
    (∀ (tier : Difficulty) (p : Player) (depth : Nat) (g0 g : Game) (d : Nat) (m : Bool),
      (p = PlayerX ∨ p = PlayerO) → g0.Status = StatusPlaying →
      g0.CurrentPlayer = (ai.New tier p).player → SearchCall depth g0 g d m →
      g.Status = StatusPlaying → (m = true ↔ g.CurrentPlayer = (ai.New tier p).player)) := by
  constructor
  · rintro a g d hs ⟨r, c, hc⟩ hd
    exact minimax_is_extremum a g d hs (GetAvailableMoves_ne_nil g r c hc) hd
  · intro tier p depth g0 g d m hp hs0 hc0 h hs
    exact (SearchCall_flag depth g0 g d m p hp hs0 hc0 h hs).2

end ai

namespace ai

open game

/-- C18 witness: the depth-4 extremum property on the playing position after six moves
with the last row `Empty`, and the flag of the first call of an `INeverLose` search on
the position after four moves. -/
theorem minimax_extremum_and_flag_witness :
    (((∃ mv ∈ GetAvailableMoves
          (applyMoves game.New [⟨0, 1⟩, ⟨0, 0⟩, ⟨1, 0⟩, ⟨1, 1⟩, ⟨1, 2⟩, ⟨0, 2⟩]),
        minimax (ai.New INeverLose PlayerX)
          (applyMoves game.New [⟨0, 1⟩, ⟨0, 0⟩, ⟨1, 0⟩, ⟨1, 1⟩, ⟨1, 2⟩, ⟨0, 2⟩]) (3 + 1) true =
        minimax (ai.New INeverLose PlayerX) (MakeMove (copyGame
          (applyMoves game.New [⟨0, 1⟩, ⟨0, 0⟩, ⟨1, 0⟩, ⟨1, 1⟩, ⟨1, 2⟩, ⟨0, 2⟩]))
            mv.Row mv.Col).2 3 false) ∧
      ∀ mv ∈ GetAvailableMoves
          (applyMoves game.New [⟨0, 1⟩, ⟨0, 0⟩, ⟨1, 0⟩, ⟨1, 1⟩, ⟨1, 2⟩, ⟨0, 2⟩]),
        minimax (ai.New INeverLose PlayerX) (MakeMove (copyGame
          (applyMoves game.New [⟨0, 1⟩, ⟨0, 0⟩, ⟨1, 0⟩, ⟨1, 1⟩, ⟨1, 2⟩, ⟨0, 2⟩]))
            mv.Row mv.Col).2 3 false ≤
        minimax (ai.New INeverLose PlayerX)
          (applyMoves game.New [⟨0, 1⟩, ⟨0, 0⟩, ⟨1, 0⟩, ⟨1, 1⟩, ⟨1, 2⟩, ⟨0, 2⟩]) (3 + 1) true) ∧
      ((∃ mv ∈ GetAvailableMoves
          (applyMoves game.New [⟨0, 1⟩, ⟨0, 0⟩, ⟨1, 0⟩, ⟨1, 1⟩, ⟨1, 2⟩, ⟨0, 2⟩]),
        minimax (ai.New INeverLose PlayerX)
          (applyMoves game.New [⟨0, 1⟩, ⟨0, 0⟩, ⟨1, 0⟩, ⟨1, 1⟩, ⟨1, 2⟩, ⟨0, 2⟩]) (3 + 1) false =
        minimax (ai.New INeverLose PlayerX) (MakeMove (copyGame
          (applyMoves game.New [⟨0, 1⟩, ⟨0, 0⟩, ⟨1, 0⟩, ⟨1, 1⟩, ⟨1, 2⟩, ⟨0, 2⟩]))
            mv.Row mv.Col).2 3 true) ∧
      ∀ mv ∈ GetAvailableMoves
          (applyMoves game.New [⟨0, 1⟩, ⟨0, 0⟩, ⟨1, 0⟩, ⟨1, 1⟩, ⟨1, 2⟩, ⟨0, 2⟩]),
        minimax (ai.New INeverLose PlayerX)
          (applyMoves game.New [⟨0, 1⟩, ⟨0, 0⟩, ⟨1, 0⟩, ⟨1, 1⟩, ⟨1, 2⟩, ⟨0, 2⟩]) (3 + 1) false ≤
        minimax (ai.New INeverLose PlayerX) (MakeMove (copyGame
          (applyMoves game.New [⟨0, 1⟩, ⟨0, 0⟩, ⟨1, 0⟩, ⟨1, 1⟩, ⟨1, 2⟩, ⟨0, 2⟩]))
            mv.Row mv.Col).2 3 true)) ∧
    ((false = true) ↔
      (MakeMove (copyGame (applyMoves game.New [⟨0, 0⟩, ⟨1, 1⟩, ⟨0, 1⟩, ⟨0, 2⟩])) 1 0).2.CurrentPlayer =
        (ai.New INeverLose PlayerX).player) :=
  ⟨minimax_extremum_and_flag.1 (ai.New INeverLose PlayerX)
      (applyMoves game.New [⟨0, 1⟩, ⟨0, 0⟩, ⟨1, 0⟩, ⟨1, 1⟩, ⟨1, 2⟩, ⟨0, 2⟩]) 3
      (by decide!) ⟨2, 0, by decide!⟩ (by decide),
    minimax_extremum_and_flag.2 INeverLose PlayerX 10
      (applyMoves game.New [⟨0, 0⟩, ⟨1, 1⟩, ⟨0, 1⟩, ⟨0, 2⟩])
      (MakeMove (copyGame (applyMoves game.New [⟨0, 0⟩, ⟨1, 1⟩, ⟨0, 1⟩, ⟨0, 2⟩])) 1 0).2 10 false
      (Or.inl rfl) (by decide!) (by decide!)
      (SearchCall.root ⟨1, 0⟩ (by decide!)) (by decide!)⟩

/-- C18 as stated fails twice. On the playing position reached by the six moves
`(0,1) (0,0) (1,0) (1,1) (1,2) (0,2)`, with three `Empty` cells, `minimax` at depth `993`
with the flag `true` returns the start value `-1000` of its fold, while every available
move scores `-1001` at depth `992` with the flag `false`: the result is not the maximum
of the move scores. And in the `INeverLose` search for `X` on the position after
`(0,0) (1,1) (0,1) (0,2)`, the recursive call after `X` at `(1,0)` and `O` at `(2,0)`
has the flag `true` on a won position whose `CurrentPlayer` is still `O`. -/
theorem minimax_depth993_and_flag_on_won :
    ((applyMoves game.New [⟨0, 1⟩, ⟨0, 0⟩, ⟨1, 0⟩, ⟨1, 1⟩, ⟨1, 2⟩, ⟨0, 2⟩]).Status =
        StatusPlaying ∧
      (applyMoves game.New [⟨0, 1⟩, ⟨0, 0⟩, ⟨1, 0⟩, ⟨1, 1⟩, ⟨1, 2⟩, ⟨0, 2⟩]).Board.cell 2 0 =
        Player.Empty ∧
      minimax (ai.New INeverLose PlayerX)
        (applyMoves game.New [⟨0, 1⟩, ⟨0, 0⟩, ⟨1, 0⟩, ⟨1, 1⟩, ⟨1, 2⟩, ⟨0, 2⟩]) 993 true = -1000 ∧
      ∀ mv ∈ GetAvailableMoves
          (applyMoves game.New [⟨0, 1⟩, ⟨0, 0⟩, ⟨1, 0⟩, ⟨1, 1⟩, ⟨1, 2⟩, ⟨0, 2⟩]),
        minimax (ai.New INeverLose PlayerX) (MakeMove (copyGame
          (applyMoves game.New [⟨0, 1⟩, ⟨0, 0⟩, ⟨1, 0⟩, ⟨1, 1⟩, ⟨1, 2⟩, ⟨0, 2⟩]))
            mv.Row mv.Col).2 992 false = -1001) ∧
    ((applyMoves game.New [⟨0, 0⟩, ⟨1, 1⟩, ⟨0, 1⟩, ⟨0, 2⟩]).Status = StatusPlaying ∧
      (applyMoves game.New [⟨0, 0⟩, ⟨1, 1⟩, ⟨0, 1⟩, ⟨0, 2⟩]).CurrentPlayer =
        (ai.New INeverLose PlayerX).player ∧
      SearchCall 10 (applyMoves game.New [⟨0, 0⟩, ⟨1, 1⟩, ⟨0, 1⟩, ⟨0, 2⟩])
        (MakeMove (copyGame (MakeMove (copyGame
          (applyMoves game.New [⟨0, 0⟩, ⟨1, 1⟩, ⟨0, 1⟩, ⟨0, 2⟩])) 1 0).2) 2 0).2 9 true ∧
      (MakeMove (copyGame (MakeMove (copyGame
          (applyMoves game.New [⟨0, 0⟩, ⟨1, 1⟩, ⟨0, 1⟩, ⟨0, 2⟩])) 1 0).2) 2 0).2.Status =
        StatusWon ∧
      (MakeMove (copyGame (MakeMove (copyGame
          (applyMoves game.New [⟨0, 0⟩, ⟨1, 1⟩, ⟨0, 1⟩, ⟨0, 2⟩])) 1 0).2) 2 0).2.CurrentPlayer ≠
        (ai.New INeverLose PlayerX).player) :=
  ⟨⟨by decide!, by decide!, by decide!, by decide!⟩,
    by decide!, by decide!,
    SearchCall.step
      (MakeMove (copyGame (applyMoves game.New [⟨0, 0⟩, ⟨1, 1⟩, ⟨0, 1⟩, ⟨0, 2⟩])) 1 0).2 9 false
      ⟨2, 0⟩ (SearchCall.root ⟨1, 0⟩ (by decide!)) (by decide!) (by decide!),
    by decide!, by decide!⟩

end ai

namespace ai

open game

/-- An accepted move that wins a game with no complete line fills a cell that completes
a line for the player to move. -/
theorem MakeMove_won_winsAt (g : Game) (r c : Fin 3)
    (hno : checkWinner g = Player.Empty)
    (hok : (MakeMove g (r.val : Int) (c.val : Int)).1 = none)
    (hw : (MakeMove g (r.val : Int) (c.val : Int)).2.Status = StatusWon) :
    winsAt g.Board g.CurrentPlayer r c := by
  have hst := MakeMove_ok_Status g _ _ hok
  have hB := MakeMove_ok_Board g _ _ hok
  rw [toIdx_val, toIdx_val] at hB
  have he : g.Board.cell r c = Player.Empty := by
    have := ((MakeMove_fst_eq_none_iff g _ _).mp hok).2.2
    rwa [toIdx_val, toIdx_val] at this
  by_cases hcw : checkWinner (MakeMove g (r.val : Int) (c.val : Int)).2 ≠ Player.Empty
  · obtain ⟨l, hl, q, hq, hall⟩ := (checkWinner_ne_Empty_iff _).mp hcw
    by_cases hin : (r, c) ∈ l
    · have hqc : q = g.CurrentPlayer := by
        have := hall _ hin
        rw [hB, cell_setCell_same] at this
        exact this.symm
      refine ⟨he, hqc ▸ hq, l, hl, hin, ?_⟩
      intro rc hrc hne
      have := hall rc hrc
      rw [hB, cell_setCell_other _ _ _ _ _ _ hne] at this
      rw [this, hqc]
    · exfalso
      have hline : hasLine g.Board := by
        refine ⟨l, hl, q, hq, fun rc hrc => ?_⟩
        have h1 := hall rc hrc
        have hne : rc ≠ (r, c) := fun h => hin (h ▸ hrc)
        rwa [hB, cell_setCell_other _ _ _ _ _ _ hne] at h1
      exact (checkWinner_ne_Empty_iff g).mpr hline hno
  · rw [if_neg hcw] at hst
    rw [hst] at hw
    split_ifs at hw

/-- The search value of a position the engine has lost. -/
theorem minimax_of_lost (a : AI) (g : Game) (d : Nat) (m : Bool)
    (hs : g.Status = StatusWon) (hw : g.Winner ≠ a.player) :
    minimax a g d m = -10 - (d : Int) := by
  cases d with
  | zero => rw [minimax_zero, if_pos hs, if_neg hw]
  | succ d => rw [minimax_succ, if_pos hs, if_neg hw]

/-- A position that is not won scores at least `-9 - d`: no loss shows before the next
ply. -/
theorem minimax_ge_of_not_won (a : AI) (g : Game) (d : Nat) (m : Bool)
    (hf : g.Status = StatusPlaying → isBoardFull g = false) (hs : g.Status ≠ StatusWon) :
    -9 - (d : Int) ≤ minimax a g d m := by
  cases d with
  | zero =>
    rw [minimax_zero, if_neg hs]
    split_ifs <;> omega
  | succ d =>
    cases hst : g.Status with
    | StatusWon => exact absurd hst hs
    | StatusDraw =>
      rw [minimax_succ, if_neg hs, if_pos hst]
      push_cast
      omega
    | StatusPlaying =>
      rw [minimax_succ_playing a g d m hst]
      obtain ⟨m0, hm0⟩ := List.exists_mem_of_ne_nil _
        (GetAvailableMoves_ne_nil_of_not_full g (hf hst))
      have hch : ∀ mv ∈ GetAvailableMoves g, ∀ m' : Bool,
          -10 - (d : Int) ≤ minimax a (MakeMove (copyGame g) mv.Row mv.Col).2 d m' :=
        fun mv hmv m' => (minimax_bounds a d _ m' (child_ok g mv hst hmv).2).1
      cases m with
      | true =>
        simp only [if_true]
        obtain ⟨_, _, h3⟩ := foldl_max_spec (fun (mv : Position) =>
          minimax a (MakeMove (copyGame g) mv.Row mv.Col).2 d false)
          (GetAvailableMoves g) (-1000)
        have := h3 m0 hm0
        have := hch m0 hm0 false
        push_cast
        omega
      | false =>
        simp only [Bool.false_eq_true, if_false]
        obtain ⟨h1, _, _⟩ := foldl_min_spec (fun (mv : Position) =>
          minimax a (MakeMove (copyGame g) mv.Row mv.Col).2 d true)
          (GetAvailableMoves g) 1000
        rcases h1 with h1 | ⟨x, hx, h1⟩
        · rw [h1]
          push_cast
          omega
        · rw [h1]
          have := hch x hx true
          push_cast
          omega

/-- The simulated move of the search on an `Empty` cell that does not complete a line
for the player to move: it is accepted, fills the cell, does not win, and if the game
goes on the turn passes. -/
theorem child_not_won (g : Game) (r c : Fin 3) (hs : g.Status = StatusPlaying)
    (hno : checkWinner g = Player.Empty) (he : g.Board.cell r c = Player.Empty)
    (hnw : ¬ winsAt g.Board g.CurrentPlayer r c) :
    (MakeMove (copyGame g) (r.val : Int) (c.val : Int)).1 = none ∧
    (MakeMove (copyGame g) (r.val : Int) (c.val : Int)).2.Board =
      g.Board.setCell r c g.CurrentPlayer ∧
    (MakeMove (copyGame g) (r.val : Int) (c.val : Int)).2.Status ≠ StatusWon ∧
    checkWinner (MakeMove (copyGame g) (r.val : Int) (c.val : Int)).2 = Player.Empty ∧
    ((MakeMove (copyGame g) (r.val : Int) (c.val : Int)).2.Status = StatusPlaying →
      (MakeMove (copyGame g) (r.val : Int) (c.val : Int)).2.CurrentPlayer =
        if g.CurrentPlayer = PlayerX then PlayerO else PlayerX) ∧
    (isBoardFull (MakeMove (copyGame g) (r.val : Int) (c.val : Int)).2 = false →
      (MakeMove (copyGame g) (r.val : Int) (c.val : Int)).2.Status = StatusPlaying) := by
  have hm : (⟨(r.val : Int), (c.val : Int)⟩ : Position) ∈ GetAvailableMoves g :=
    (mem_GetAvailableMoves g _).mpr ⟨r, c, rfl, he⟩
  have hok := (child_ok g _ hs hm).1
  have hB := MakeMove_ok_Board (copyGame g) _ _ hok
  rw [toIdx_val, toIdx_val] at hB
  have hnoc : checkWinner (copyGame g) = Player.Empty :=
    (checkWinner_congr (copyGame g) g rfl).trans hno
  have hnw' : (MakeMove (copyGame g) (r.val : Int) (c.val : Int)).2.Status ≠ StatusWon :=
    fun hw => hnw (MakeMove_won_winsAt (copyGame g) r c hnoc hok hw)
  have hst := MakeMove_ok_Status (copyGame g) _ _ hok
  have hcw : checkWinner (MakeMove (copyGame g) (r.val : Int) (c.val : Int)).2 =
      Player.Empty := by
    by_contra hcw
    rw [if_pos hcw] at hst
    exact hnw' hst
  refine ⟨hok, hB, hnw', hcw, fun hp => MakeMove_ok_playing_CurrentPlayer _ _ _ hok hp, ?_⟩
  intro hfull
  rw [if_neg (by rw [hcw]; exact fun h => h rfl), if_neg (by rw [hfull]; decide)] at hst
  exact hst

/-- A winning cell of `q` stays one when another `Empty` cell is filled. -/
theorem winsAt_setCell (b : Board) (p q : Player) (r c : Fin 3) (w : Fin 3 × Fin 3)
    (he : b.cell r c = Player.Empty) (hne : (r, c) ≠ w) (hw : winsAt b q w.1 w.2) :
    winsAt (b.setCell r c p) q w.1 w.2 := by
  obtain ⟨hwe, hq, l, hl, hin, hall⟩ := hw
  refine ⟨?_, hq, l, hl, hin, ?_⟩
  · rw [cell_setCell_other _ _ _ _ _ _ (Ne.symm hne)]
    exact hwe
  · intro rc hrc hrcw
    have h1 := hall rc hrc hrcw
    have hne2 : rc ≠ (r, c) := by
      rintro rfl
      rw [he] at h1
      exact hq h1.symm
    rw [cell_setCell_other _ _ _ _ _ _ hne2]
    exact h1

/-- A winning cell of `q` on a board on which the other mark `p` has just filled a cell
was a winning cell of `q` before. -/
theorem winsAt_of_setCell (b : Board) (p q : Player) (r c r2 c2 : Fin 3)
    (hp : p ≠ Player.Empty) (hqp : q ≠ p) (hw : winsAt (b.setCell r c p) q r2 c2) :
    (r2, c2) ≠ (r, c) ∧ winsAt b q r2 c2 := by
  obtain ⟨hwe, hq, l, hl, hin, hall⟩ := hw
  have hne : (r2, c2) ≠ (r, c) := by
    intro h
    rw [Prod.mk.injEq] at h
    rw [h.1, h.2, cell_setCell_same] at hwe
    exact hp hwe
  refine ⟨hne, ?_, hq, l, hl, hin, ?_⟩
  · rwa [cell_setCell_other _ _ _ _ _ _ hne] at hwe
  · intro rc hrc hrcw
    have h1 := hall rc hrc hrcw
    have hne2 : rc ≠ (r, c) := by
      rintro rfl
      rw [cell_setCell_same] at h1
      exact hqp h1.symm
    rwa [cell_setCell_other _ _ _ _ _ _ hne2] at h1

end ai

namespace ai

open game

/-- A candidate that leaves the opponent's winning cell open scores at most `-10 - d` at
depth `d + 1`: the opponent's reply on that cell ends the game. -/
theorem moveScore_nonblock (a : AI) (d : Nat) (g : Game) (q : Player) (r c : Fin 3)
    (w : Fin 3 × Fin 3) (hs : g.Status = StatusPlaying) (hno : checkWinner g = Player.Empty)
    (hcp : g.CurrentPlayer = a.player) (hq : q = if a.player = PlayerX then PlayerO else PlayerX)
    (hqa : q ≠ a.player)
    (hnw : ∀ r c : Fin 3, ¬ winsAt g.Board a.player r c)
    (hw : winsAt g.Board q w.1 w.2)
    (he : g.Board.cell r c = Player.Empty) (hne : (r, c) ≠ w) :
    moveScore a (d + 1) g ⟨(r.val : Int), (c.val : Int)⟩ ≤ -10 - (d : Int) := by
  obtain ⟨hok, hB, hnw1, hcw1, hcur1, hpl1⟩ :=
    child_not_won g r c hs hno he (hcp ▸ hnw r c)
  have hw1 : winsAt (MakeMove (copyGame g) (r.val : Int) (c.val : Int)).2.Board q w.1 w.2 := by
    rw [hB]
    exact winsAt_setCell g.Board g.CurrentPlayer q r c w he hne hw
  have hnf : isBoardFull (MakeMove (copyGame g) (r.val : Int) (c.val : Int)).2 = false := by
    cases hfull : isBoardFull (MakeMove (copyGame g) (r.val : Int) (c.val : Int)).2 with
    | false => rfl
    | true => exact absurd hw1.1 ((isBoardFull_iff _).mp hfull w.1 w.2)
  have hs1 := hpl1 hnf
  have hc1 : (MakeMove (copyGame g) (r.val : Int) (c.val : Int)).2.CurrentPlayer = q := by
    rw [hcur1 hs1, hcp, hq]
  obtain ⟨_, hs2, hwin2⟩ := MakeMove_wins
    (copyGame (MakeMove (copyGame g) (r.val : Int) (c.val : Int)).2) q w.1 w.2 hs1 hc1
    ((checkWinner_congr _ _ rfl).trans hcw1) hw1
  have hmem : (⟨(w.1.val : Int), (w.2.val : Int)⟩ : Position) ∈
      GetAvailableMoves (MakeMove (copyGame g) (r.val : Int) (c.val : Int)).2 :=
    (mem_GetAvailableMoves _ _).mpr ⟨w.1, w.2, rfl, hw1.1⟩
  unfold moveScore
  rw [minimax_succ_playing a _ d false hs1]
  simp only [Bool.false_eq_true, if_false]
  obtain ⟨_, _, h3⟩ := foldl_min_spec (fun (mv : Position) =>
    minimax a (MakeMove (copyGame (MakeMove (copyGame g) (r.val : Int) (c.val : Int)).2)
      mv.Row mv.Col).2 d true)
    (GetAvailableMoves (MakeMove (copyGame g) (r.val : Int) (c.val : Int)).2) 1000
  have h4 := h3 _ hmem
  rw [minimax_of_lost a _ d true hs2 (by rw [hwin2]; exact hqa)] at h4
  exact h4

/-- The candidate on the opponent's only winning cell scores at least `-9 - d` at depth
`d + 1`: no reply of the opponent ends the game. -/
theorem moveScore_block (a : AI) (d : Nat) (g : Game) (q : Player) (w : Fin 3 × Fin 3)
    (hs : g.Status = StatusPlaying) (hno : checkWinner g = Player.Empty)
    (hcp : g.CurrentPlayer = a.player) (hq : q = if a.player = PlayerX then PlayerO else PlayerX)
    (hqa : q ≠ a.player) (hae : a.player ≠ Player.Empty)
    (hnw : ∀ r c : Fin 3, ¬ winsAt g.Board a.player r c)
    (hw : winsAt g.Board q w.1 w.2)
    (huniq : ∀ r c : Fin 3, winsAt g.Board q r c → (r, c) = w) :
    -9 - (d : Int) ≤ moveScore a (d + 1) g ⟨(w.1.val : Int), (w.2.val : Int)⟩ := by
  obtain ⟨hok, hB, hnw1, hcw1, hcur1, hpl1⟩ :=
    child_not_won g w.1 w.2 hs hno hw.1 (hcp ▸ hnw w.1 w.2)
  unfold moveScore
  cases hst : (MakeMove (copyGame g) (w.1.val : Int) (w.2.val : Int)).2.Status with
  | StatusWon => exact absurd hst hnw1
  | StatusDraw =>
    rw [minimax_succ, if_neg hnw1, if_pos hst]
    omega
  | StatusPlaying =>
    have hc1 : (MakeMove (copyGame g) (w.1.val : Int) (w.2.val : Int)).2.CurrentPlayer = q := by
      rw [hcur1 hst, hcp, hq]
    rw [minimax_succ_playing a _ d false hst]
    simp only [Bool.false_eq_true, if_false]
    obtain ⟨h1, _, _⟩ := foldl_min_spec (fun (mv : Position) =>
      minimax a (MakeMove (copyGame (MakeMove (copyGame g) (w.1.val : Int)
        (w.2.val : Int)).2) mv.Row mv.Col).2 d true)
      (GetAvailableMoves (MakeMove (copyGame g) (w.1.val : Int) (w.2.val : Int)).2) 1000
    rcases h1 with h1 | ⟨x, hx, h1⟩
    · rw [h1]
      omega
    · rw [h1]
      obtain ⟨r2, c2, rfl, he2⟩ := (mem_GetAvailableMoves _ _).mp hx
      have hnw2 : ¬ winsAt (MakeMove (copyGame g) (w.1.val : Int) (w.2.val : Int)).2.Board
          (MakeMove (copyGame g) (w.1.val : Int) (w.2.val : Int)).2.CurrentPlayer r2 c2 := by
        rw [hc1, hB, hcp]
        intro hw2
        obtain ⟨hne2, hw3⟩ := winsAt_of_setCell g.Board a.player q w.1 w.2 r2 c2 hae hqa hw2
        exact hne2 (huniq r2 c2 hw3)
      obtain ⟨_, _, hnw3, _, _, _⟩ := child_not_won _ r2 c2 hst hcw1 he2 hnw2
      exact minimax_ge_of_not_won a _ d true (child_ok _ _ hst hx).2 hnw3

/-- The candidate loop at a depth `d + 1` below `990` ends on the opponent's only winning
cell when the engine has no winning cell itself. -/
theorem bestMoveLoop_block (a : AI) (d : Nat) (g : Game) (q : Player) (w : Fin 3 × Fin 3)
    (hd : d + 1 < 990)
    (hs : g.Status = StatusPlaying) (hno : checkWinner g = Player.Empty)
    (hcp : g.CurrentPlayer = a.player) (hq : q = if a.player = PlayerX then PlayerO else PlayerX)
    (hqa : q ≠ a.player) (hae : a.player ≠ Player.Empty)
    (hnw : ∀ r c : Fin 3, ¬ winsAt g.Board a.player r c)
    (hw : winsAt g.Board q w.1 w.2)
    (huniq : ∀ r c : Fin 3, winsAt g.Board q r c → (r, c) = w) :
    (bestMoveLoop a (d + 1) g (GetAvailableMoves g)).2.1 =
        ⟨(w.1.val : Int), (w.2.val : Int)⟩ ∧
      (bestMoveLoop a (d + 1) g (GetAvailableMoves g)).2.1.Row ≠ -1 := by
  have hne := GetAvailableMoves_ne_nil g w.1 w.2 hw.1
  obtain ⟨l1, l2, h1, h2, h3, _, h5, _⟩ := bestMoveLoop_picks a (d + 1) g hd hs hne
  refine ⟨?_, h5⟩
  have hwm : (⟨(w.1.val : Int), (w.2.val : Int)⟩ : Position) ∈ GetAvailableMoves g :=
    (mem_GetAvailableMoves g _).mpr ⟨w.1, w.2, rfl, hw.1⟩
  have hbm : (bestMoveLoop a (d + 1) g (GetAvailableMoves g)).2.1 ∈ GetAvailableMoves g :=
    (congrArg (fun l => (bestMoveLoop a (d + 1) g (GetAvailableMoves g)).2.1 ∈ l) h1).mpr
      (List.mem_append.mpr (Or.inr (List.mem_cons_self _ _)))
  by_contra hbw
  have hle : moveScore a (d + 1) g ⟨(w.1.val : Int), (w.2.val : Int)⟩ ≤
      moveScore a (d + 1) g (bestMoveLoop a (d + 1) g (GetAvailableMoves g)).2.1 := by
    have hwm2 := hwm
    rw [h1, List.mem_append, List.mem_cons] at hwm2
    rcases hwm2 with hin | heq | hin
    · exact le_of_lt (h2 _ hin)
    · exact absurd heq.symm hbw
    · exact h3 _ hin
  obtain ⟨r, c, hrc, he⟩ := (mem_GetAvailableMoves g _).mp hbm
  have hnew : (r, c) ≠ w := by
    rintro rfl
    exact hbw hrc
  have hlow := moveScore_nonblock a d g q r c w hs hno hcp hq hqa hnw hw he hnew
  rw [← hrc] at hlow
  have hup := moveScore_block a d g q w hs hno hcp hq hqa hae hnw hw huniq
  omega

/-- On a playing game with no complete line on which the engine, to move, has no winning
cell and the opponent exactly one, the tiers `Normal`, `Hard` and `INeverLose` return
the opponent's winning cell. -/
theorem GetMove_block (tier : Difficulty) (p : Player) (rnd : Draws) (g : Game)
    (w : Fin 3 × Fin 3) (htier : tier = Normal ∨ tier = Hard ∨ tier = INeverLose)
    (hp : p = PlayerX ∨ p = PlayerO)
    (hs : g.Status = StatusPlaying) (hno : checkWinner g = Player.Empty)
    (hcp : g.CurrentPlayer = p)
    (hnw : ∀ r c : Fin 3, ¬ winsAt g.Board p r c)
    (hw : winsAt g.Board (ai.New tier p).opponent w.1 w.2)
    (huniq : ∀ r c : Fin 3, winsAt g.Board (ai.New tier p).opponent r c → (r, c) = w) :
    (GetMove (ai.New tier p) rnd g).1 = ((w.1.val : Int), (w.2.val : Int), none) := by
  have hne := GetAvailableMoves_ne_nil g w.1 w.2 hw.1
  have hqa : (ai.New tier p).opponent ≠ (ai.New tier p).player := by
    show (if p = PlayerX then PlayerO else PlayerX) ≠ p
    rcases hp with rfl | rfl <;> decide
  have hae : (ai.New tier p).player ≠ Player.Empty := by
    show p ≠ Player.Empty
    rcases hp with rfl | rfl <;> decide
  rcases htier with rfl | rfl | rfl
  · have hf := findWinningMove_complete g _ w.1 w.2 hw
    obtain ⟨r1, c1, he, hw1⟩ := findWinningMove_sound g _ hf
    have hrc := huniq r1 c1 hw1
    rw [GetMove_Normal p rnd g hne]
    unfold getNormalMove
    have hf1 : ¬ (findWinningMove g (ai.New Normal p).player).1 ≠ -1 := by
      intro h1
      obtain ⟨r2, c2, _, hw2⟩ := findWinningMove_sound g _ h1
      exact hnw r2 c2 hw2
    rw [if_neg hf1, if_pos hf]
    show ((findWinningMove g _).1, (findWinningMove g _).2, none) = _
    rw [he, ← hrc]
  · obtain ⟨h1, h2⟩ := bestMoveLoop_block (ai.New Hard p) 3 g _ w (by decide) hs hno hcp rfl
      hqa hae hnw hw huniq
    rw [GetMove_Hard _ rnd g rfl hne]
    unfold getHardMove
    dsimp only
    rw [if_neg h2, h1]
  · obtain ⟨h1, h2⟩ := bestMoveLoop_block (ai.New INeverLose p) 9 g _ w (by decide) hs hno hcp
      rfl hqa hae hnw hw huniq
    rw [GetMove_INeverLose _ rnd g rfl hne]
    unfold getPerfectMove
    dsimp only
    rw [if_neg h2, h1]

end ai

namespace ai

open game

/-- C11: on every in-progress board reachable from `New()` on which it is the engine's
turn, the engine has no immediately winning cell and the opponent has exactly one, the
`Hard` and `INeverLose` tiers return that cell. In particular, on the in-progress board
with `X` at `(0,0)` and `(0,1)` and `O` at `(1,1)`, with `O` to move, engines of tier
`Normal`, `Hard` and `INeverLose` playing `O` all return `(0, 2)`. -/
theorem search_tiers_block :
    (∀ (tier : Difficulty) (p : Player) (rnd : Draws) (g : Game) (w : Fin 3 × Fin 3),
      (tier = Hard ∨ tier = INeverLose) → Reachable g → g.Status = StatusPlaying →
      g.CurrentPlayer = p →
      (∀ r c : Fin 3, ¬ winsAt g.Board p r c) →
      winsAt g.Board (ai.New tier p).opponent w.1 w.2 →
      (∀ r c : Fin 3, winsAt g.Board (ai.New tier p).opponent r c → (r, c) = w) →
      (GetMove (ai.New tier p) rnd g).1 = ((w.1.val : Int), (w.2.val : Int), none)) ∧
    (∀ (tier : Difficulty) (rnd : Draws) (g : Game),
      (tier = Normal ∨ tier = Hard ∨ tier = INeverLose) →
      g.Board = ⟨⟨PlayerX, PlayerX, Player.Empty⟩,
        ⟨Player.Empty, PlayerO, Player.Empty⟩,
        ⟨Player.Empty, Player.Empty, Player.Empty⟩⟩ →
      g.Status = StatusPlaying → g.CurrentPlayer = PlayerO →
      (GetMove (ai.New tier PlayerO) rnd g).1 = (0, 2, none)) := by
  constructor
  · intro tier p rnd g w htier hr hs hcp hnw hw huniq
    have hp : p = PlayerX ∨ p = PlayerO := by
      have := (Reachable_Wf g hr).1
      rw [hcp] at this
      cases p
      · exact Or.inl rfl
      · exact Or.inr rfl
      · exact absurd rfl this
    exact GetMove_block tier p rnd g w (Or.inr htier) hp hs
      (Reachable_playing_checkWinner g hr hs) hcp hnw hw huniq
  · intro tier rnd g htier hb hs hcp
    have hno : checkWinner g = Player.Empty := by
      rw [checkWinner_congr g (boardGame _ PlayerO) hb]
      decide
    have hnw : ∀ r c : Fin 3, ¬ winsAt g.Board PlayerO r c := by
      rw [hb]
      unfold winsAt
      decide
    have hw : winsAt g.Board (ai.New tier PlayerO).opponent (0, 2).1 (0, 2).2 := by
      rw [hb]
      show winsAt _ PlayerX 0 2
      unfold winsAt
      decide
    have huniq : ∀ r c : Fin 3,
        winsAt g.Board (ai.New tier PlayerO).opponent r c → (r, c) = (0, 2) := by
      rw [hb]
      show ∀ r c : Fin 3, winsAt _ PlayerX r c → (r, c) = (0, 2)
      unfold winsAt
      decide
    exact GetMove_block tier PlayerO rnd g (0, 2) htier (Or.inr rfl) hs hno hcp hnw hw huniq

theorem search_tiers_block_witness :
    (GetMove (ai.New Hard PlayerO) ⟨false, 0⟩
        (applyMoves game.New [⟨0, 0⟩, ⟨1, 1⟩, ⟨0, 1⟩])).1 = (0, 2, none) ∧
    (GetMove (ai.New INeverLose PlayerO) ⟨false, 0⟩
        (applyMoves game.New [⟨0, 0⟩, ⟨1, 1⟩, ⟨0, 1⟩])).1 = (0, 2, none) :=
  ⟨search_tiers_block.1 Hard PlayerO ⟨false, 0⟩
      (applyMoves game.New [⟨0, 0⟩, ⟨1, 1⟩, ⟨0, 1⟩]) (0, 2) (Or.inl rfl)
      (Reachable.move _ 0 1 (Reachable.move _ 1 1 (Reachable.move _ 0 0 Reachable.init)))
      (by decide!) (by decide!)
      (by unfold winsAt; decide!) (by unfold winsAt; decide!) (by unfold winsAt; decide!),
    search_tiers_block.2 INeverLose ⟨false, 0⟩
      (applyMoves game.New [⟨0, 0⟩, ⟨1, 1⟩, ⟨0, 1⟩]) (Or.inr (Or.inr rfl))
      (by decide!) (by decide!) (by decide!)⟩

end ai

namespace ai

open game

/-- One line scan of `findWinningMove` against the specification's wording: the scan
hits exactly when the line qualifies, and then reports the line's `Empty` cell. -/
theorem hitCell_eq_qualifies (b : Board) (p : Player) (f : Fin 3 → Fin 3 × Fin 3) :
    hitCell b p f =
      if qualifies b p [f 0, f 1, f 2] = true then
        [f 0, f 1, f 2].find? (fun rc => decide (b.cell rc.1 rc.2 = Player.Empty))
      else none := by
  simp only [hitCell, scanLine, idx3, List.foldl, qualifies, List.countP_cons,
    List.countP_nil, List.find?]
  generalize b.cell (f 0).1 (f 0).2 = u
  generalize b.cell (f 1).1 (f 1).2 = v
  generalize b.cell (f 2).1 (f 2).2 = w
  cases p <;> cases u <;> cases v <;> cases w <;> rfl

/-- A qualifying line has an `Empty` cell. -/
theorem find_Empty_of_qualifies (b : Board) (p : Player) (l : List (Fin 3 × Fin 3))
    (h : qualifies b p l = true) :
    ∃ rc, l.find? (fun rc => decide (b.cell rc.1 rc.2 = Player.Empty)) = some rc := by
  simp only [qualifies, Bool.and_eq_true, decide_eq_true_eq] at h
  have hpos : 0 < l.countP (fun rc => decide (b.cell rc.1 rc.2 = Player.Empty)) := by
    rw [h.2]; exact Nat.one_pos
  obtain ⟨rc, hrc, hE⟩ := List.countP_pos_iff.mp hpos
  cases hf : l.find? (fun rc => decide (b.cell rc.1 rc.2 = Player.Empty)) with
  | some x => exact ⟨x, rfl⟩
  | none => exact absurd hE (List.find?_eq_none.mp hf rc hrc)

/-- The scan of a list of lines, in the code's form and in the specification's. -/
theorem findSome_hitCell_eq (b : Board) (p : Player) (fs : List (Fin 3 → Fin 3 × Fin 3)) :
    (match fs.findSome? (hitCell b p) with
      | some rc => ((rc.1.val : Int), (rc.2.val : Int))
      | none => ((-1 : Int), (-1 : Int))) =
    (match (fs.map (fun f => [f 0, f 1, f 2])).find? (qualifies b p) with
      | some l =>
        (match l.find? (fun rc => decide (b.cell rc.1 rc.2 = Player.Empty)) with
          | some rc => ((rc.1.val : Int), (rc.2.val : Int))
          | none => (-1, -1))
      | none => (-1, -1)) := by
  induction fs with
  | nil => rfl
  | cons f fs ih =>
    rw [List.findSome?_cons, List.map_cons, List.find?_cons, hitCell_eq_qualifies]
    by_cases hq : qualifies b p [f 0, f 1, f 2] = true
    · obtain ⟨rc, hrc⟩ := find_Empty_of_qualifies b p _ hq
      rw [if_pos hq, hq, hrc]
      dsimp only
      rw [hrc]
    · rw [if_neg hq]
      have hq2 : qualifies b p [f 0, f 1, f 2] = false := by simpa using hq
      rw [hq2]
      exact ih

theorem lines_eq_map_lineFns : lines = lineFns.map (fun f => [f 0, f 1, f 2]) := by
  decide

/-- C21: for every board and mark `p`, `findWinningMove(g, p)` is the position of the
`Empty` cell of the first line, in the order row 0, row 1, row 2, column 0, column 1,
column 2, main diagonal, anti-diagonal, that has exactly two cells equal to `p` and
exactly one `Empty` cell, and it is `(-1, -1)` if and only if no line qualifies. -/
theorem findWinningMove_first_qualifying (g : Game) (p : Player) :
    findWinningMove g p = firstQualifyingCell g.Board p ∧
    (findWinningMove g p = (-1, -1) ↔ ∀ l ∈ lines, qualifies g.Board p l = false) := by
  have heq : findWinningMove g p = firstQualifyingCell g.Board p := by
    rw [findWinningMove_eq, firstQualifyingCell, lines_eq_map_lineFns]
    exact findSome_hitCell_eq g.Board p lineFns
  refine ⟨heq, ?_⟩
  rw [heq, firstQualifyingCell]
  cases hf : lines.find? (qualifies g.Board p) with
  | none =>
    simp only [true_iff]
    intro l hl
    have := List.find?_eq_none.mp hf l hl
    simpa using this
  | some l =>
    have hq := List.find?_some hf
    have hl := List.mem_of_find?_eq_some hf
    obtain ⟨rc, hrc⟩ := find_Empty_of_qualifies g.Board p l hq
    simp only [hrc]
    constructor
    · intro h
      have h1 := congrArg Prod.fst h
      simp only at h1
      omega
    · intro h
      rw [h l hl] at hq
      exact absurd hq (by decide)

end ai

namespace ai

open game

/-- On a playing game the corner scan of `getNormalMove` finds the first `Empty` corner. -/
theorem corners_find_IsValidMove (g : Game) (hs : g.Status = StatusPlaying) :
    corners.find? (fun corner => IsValidMove g corner.Row corner.Col) =
      corners.find? (fun corner =>
        decide (g.Board.cell (toIdx corner.Row) (toIdx corner.Col) = Player.Empty)) := by
  have h : ∀ corner ∈ corners, IsValidMove g corner.Row corner.Col =
      decide (g.Board.cell (toIdx corner.Row) (toIdx corner.Col) = Player.Empty) := by
    intro x hx
    simp only [corners, List.mem_cons, List.mem_singleton, List.not_mem_nil, or_false] at hx
    rcases hx with rfl | rfl | rfl | rfl <;>
      simp [IsValidMove, hs]
  simp only [corners, List.find?]
  rw [h ⟨0, 0⟩ (by decide), h ⟨0, 2⟩ (by decide), h ⟨2, 0⟩ (by decide), h ⟨2, 2⟩ (by decide)]

/-- What `getNormalMove` does when neither mark has a winning cell: centre, else first
valid corner, else a drawn available move. -/
theorem GetMove_Normal_quiet (p : Player) (rnd : Draws) (g : Game)
    (hne : GetAvailableMoves g ≠ [])
    (hnw : ¬ ∃ r c : Fin 3, winsAt g.Board p r c)
    (hno : ¬ ∃ r c : Fin 3, winsAt g.Board (ai.New Normal p).opponent r c) :
    (GetMove (ai.New Normal p) rnd g).1 =
      if IsValidMove g 1 1 = true then (1, 1, none)
      else
        match corners.find? (fun corner => IsValidMove g corner.Row corner.Col) with
        | some corner => (corner.Row, corner.Col, none)
        | none => ((randomMove rnd (GetAvailableMoves g) hne).Row,
            (randomMove rnd (GetAvailableMoves g) hne).Col, none) := by
  rw [GetMove_Normal p rnd g hne]
  unfold getNormalMove
  have hf1 : ¬ (findWinningMove g (ai.New Normal p).player).1 ≠ -1 := by
    intro h1
    obtain ⟨r1, c1, _, hw1⟩ := findWinningMove_sound g _ h1
    exact hnw ⟨r1, c1, hw1⟩
  have hf2 : ¬ (findWinningMove g (ai.New Normal p).opponent).1 ≠ -1 := by
    intro h1
    obtain ⟨r1, c1, _, hw1⟩ := findWinningMove_sound g _ h1
    exact hno ⟨r1, c1, hw1⟩
  rw [if_neg hf1, if_neg hf2]
  by_cases hc : IsValidMove g 1 1 = true
  · rw [if_pos hc, if_pos hc]
  · rw [if_neg hc, if_neg hc]
    cases corners.find? (fun corner => IsValidMove g corner.Row corner.Col) <;> rfl

theorem IsValidMove_centre (g : Game) (hs : g.Status = StatusPlaying) :
    IsValidMove g 1 1 = true ↔ g.Board.cell 1 1 = Player.Empty := by
  have := IsValidMove_fin g 1 1
  simp only [hs, and_true] at this
  exact this

/-- C22: on every in-progress board (status `StatusPlaying`, an `Empty` cell left) on
which neither the engine nor the opponent has an immediately winning cell, the `Normal`
tier returns `(1, 1)` if the centre is `Empty`; otherwise the first `Empty` corner in the
order `(0,0)`, `(0,2)`, `(2,0)`, `(2,2)`; and when the centre and all four corners are
occupied, and only then, it returns some other available cell. -/
theorem GetMove_Normal_centre_corners (p : Player) (rnd : Draws) (g : Game)
    (hs : g.Status = StatusPlaying) (he : ∃ r c : Fin 3, g.Board.cell r c = Player.Empty)
    (hnw : ¬ ∃ r c : Fin 3, winsAt g.Board p r c)
    (hno : ¬ ∃ r c : Fin 3, winsAt g.Board (ai.New Normal p).opponent r c) :
    (g.Board.cell 1 1 = Player.Empty →
      (GetMove (ai.New Normal p) rnd g).1 = (1, 1, none)) ∧
    (g.Board.cell 1 1 ≠ Player.Empty → ∀ corner : Position,
      corners.find? (fun corner =>
        decide (g.Board.cell (toIdx corner.Row) (toIdx corner.Col) = Player.Empty)) =
          some corner →
      (GetMove (ai.New Normal p) rnd g).1 = (corner.Row, corner.Col, none)) ∧
    (g.Board.cell 1 1 ≠ Player.Empty →
      (∀ corner ∈ corners,
        g.Board.cell (toIdx corner.Row) (toIdx corner.Col) ≠ Player.Empty) →
      ∃ m ∈ GetAvailableMoves g, m ≠ ⟨1, 1⟩ ∧ m ∉ corners ∧
        (GetMove (ai.New Normal p) rnd g).1 = (m.Row, m.Col, none)) ∧
    ((∀ m : Position, (GetMove (ai.New Normal p) rnd g).1 = (m.Row, m.Col, none) →
        m ≠ ⟨1, 1⟩ ∧ m ∉ corners) →
      g.Board.cell 1 1 ≠ Player.Empty ∧
      ∀ corner ∈ corners,
        g.Board.cell (toIdx corner.Row) (toIdx corner.Col) ≠ Player.Empty) := by
  obtain ⟨r0, c0, h0⟩ := he
  have hne := GetAvailableMoves_ne_nil g r0 c0 h0
  have hq := GetMove_Normal_quiet p rnd g hne hnw hno
  rw [corners_find_IsValidMove g hs] at hq
  have hcentre : g.Board.cell 1 1 = Player.Empty →
      (GetMove (ai.New Normal p) rnd g).1 = (1, 1, none) := by
    intro hc
    rw [hq, if_pos ((IsValidMove_centre g hs).mpr hc)]
  have hcorner : g.Board.cell 1 1 ≠ Player.Empty → ∀ corner : Position,
      corners.find? (fun corner =>
        decide (g.Board.cell (toIdx corner.Row) (toIdx corner.Col) = Player.Empty)) =
          some corner →
      (GetMove (ai.New Normal p) rnd g).1 = (corner.Row, corner.Col, none) := by
    intro hc corner hfind
    rw [hq, if_neg (fun h => hc ((IsValidMove_centre g hs).mp h)), hfind]
  refine ⟨hcentre, hcorner, ?_, ?_⟩
  · intro hc hall
    have hnone : corners.find? (fun corner =>
        decide (g.Board.cell (toIdx corner.Row) (toIdx corner.Col) = Player.Empty)) = none := by
      rw [List.find?_eq_none]
      intro x hx
      simpa using hall x hx
    have hmem := randomMove_mem rnd (GetAvailableMoves g) hne
    refine ⟨randomMove rnd (GetAvailableMoves g) hne, hmem, ?_, ?_, ?_⟩
    · intro heq
      rw [heq] at hmem
      obtain ⟨r, c, hrc, hemp⟩ := (mem_GetAvailableMoves g _).mp hmem
      rw [Position.mk.injEq] at hrc
      have hr : r = 1 := by
        apply Fin.ext
        have := hrc.1
        simp only [Fin.val_one]
        omega
      have hc' : c = 1 := by
        apply Fin.ext
        have := hrc.2
        simp only [Fin.val_one]
        omega
      rw [hr, hc'] at hemp
      exact hc hemp
    · intro hin
      have hocc := hall _ hin
      obtain ⟨r, c, hrc, hemp⟩ := (mem_GetAvailableMoves g _).mp hmem
      rw [hrc] at hocc
      simp only [toIdx_val] at hocc
      exact hocc hemp
    · rw [hq, if_neg (fun h => hc ((IsValidMove_centre g hs).mp h)), hnone]
  · intro hother
    have hc : g.Board.cell 1 1 ≠ Player.Empty := by
      intro hc
      exact (hother ⟨1, 1⟩ (hcentre hc)).1 rfl
    refine ⟨hc, ?_⟩
    intro corner hcin hemp
    cases hfind : corners.find? (fun corner =>
        decide (g.Board.cell (toIdx corner.Row) (toIdx corner.Col) = Player.Empty)) with
    | none =>
      have := List.find?_eq_none.mp hfind corner hcin
      simp only [decide_eq_true_eq] at this
      exact this hemp
    | some x =>
      have hx := List.mem_of_find?_eq_some hfind
      exact (hother x (hcorner hc x hfind)).2 hx

/-- C22 witness: the `Normal` engine playing `X` on the empty board takes the centre. -/
theorem GetMove_Normal_centre_corners_witness :
    (GetMove (ai.New Normal PlayerX) ⟨false, 0⟩ game.New).1 = (1, 1, none) :=
  (GetMove_Normal_centre_corners PlayerX ⟨false, 0⟩ game.New rfl ⟨0, 0, rfl⟩
    (by unfold winsAt; decide) (by unfold winsAt; decide)).1 rfl

end ai

namespace ai

open game

theorem findWinningMove_congr (g1 g2 : Game) (q : Player) (hB : g1.Board = g2.Board) :
    findWinningMove g1 q = findWinningMove g2 q := by
  rw [findWinningMove_eq, findWinningMove_eq, hB]

theorem IsValidMove_congr (g1 g2 : Game) (row col : Int) (hB : g1.Board = g2.Board)
    (hS : g1.Status = g2.Status) : IsValidMove g1 row col = IsValidMove g2 row col := by
  unfold IsValidMove
  rw [hB, hS]

/-- The read `availableMoves[Intn(len(availableMoves))]` as a list lookup. -/
theorem randomMove_getElem (rnd : Draws) (l : List Position) (h : l ≠ []) :
    l[rnd.intn % l.length]? = some (randomMove rnd l h) := by
  unfold randomMove
  rw [List.getElem?_eq_getElem (Nat.mod_lt _ (List.length_pos.mpr h))]
  rfl

/-- Whenever `getNormalMove` stops before its last step, its result depends on the
board and the status only, not on the draws. -/
theorem getNormalMove_deterministic (a : AI) (rnd1 rnd2 : Draws) (g1 g2 : Game)
    (l1 l2 : List Position) (h1 : l1 ≠ []) (h2 : l2 ≠ [])
    (hB : g1.Board = g2.Board) (hS : g1.Status = g2.Status)
    (hd : (findWinningMove g1 a.player).1 ≠ -1 ∨ (findWinningMove g1 a.opponent).1 ≠ -1 ∨
      IsValidMove g1 1 1 = true ∨
      ∃ corner ∈ corners, IsValidMove g1 corner.Row corner.Col = true) :
    (getNormalMove a rnd1 g1 l1 h1).1 = (getNormalMove a rnd2 g2 l2 h2).1 := by
  have hv : (fun corner : Position => IsValidMove g2 corner.Row corner.Col) =
      (fun corner : Position => IsValidMove g1 corner.Row corner.Col) := by
    funext corner
    exact (IsValidMove_congr g1 g2 _ _ hB hS).symm
  unfold getNormalMove
  rw [← findWinningMove_congr g1 g2 a.player hB, ← findWinningMove_congr g1 g2 a.opponent hB,
    ← IsValidMove_congr g1 g2 1 1 hB hS, hv]
  by_cases c1 : (findWinningMove g1 a.player).1 ≠ -1
  · rw [if_pos c1, if_pos c1]
  rw [if_neg c1, if_neg c1]
  by_cases c2 : (findWinningMove g1 a.opponent).1 ≠ -1
  · rw [if_pos c2, if_pos c2]
  rw [if_neg c2, if_neg c2]
  by_cases c3 : IsValidMove g1 1 1 = true
  · rw [if_pos c3, if_pos c3]
  rw [if_neg c3, if_neg c3]
  cases hf : corners.find? (fun corner => IsValidMove g1 corner.Row corner.Col) with
  | some corner => rfl
  | none =>
    exfalso
    rcases hd with hd | hd | hd | ⟨corner, hc, hd⟩
    · exact c1 hd
    · exact c2 hd
    · exact c3 hd
    · have := List.find?_eq_none.mp hf corner hc
      exact this hd

/-- C23, as the code has it: the `Normal` tier is deterministic except in its last step.
For two in-progress games with the same board on which the engine or the opponent has an
immediately winning cell, or the centre or one of the four corners is `Empty`, `GetMove`
at tier `Normal` returns the same position for the same engine mark, whatever the draws
of the randomness source; on the remaining in-progress boards with an `Empty` cell it
returns the available move at the index drawn from the randomness source. -/
theorem GetMove_Normal_deterministic (p : Player) (rnd1 rnd2 : Draws) (g1 g2 : Game)
    (hs1 : g1.Status = StatusPlaying) (hs2 : g2.Status = StatusPlaying)
    (hB : g1.Board = g2.Board) :
    (((∃ r c : Fin 3, winsAt g1.Board p r c) ∨
        (∃ r c : Fin 3, winsAt g1.Board (ai.New Normal p).opponent r c) ∨
        g1.Board.cell 1 1 = Player.Empty ∨
        ∃ corner ∈ corners,
          g1.Board.cell (toIdx corner.Row) (toIdx corner.Col) = Player.Empty) →
      (GetMove (ai.New Normal p) rnd1 g1).1 = (GetMove (ai.New Normal p) rnd2 g2).1) ∧
    (¬ ((∃ r c : Fin 3, winsAt g1.Board p r c) ∨
        (∃ r c : Fin 3, winsAt g1.Board (ai.New Normal p).opponent r c) ∨
        g1.Board.cell 1 1 = Player.Empty ∨
        ∃ corner ∈ corners,
          g1.Board.cell (toIdx corner.Row) (toIdx corner.Col) = Player.Empty) →
      (∃ r c : Fin 3, g1.Board.cell r c = Player.Empty) →
      ∃ m : Position,
        (GetAvailableMoves g1)[rnd1.intn % (GetAvailableMoves g1).length]? = some m ∧
        (GetMove (ai.New Normal p) rnd1 g1).1 = (m.Row, m.Col, none)) := by
  have hcorner : ∀ corner ∈ corners, (IsValidMove g1 corner.Row corner.Col = true ↔
      g1.Board.cell (toIdx corner.Row) (toIdx corner.Col) = Player.Empty) := by
    intro x hx
    simp only [corners, List.mem_cons, List.mem_singleton, List.not_mem_nil, or_false] at hx
    rcases hx with rfl | rfl | rfl | rfl <;>
      simp [IsValidMove, hs1]
  constructor
  · intro hd
    have he : ∃ r c : Fin 3, g1.Board.cell r c = Player.Empty := by
      rcases hd with ⟨r, c, hw⟩ | ⟨r, c, hw⟩ | hc | ⟨corner, _, hc⟩
      · exact ⟨r, c, hw.1⟩
      · exact ⟨r, c, hw.1⟩
      · exact ⟨1, 1, hc⟩
      · exact ⟨_, _, hc⟩
    obtain ⟨r0, c0, h0⟩ := he
    have hne1 := GetAvailableMoves_ne_nil g1 r0 c0 h0
    have hne2 := GetAvailableMoves_ne_nil g2 r0 c0 (hB ▸ h0)
    rw [GetMove_Normal p rnd1 g1 hne1, GetMove_Normal p rnd2 g2 hne2]
    apply getNormalMove_deterministic _ _ _ _ _ _ _ _ _ hB (hs1.trans hs2.symm)
    rcases hd with ⟨r, c, hw⟩ | ⟨r, c, hw⟩ | hc | ⟨corner, hin, hc⟩
    · exact Or.inl (findWinningMove_complete g1 _ r c hw)
    · exact Or.inr (Or.inl (findWinningMove_complete g1 _ r c hw))
    · exact Or.inr (Or.inr (Or.inl ((IsValidMove_centre g1 hs1).mpr hc)))
    · exact Or.inr (Or.inr (Or.inr ⟨corner, hin, (hcorner corner hin).mpr hc⟩))
  · intro hd ⟨r0, c0, h0⟩
    have hne1 := GetAvailableMoves_ne_nil g1 r0 c0 h0
    refine ⟨randomMove rnd1 (GetAvailableMoves g1) hne1, randomMove_getElem _ _ _, ?_⟩
    rw [GetMove_Normal_quiet p rnd1 g1 hne1 (fun h => hd (Or.inl h))
      (fun h => hd (Or.inr (Or.inl h)))]
    rw [if_neg (fun h => hd (Or.inr (Or.inr (Or.inl ((IsValidMove_centre g1 hs1).mp h)))))]
    cases hf : corners.find? (fun corner => IsValidMove g1 corner.Row corner.Col) with
    | none => rfl
    | some corner =>
      exfalso
      have hin := List.mem_of_find?_eq_some hf
      have hv : IsValidMove g1 corner.Row corner.Col = true :=
        @List.find?_some _ (fun corner => IsValidMove g1 corner.Row corner.Col) corner _ hf
      exact hd (Or.inr (Or.inr (Or.inr ⟨corner, hin, (hcorner corner hin).mp hv⟩)))

/-- C23 witness: on the empty board the `Normal` engine returns the same cell for two
different draws. -/
theorem GetMove_Normal_deterministic_witness :
    (GetMove (ai.New Normal PlayerX) ⟨false, 0⟩ game.New).1 =
      (GetMove (ai.New Normal PlayerX) ⟨true, 5⟩ game.New).1 :=
  (GetMove_Normal_deterministic PlayerX ⟨false, 0⟩ ⟨true, 5⟩ game.New game.New rfl rfl rfl).1
    (Or.inr (Or.inr (Or.inl rfl)))

/-- C23 as stated fails: on the in-progress board reached by the moves
`(0,0) (0,1) (0,2) (2,0) (1,1) (2,2) (2,1)`, with `O` to move, no winning cell for either
mark and the centre and the corners occupied, the `Normal` engine playing `O` returns
`(1, 0)` for one draw and `(1, 2)` for another. -/
theorem GetMove_Normal_depends_on_draw :
    Reachable (applyMoves game.New
      [⟨0, 0⟩, ⟨0, 1⟩, ⟨0, 2⟩, ⟨2, 0⟩, ⟨1, 1⟩, ⟨2, 2⟩, ⟨2, 1⟩]) ∧
    (applyMoves game.New
      [⟨0, 0⟩, ⟨0, 1⟩, ⟨0, 2⟩, ⟨2, 0⟩, ⟨1, 1⟩, ⟨2, 2⟩, ⟨2, 1⟩]).Status = StatusPlaying ∧
    (applyMoves game.New
      [⟨0, 0⟩, ⟨0, 1⟩, ⟨0, 2⟩, ⟨2, 0⟩, ⟨1, 1⟩, ⟨2, 2⟩, ⟨2, 1⟩]).CurrentPlayer = PlayerO ∧
    (GetMove (ai.New Normal PlayerO) ⟨false, 0⟩ (applyMoves game.New
      [⟨0, 0⟩, ⟨0, 1⟩, ⟨0, 2⟩, ⟨2, 0⟩, ⟨1, 1⟩, ⟨2, 2⟩, ⟨2, 1⟩])).1 = (1, 0, none) ∧
    (GetMove (ai.New Normal PlayerO) ⟨false, 1⟩ (applyMoves game.New
      [⟨0, 0⟩, ⟨0, 1⟩, ⟨0, 2⟩, ⟨2, 0⟩, ⟨1, 1⟩, ⟨2, 2⟩, ⟨2, 1⟩])).1 = (1, 2, none) :=
  ⟨Reachable.move _ 2 1 (Reachable.move _ 2 2 (Reachable.move _ 1 1 (Reachable.move _ 2 0
      (Reachable.move _ 0 2 (Reachable.move _ 0 1 (Reachable.move _ 0 0 Reachable.init)))))),
    by decide!, by decide!, by decide!, by decide!⟩

end ai

namespace game

theorem MakeMove_ok_MoveHistory (g : Game) (row col : Int)
    (h : (MakeMove g row col).1 = none) :
    (MakeMove g row col).2.MoveHistory = g.MoveHistory ++ [⟨row, col⟩] := by
  rw [MakeMove_fst] at h
  split_ifs at h with h1 h2 h3
  have hs : g.Status = StatusPlaying := by simpa using h1
  have he : g.Board.cell (toIdx row) (toIdx col) = Empty := by simpa using h3
  rw [MakeMove_snd_of_ok g row col hs h2 he]
  split_ifs
  · rw [switchPlayer_MoveHistory, checkGameStatus_MoveHistory]
  · rw [checkGameStatus_MoveHistory]

theorem acceptedMoves_append (g : Game) (ms : List Position) (m : Position) :
    acceptedMoves g (ms ++ [m]) =
      acceptedMoves g ms ++
        (if (MakeMove (applyMoves g ms) m.Row m.Col).1 = none then [m] else []) := by
  induction ms generalizing g with
  | nil =>
    simp only [List.nil_append, acceptedMoves, applyMoves, List.foldl_nil]
  | cons a ms ih =>
    simp only [List.cons_append, acceptedMoves]
    have happ : applyMoves g (a :: ms) = applyMoves (MakeMove g a.Row a.Col).2 ms := rfl
    rw [happ]
    split_ifs <;> simp_all

theorem markCount_setCell (b : Board) (r c : Fin 3) (q : Player)
    (h : b.cell r c = Empty) (hq : q ≠ Empty) :
    markCount (b.setCell r c q) = markCount b + 1 := by
  obtain ⟨⟨a0, a1, a2⟩, ⟨b0, b1, b2⟩, ⟨c0, c1, c2⟩⟩ := b
  fin_cases r <;> fin_cases c <;>
    simp only [Board.cell, Arr3.get] at h <;>
    simp only [markCount, ai.allCells, List.countP_cons, List.countP_nil, Board.cell,
      Board.setCell, Arr3.get, Arr3.set, h, hq, ne_eq, not_true_eq_false, not_false_eq_true,
      decide_True, decide_False, if_true, if_false, Bool.false_eq_true] <;>
    omega

/-- Every state reached from `New()` is the result of playing some list of moves. -/
theorem Reachable_iff_applyMoves (g : Game) : Reachable g ↔ ∃ ms, g = applyMoves New ms := by
  constructor
  · intro h
    induction h with
    | init => exact ⟨[], rfl⟩
    | move g row col _ ih =>
      obtain ⟨ms, rfl⟩ := ih
      exact ⟨ms ++ [⟨row, col⟩], (applyMoves_append New ms ⟨row, col⟩).symm⟩
  · rintro ⟨ms, rfl⟩
    induction ms using List.reverseRecOn with
    | nil => exact Reachable.init
    | append_singleton ms m ih =>
      rw [applyMoves_append]
      exact Reachable.move _ _ _ ih

/-- The history invariant along the moves played from `New()`. -/
theorem applyMoves_history (ms : List Position) :
    (applyMoves New ms).MoveHistory = acceptedMoves New ms ∧
    (applyMoves New ms).MoveHistory.length = markCount (applyMoves New ms).Board ∧
    (applyMoves New ms).MoveHistory.Nodup ∧
    (∀ m ∈ (applyMoves New ms).MoveHistory, 0 ≤ m.Row ∧ m.Row ≤ 2 ∧ 0 ≤ m.Col ∧ m.Col ≤ 2) ∧
    (∀ (i : Nat) (m : Position), (applyMoves New ms).MoveHistory[i]? = some m →
      (applyMoves New ms).Board.cell (toIdx m.Row) (toIdx m.Col) =
        if i % 2 = 0 then PlayerX else PlayerO) ∧
    ((applyMoves New ms).Status = StatusPlaying →
      (applyMoves New ms).CurrentPlayer =
        if (applyMoves New ms).MoveHistory.length % 2 = 0 then PlayerX else PlayerO) := by
  induction ms using List.reverseRecOn with
  | nil =>
    refine ⟨rfl, rfl, List.nodup_nil, ?_, ?_, fun _ => rfl⟩
    · intro m hm
      exact absurd hm (List.not_mem_nil _)
    · intro i m hm
      simp [applyMoves, New] at hm
  | append_singleton ms mv ih =>
    obtain ⟨ha, hb, hc, hd, he, hf⟩ := ih
    rw [applyMoves_append, acceptedMoves_append]
    generalize applyMoves New ms = g at ha hb hc hd he hf ⊢
    by_cases hok : (MakeMove g mv.Row mv.Col).1 = none
    · obtain ⟨hs, hbnd, hemp⟩ := (MakeMove_fst_eq_none_iff g _ _).mp hok
      have hH := MakeMove_ok_MoveHistory g _ _ hok
      have hB := MakeMove_ok_Board g _ _ hok
      have hcur := hf hs
      have hq : g.CurrentPlayer ≠ Empty := by
        rw [hcur]
        split_ifs <;> decide
      have hcell : ∀ (i : Nat) (m : Position), g.MoveHistory[i]? = some m →
          g.Board.cell (toIdx m.Row) (toIdx m.Col) ≠ Empty := by
        intro i m hm
        rw [he i m hm]
        split_ifs <;> decide
      have hnew : ∀ m ∈ g.MoveHistory, (toIdx m.Row, toIdx m.Col) ≠
          (toIdx mv.Row, toIdx mv.Col) := by
        intro m hm heq
        obtain ⟨i, hi⟩ := List.getElem?_of_mem hm
        rw [Prod.mk.injEq] at heq
        have := hcell i m hi
        rw [heq.1, heq.2] at this
        exact this hemp
      rw [if_pos hok, hH, hB]
      refine ⟨by rw [ha], ?_, ?_, ?_, ?_, ?_⟩
      · rw [List.length_append, List.length_singleton, hb,
          markCount_setCell _ _ _ _ hemp hq]
      · rw [List.nodup_append]
        refine ⟨hc, List.nodup_singleton _, ?_⟩
        intro m hm hm2
        rw [List.mem_singleton] at hm2
        rw [hm2] at hm
        exact hnew mv hm rfl
      · intro m hm
        rcases List.mem_append.mp hm with hm | hm
        · exact hd m hm
        · rw [List.mem_singleton] at hm
          rw [hm]
          exact hbnd
      · intro i m hm
        by_cases hi : i < g.MoveHistory.length
        · rw [List.getElem?_append_left hi] at hm
          rw [cell_setCell_other _ _ _ _ _ _ (hnew m (List.getElem?_mem hm))]
          exact he i m hm
        · have hle : g.MoveHistory.length ≤ i := Nat.le_of_not_lt hi
          rw [List.getElem?_append_right hle] at hm
          have hi0 : i - g.MoveHistory.length = 0 := by
            by_contra hne
            obtain ⟨k, hk⟩ := Nat.exists_eq_succ_of_ne_zero hne
            rw [hk] at hm
            simp at hm
          rw [hi0] at hm
          have hmv : mv = m := by simpa using hm
          subst hmv
          have hieq : i = g.MoveHistory.length := by omega
          rw [cell_setCell_same, hcur, hieq]
      · intro hs2
        rw [MakeMove_ok_playing_CurrentPlayer g _ _ hok hs2, hcur, ← hH,
          hH, List.length_append, List.length_singleton]
        rcases Nat.mod_two_eq_zero_or_one g.MoveHistory.length with h2 | h2
        · have h3 : (g.MoveHistory.length + 1) % 2 = 1 := by omega
          rw [h2, h3]
          decide
        · have h3 : (g.MoveHistory.length + 1) % 2 = 0 := by omega
          rw [h2, h3]
          decide
    · rw [if_neg hok, List.append_nil, MakeMove_snd_of_rejected g _ _ hok]
      exact ⟨ha, hb, hc, hd, he, hf⟩

/-- C24: the game states reachable from `New()` through `MakeMove` calls are the results
of playing a list of calls from `New()`, and for every such list, accepted or rejected
calls alike, `MoveHistory` lists exactly the accepted moves in the order they were
played: it is the list of the calls that `MakeMove` accepted, its length equals the
number of non-`Empty` cells, its positions are pairwise distinct and in bounds, and the
cell at the `i`-th entry (0-based) holds `PlayerX` when `i` is even and `PlayerO` when
`i` is odd. -/
theorem MoveHistory_spec :
    (∀ g : Game, Reachable g ↔ ∃ ms, g = applyMoves New ms) ∧
    (∀ ms : List Position,
      (applyMoves New ms).MoveHistory = acceptedMoves New ms ∧
      (applyMoves New ms).MoveHistory.length = markCount (applyMoves New ms).Board ∧
      (applyMoves New ms).MoveHistory.Nodup ∧
      (∀ m ∈ (applyMoves New ms).MoveHistory,
        0 ≤ m.Row ∧ m.Row ≤ 2 ∧ 0 ≤ m.Col ∧ m.Col ≤ 2) ∧
      (∀ (i : Nat) (m : Position), (applyMoves New ms).MoveHistory[i]? = some m →
        (applyMoves New ms).Board.cell (toIdx m.Row) (toIdx m.Col) =
          if i % 2 = 0 then PlayerX else PlayerO)) := by
  refine ⟨Reachable_iff_applyMoves, fun ms => ?_⟩
  obtain ⟨ha, hb, hc, hd, he, _⟩ := applyMoves_history ms
  exact ⟨ha, hb, hc, hd, he⟩

/-- C24 witness: the calls `(0,0)`, a rejected repeat of `(0,0)`, and `(1,1)` leave the
history `(0,0)`, `(1,1)`. -/
theorem MoveHistory_spec_witness :
    (applyMoves New [⟨0, 0⟩, ⟨0, 0⟩, ⟨1, 1⟩]).MoveHistory =
        acceptedMoves New [⟨0, 0⟩, ⟨0, 0⟩, ⟨1, 1⟩] ∧
    acceptedMoves New [⟨0, 0⟩, ⟨0, 0⟩, ⟨1, 1⟩] = [⟨0, 0⟩, ⟨1, 1⟩] :=
  ⟨(MoveHistory_spec.2 [⟨0, 0⟩, ⟨0, 0⟩, ⟨1, 1⟩]).1, by decide!⟩

end game

namespace game

/-- C25: legality never depends on the move history. For two game states that agree on
`Board`, `CurrentPlayer`, `Status` and `Winner` (and may differ in `MoveHistory`, and in
`Mode`), and for every `(row, col)`: `IsValidMove` gives the same answer, `MakeMove`
returns the same error or succeeds on both, and the resulting `Board`, `CurrentPlayer`,
`Status` and `Winner` are equal. -/
theorem MakeMove_ignores_history (g1 g2 : Game) (row col : Int)
    (hB : g1.Board = g2.Board) (hC : g1.CurrentPlayer = g2.CurrentPlayer)
    (hS : g1.Status = g2.Status) (hW : g1.Winner = g2.Winner) :
    IsValidMove g1 row col = IsValidMove g2 row col ∧
    (MakeMove g1 row col).1 = (MakeMove g2 row col).1 ∧
    (MakeMove g1 row col).2.Board = (MakeMove g2 row col).2.Board ∧
    (MakeMove g1 row col).2.CurrentPlayer = (MakeMove g2 row col).2.CurrentPlayer ∧
    (MakeMove g1 row col).2.Status = (MakeMove g2 row col).2.Status ∧
    (MakeMove g1 row col).2.Winner = (MakeMove g2 row col).2.Winner := by
  have hV : IsValidMove g1 row col = IsValidMove g2 row col := by
    unfold IsValidMove
    rw [hB, hS]
  have hfst : (MakeMove g1 row col).1 = (MakeMove g2 row col).1 := by
    rw [MakeMove_fst, MakeMove_fst, hB, hS]
  refine ⟨hV, hfst, ?_⟩
  by_cases hok : (MakeMove g1 row col).1 = none
  · have hok2 : (MakeMove g2 row col).1 = none := hfst ▸ hok
    have hB' : (MakeMove g1 row col).2.Board = (MakeMove g2 row col).2.Board := by
      rw [MakeMove_ok_Board g1 row col hok, MakeMove_ok_Board g2 row col hok2, hB, hC]
    have hcw := checkWinner_congr _ _ hB'
    have hfull := isBoardFull_congr _ _ hB'
    have hS' : (MakeMove g1 row col).2.Status = (MakeMove g2 row col).2.Status := by
      rw [MakeMove_ok_Status g1 row col hok, MakeMove_ok_Status g2 row col hok2, hcw, hfull]
    refine ⟨hB', ?_, hS', ?_⟩
    · by_cases hp : (MakeMove g1 row col).2.Status = StatusPlaying
      · rw [MakeMove_ok_playing_CurrentPlayer g1 row col hok hp,
          MakeMove_ok_playing_CurrentPlayer g2 row col hok2 (hS' ▸ hp), hC]
      · rw [MakeMove_ok_over_CurrentPlayer g1 row col hok hp,
          MakeMove_ok_over_CurrentPlayer g2 row col hok2 (hS' ▸ hp), hC]
    · rw [MakeMove_ok_Winner g1 row col hok, MakeMove_ok_Winner g2 row col hok2, hcw, hW]
  · have hok2 : (MakeMove g2 row col).1 ≠ none := hfst ▸ hok
    rw [MakeMove_snd_of_rejected g1 row col hok, MakeMove_snd_of_rejected g2 row col hok2]
    exact ⟨hB, hC, hS, hW⟩

/-- C25 witness: the state after `X (0,0)`, `O (1,1)` and the same state with its history
erased, for the move `(0, 1)`. -/
theorem MakeMove_ignores_history_witness :
    (applyMoves New [⟨0, 0⟩, ⟨1, 1⟩]).MoveHistory ≠
      ({ applyMoves New [⟨0, 0⟩, ⟨1, 1⟩] with MoveHistory := [] } : Game).MoveHistory ∧
    (IsValidMove (applyMoves New [⟨0, 0⟩, ⟨1, 1⟩]) 0 1 =
        IsValidMove { applyMoves New [⟨0, 0⟩, ⟨1, 1⟩] with MoveHistory := [] } 0 1 ∧
      (MakeMove (applyMoves New [⟨0, 0⟩, ⟨1, 1⟩]) 0 1).1 =
        (MakeMove { applyMoves New [⟨0, 0⟩, ⟨1, 1⟩] with MoveHistory := [] } 0 1).1 ∧
      (MakeMove (applyMoves New [⟨0, 0⟩, ⟨1, 1⟩]) 0 1).2.Board =
        (MakeMove { applyMoves New [⟨0, 0⟩, ⟨1, 1⟩] with MoveHistory := [] } 0 1).2.Board ∧
      (MakeMove (applyMoves New [⟨0, 0⟩, ⟨1, 1⟩]) 0 1).2.CurrentPlayer =
        (MakeMove { applyMoves New [⟨0, 0⟩, ⟨1, 1⟩] with MoveHistory := [] } 0 1).2.CurrentPlayer ∧
      (MakeMove (applyMoves New [⟨0, 0⟩, ⟨1, 1⟩]) 0 1).2.Status =
        (MakeMove { applyMoves New [⟨0, 0⟩, ⟨1, 1⟩] with MoveHistory := [] } 0 1).2.Status ∧
      (MakeMove (applyMoves New [⟨0, 0⟩, ⟨1, 1⟩]) 0 1).2.Winner =
        (MakeMove { applyMoves New [⟨0, 0⟩, ⟨1, 1⟩] with MoveHistory := [] } 0 1).2.Winner) :=
  ⟨by decide!,
    MakeMove_ignores_history (applyMoves New [⟨0, 0⟩, ⟨1, 1⟩])
      { applyMoves New [⟨0, 0⟩, ⟨1, 1⟩] with MoveHistory := [] } 0 1 rfl rfl rfl rfl⟩

end game

namespace ai

open game

theorem GetMove_Easy (p : Player) (rnd : Draws) (g : Game)
    (h : GetAvailableMoves g ≠ []) :
    GetMove (ai.New Easy p) rnd g = getEasyMove (ai.New Easy p) rnd g (GetAvailableMoves g) h := by
  unfold GetMove
  have h1 : (ai.New Easy p).difficulty = Easy := rfl
  rw [dif_neg h, if_pos h1]

/-- A mark has an immediately winning cell exactly when `findWinningMove` finds one. -/
theorem findWinningMove_ne_iff (g : Game) (p : Player) :
    (findWinningMove g p).1 ≠ -1 ↔ ∃ r c : Fin 3, winsAt g.Board p r c := by
  constructor
  · intro h
    obtain ⟨r, c, _, hw⟩ := findWinningMove_sound g p h
    exact ⟨r, c, hw⟩
  · rintro ⟨r, c, hw⟩
    exact findWinningMove_complete g p r c hw

/-- Every position of a list is read by `randomMove` for some draw. -/
theorem randomMove_surjective (l : List Position) (h : l ≠ []) (m : Position) (hm : m ∈ l) :
    ∃ i : Nat, randomMove ⟨false, i⟩ l h = m := by
  obtain ⟨i, hi, hget⟩ := List.getElem_of_mem hm
  refine ⟨i, ?_⟩
  unfold randomMove
  simp only [List.get_eq_getElem, Nat.mod_eq_of_lt hi]
  exact hget

/-- C26: for the `Easy` tier on every board with at least one `Empty` cell, with
`rnd.smart` telling whether the float drawn from the randomness source is below `0.2`
and `rnd.intn % len` the index drawn for the fallback: if the float is below `0.2` and the
engine has an immediately winning cell, `GetMove` returns `findWinningMove` for the
engine's mark; else if the float is below `0.2` and the opponent has an immediately
winning cell, it returns `findWinningMove` for the opponent's mark; in every other case
it returns the element of `GetAvailableMoves` at the drawn index, so every available move
is returned for some draw. -/
theorem GetMove_Easy_spec (p : Player) (rnd : Draws) (g : Game)
    (he : ∃ r c : Fin 3, g.Board.cell r c = Player.Empty) :
    (rnd.smart = true → (∃ r c : Fin 3, winsAt g.Board p r c) →
      (GetMove (ai.New Easy p) rnd g).1 =
        ((findWinningMove g p).1, (findWinningMove g p).2, none)) ∧
    (rnd.smart = true → (¬ ∃ r c : Fin 3, winsAt g.Board p r c) →
      (∃ r c : Fin 3, winsAt g.Board (ai.New Easy p).opponent r c) →
      (GetMove (ai.New Easy p) rnd g).1 =
        ((findWinningMove g (ai.New Easy p).opponent).1,
          (findWinningMove g (ai.New Easy p).opponent).2, none)) ∧
    (¬ (rnd.smart = true ∧ ((∃ r c : Fin 3, winsAt g.Board p r c) ∨
        ∃ r c : Fin 3, winsAt g.Board (ai.New Easy p).opponent r c)) →
      ∃ m : Position,
        (GetAvailableMoves g)[rnd.intn % (GetAvailableMoves g).length]? = some m ∧
        (GetMove (ai.New Easy p) rnd g).1 = (m.Row, m.Col, none)) ∧
    (∀ m ∈ GetAvailableMoves g, ∃ rnd2 : Draws,
      (GetMove (ai.New Easy p) rnd2 g).1 = (m.Row, m.Col, none)) := by
  obtain ⟨r0, c0, h0⟩ := he
  have hne := GetAvailableMoves_ne_nil g r0 c0 h0
  have hplayer : (ai.New Easy p).player = p := rfl
  refine ⟨?_, ?_, ?_, ?_⟩
  · intro hsm hw
    rw [GetMove_Easy p rnd g hne]
    unfold getEasyMove
    rw [if_pos ⟨hsm, hplayer ▸ (findWinningMove_ne_iff g p).mpr hw⟩]
    rfl
  · intro hsm hnw hw
    rw [GetMove_Easy p rnd g hne]
    unfold getEasyMove
    rw [if_neg (fun h => hnw ((findWinningMove_ne_iff g p).mp h.2)),
      if_pos ⟨hsm, (findWinningMove_ne_iff g _).mpr hw⟩]
  · intro hnot
    refine ⟨randomMove rnd (GetAvailableMoves g) hne, randomMove_getElem _ _ _, ?_⟩
    rw [GetMove_Easy p rnd g hne]
    unfold getEasyMove
    rw [if_neg (fun h => hnot ⟨h.1, Or.inl ((findWinningMove_ne_iff g p).mp h.2)⟩),
      if_neg (fun h => hnot ⟨h.1, Or.inr ((findWinningMove_ne_iff g _).mp h.2)⟩)]
  · intro m hm
    obtain ⟨i, hi⟩ := randomMove_surjective (GetAvailableMoves g) hne m hm
    refine ⟨⟨false, i⟩, ?_⟩
    rw [GetMove_Easy p ⟨false, i⟩ g hne]
    unfold getEasyMove
    have hsm : ¬ (⟨false, i⟩ : Draws).smart = true := Bool.false_ne_true
    rw [if_neg (fun h => hsm h.1), if_neg (fun h => hsm h.1), hi]

/-- C26 witness: on the board after `X (0,0)`, `O (1,0)`, `X (0,1)`, `O (1,1)` the `Easy`
engine playing `X` wins at `(0, 2)` when the float is below `0.2`. -/
theorem GetMove_Easy_spec_witness :
    (GetMove (ai.New Easy PlayerX) ⟨true, 0⟩
        (applyMoves game.New [⟨0, 0⟩, ⟨1, 0⟩, ⟨0, 1⟩, ⟨1, 1⟩])).1 =
      ((findWinningMove (applyMoves game.New [⟨0, 0⟩, ⟨1, 0⟩, ⟨0, 1⟩, ⟨1, 1⟩]) PlayerX).1,
        (findWinningMove (applyMoves game.New [⟨0, 0⟩, ⟨1, 0⟩, ⟨0, 1⟩, ⟨1, 1⟩]) PlayerX).2,
        none) ∧
    findWinningMove (applyMoves game.New [⟨0, 0⟩, ⟨1, 0⟩, ⟨0, 1⟩, ⟨1, 1⟩]) PlayerX = (0, 2) :=
  ⟨(GetMove_Easy_spec PlayerX ⟨true, 0⟩
      (applyMoves game.New [⟨0, 0⟩, ⟨1, 0⟩, ⟨0, 1⟩, ⟨1, 1⟩]) ⟨0, 2, by decide!⟩).1 rfl
      ⟨0, 2, by unfold winsAt; decide!⟩,
    by decide!⟩

end ai

namespace ai

open game

/-- The search value of a position the engine has won. -/
theorem minimax_of_won (a : AI) (g : Game) (d : Nat) (m : Bool)
    (hs : g.Status = StatusWon) (hw : g.Winner = a.player) :
    minimax a g d m = 10 + (d : Int) := by
  cases d with
  | zero => rw [minimax_zero, if_pos hs, if_pos hw]
  | succ d => rw [minimax_succ, if_pos hs, if_pos hw]

/-- A position that is not won scores at most `9 + d`: no win shows before the next
ply. -/
theorem minimax_le_of_not_won (a : AI) (g : Game) (d : Nat) (m : Bool)
    (hf : g.Status = StatusPlaying → isBoardFull g = false) (hs : g.Status ≠ StatusWon) :
    minimax a g d m ≤ 9 + (d : Int) := by
  cases d with
  | zero =>
    rw [minimax_zero, if_neg hs]
    split_ifs <;> omega
  | succ d =>
    cases hst : g.Status with
    | StatusWon => exact absurd hst hs
    | StatusDraw =>
      rw [minimax_succ, if_neg hs, if_pos hst]
      push_cast
      omega
    | StatusPlaying =>
      rw [minimax_succ_playing a g d m hst]
      obtain ⟨m0, hm0⟩ := List.exists_mem_of_ne_nil _
        (GetAvailableMoves_ne_nil_of_not_full g (hf hst))
      have hch : ∀ mv ∈ GetAvailableMoves g, ∀ m' : Bool,
          minimax a (MakeMove (copyGame g) mv.Row mv.Col).2 d m' ≤ 10 + (d : Int) :=
        fun mv hmv m' => (minimax_bounds a d _ m' (child_ok g mv hst hmv).2).2
      cases m with
      | true =>
        simp only [if_true]
        obtain ⟨h1, _, _⟩ := foldl_max_spec (fun (mv : Position) =>
          minimax a (MakeMove (copyGame g) mv.Row mv.Col).2 d false)
          (GetAvailableMoves g) (-1000)
        rcases h1 with h1 | ⟨x, hx, h1⟩
        · rw [h1]
          push_cast
          omega
        · rw [h1]
          have := hch x hx false
          push_cast
          omega
      | false =>
        simp only [Bool.false_eq_true, if_false]
        obtain ⟨_, _, h3⟩ := foldl_min_spec (fun (mv : Position) =>
          minimax a (MakeMove (copyGame g) mv.Row mv.Col).2 d true)
          (GetAvailableMoves g) 1000
        have := h3 m0 hm0
        have := hch m0 hm0 true
        push_cast
        omega

theorem posOf_injective (x y : Fin 3 × Fin 3) (h : posOf x = posOf y) : x = y := by
  obtain ⟨r, c⟩ := x
  obtain ⟨r2, c2⟩ := y
  unfold posOf at h
  rw [Position.mk.injEq] at h
  have h3 : ((r.val : Int) = (r2.val : Int)) ∧ ((c.val : Int) = (c2.val : Int)) := h
  have h1 : r = r2 := Fin.ext (by have := h3.1; omega)
  have h2 : c = c2 := Fin.ext (by have := h3.2; omega)
  rw [h1, h2]

/-- The candidate on a winning cell of the engine scores `10 + depth`. -/
theorem moveScore_win (a : AI) (depth : Nat) (g : Game) (r c : Fin 3)
    (hs : g.Status = StatusPlaying) (hno : checkWinner g = Player.Empty)
    (hcp : g.CurrentPlayer = a.player) (hw : winsAt g.Board a.player r c) :
    moveScore a depth g (posOf (r, c)) = 10 + (depth : Int) := by
  obtain ⟨_, hs2, hwin2⟩ := MakeMove_wins (copyGame g) a.player r c hs hcp
    ((checkWinner_congr _ _ rfl).trans hno) hw
  exact minimax_of_won a _ depth false hs2 hwin2

/-- A candidate that does not win at once scores less than `10 + depth`. -/
theorem moveScore_nonwin (a : AI) (depth : Nat) (g : Game) (r c : Fin 3)
    (hs : g.Status = StatusPlaying) (hno : checkWinner g = Player.Empty)
    (hcp : g.CurrentPlayer = a.player) (he : g.Board.cell r c = Player.Empty)
    (hnw : ¬ winsAt g.Board a.player r c) :
    moveScore a depth g (posOf (r, c)) < 10 + (depth : Int) := by
  obtain ⟨_, _, hnw1, _, _, _⟩ := child_not_won g r c hs hno he (hcp ▸ hnw)
  have hm : posOf (r, c) ∈ GetAvailableMoves g :=
    (mem_GetAvailableMoves g _).mpr ⟨r, c, rfl, he⟩
  have hle := minimax_le_of_not_won a (MakeMove (copyGame g) (r.val : Int) (c.val : Int)).2
    depth false (child_ok g _ hs hm).2 hnw1
  have heq : moveScore a depth g (posOf (r, c)) =
      minimax a (MakeMove (copyGame g) (r.val : Int) (c.val : Int)).2 depth false := rfl
  rw [heq]
  omega

/-- On a playing game with no complete line on which the engine, to move, has a winning
cell, the candidate loop at a depth below `990` ends on the first winning cell in
row-major order. -/
theorem bestMoveLoop_win (a : AI) (depth : Nat) (g : Game) (hd : depth < 990)
    (hs : g.Status = StatusPlaying) (hno : checkWinner g = Player.Empty)
    (hcp : g.CurrentPlayer = a.player) (hw : ∃ r c : Fin 3, winsAt g.Board a.player r c) :
    ∃ r c : Fin 3,
      (bestMoveLoop a depth g (GetAvailableMoves g)).2.1 = posOf (r, c) ∧
      (bestMoveLoop a depth g (GetAvailableMoves g)).2.1.Row ≠ -1 ∧
      winsAt g.Board a.player r c ∧
      ∀ r2 c2 : Fin 3, winsAt g.Board a.player r2 c2 →
        (r2, c2) = (r, c) ∨ rowMajorLt (posOf (r, c)) (posOf (r2, c2)) := by
  obtain ⟨rw, cw, hwin⟩ := hw
  have hne := GetAvailableMoves_ne_nil g rw cw hwin.1
  obtain ⟨l1, l2, h1, h2, h3, _, h5, _⟩ := bestMoveLoop_picks a depth g hd hs hne
  have hbm : (bestMoveLoop a depth g (GetAvailableMoves g)).2.1 ∈ GetAvailableMoves g :=
    (congrArg (fun l => (bestMoveLoop a depth g (GetAvailableMoves g)).2.1 ∈ l) h1).mpr
      (List.mem_append.mpr (Or.inr (List.mem_cons_self _ _)))
  obtain ⟨r, c, hrc, he⟩ := (mem_GetAvailableMoves g _).mp hbm
  have hrc2 : (bestMoveLoop a depth g (GetAvailableMoves g)).2.1 = posOf (r, c) := hrc
  have hpw := GetAvailableMoves_pairwise g
  rw [h1, hrc2] at hpw
  have hpw2 := (List.pairwise_append.mp hpw).2.1
  have hafter : ∀ m ∈ l2, rowMajorLt (posOf (r, c)) m :=
    fun m hm => List.rel_of_pairwise_cons hpw2 hm
  -- where a winning cell can sit in the list
  have hpos : ∀ r2 c2 : Fin 3, winsAt g.Board a.player r2 c2 →
      (posOf (r2, c2) = posOf (r, c) ∨ posOf (r2, c2) ∈ l2) ∧
      10 + (depth : Int) ≤ moveScore a depth g (posOf (r, c)) := by
    intro r2 c2 hw2
    have hsc := moveScore_win a depth g r2 c2 hs hno hcp hw2
    have hmem : posOf (r2, c2) ∈ GetAvailableMoves g :=
      (mem_GetAvailableMoves g _).mpr ⟨r2, c2, rfl, hw2.1⟩
    rw [h1, List.mem_append, List.mem_cons] at hmem
    rw [hrc2] at h2 h3 hmem
    rcases hmem with hin | heq | hin
    · have hlt := h2 _ hin
      rw [hsc] at hlt
      have hb := (moveScore_bounds a depth g (posOf (r, c)) hs (hrc2 ▸ hbm)).2
      omega
    · exact ⟨Or.inl heq, by rw [← heq, hsc]⟩
    · have hle := h3 _ hin
      rw [hsc] at hle
      exact ⟨Or.inr hin, hle⟩
  have hbest : winsAt g.Board a.player r c := by
    by_contra hnw
    have := moveScore_nonwin a depth g r c hs hno hcp he hnw
    have := (hpos rw cw hwin).2
    omega
  refine ⟨r, c, hrc2, h5, hbest, ?_⟩
  intro r2 c2 hw2
  rcases (hpos r2 c2 hw2).1 with heq | hin
  · exact Or.inl (posOf_injective _ _ heq)
  · exact Or.inr (hafter _ hin)

/-- C27: on every in-progress board reachable from `New()` on which it is the engine's
turn and some `Empty` cell immediately completes a line for the engine, the `Hard` tier
(depth 4) and the `INeverLose` tier (depth 10) return an immediately winning cell, the
first one in row-major order: its score is `10 + depth`, strictly greater than the score
of every available move that does not win at once. -/
theorem search_tiers_take_win (tier : Difficulty) (p : Player) (rnd : Draws) (g : Game)
    (hr : Reachable g) (hs : g.Status = StatusPlaying) (hcp : g.CurrentPlayer = p)
    (hw : ∃ r c : Fin 3, winsAt g.Board p r c) :
    (tier = Hard → PicksFirstWin (ai.New tier p) rnd g 4) ∧
    (tier = INeverLose → PicksFirstWin (ai.New tier p) rnd g 10) := by
  have hno := Reachable_playing_checkWinner g hr hs
  obtain ⟨rw, cw, hwin⟩ := hw
  have hne := GetAvailableMoves_ne_nil g rw cw hwin.1
  constructor
  · rintro rfl
    obtain ⟨r, c, h1, h2, h3, h4⟩ := bestMoveLoop_win (ai.New Hard p) 4 g (by decide) hs hno
      hcp ⟨rw, cw, hwin⟩
    refine ⟨r, c, ?_, h3, h4, moveScore_win _ 4 g r c hs hno hcp h3,
      fun r2 c2 he hnw => moveScore_nonwin _ 4 g r2 c2 hs hno hcp he hnw⟩
    rw [GetMove_Hard _ rnd g rfl hne]
    unfold getHardMove
    dsimp only
    rw [if_neg h2, h1]
    rfl
  · rintro rfl
    obtain ⟨r, c, h1, h2, h3, h4⟩ := bestMoveLoop_win (ai.New INeverLose p) 10 g (by decide)
      hs hno hcp ⟨rw, cw, hwin⟩
    refine ⟨r, c, ?_, h3, h4, moveScore_win _ 10 g r c hs hno hcp h3,
      fun r2 c2 he hnw => moveScore_nonwin _ 10 g r2 c2 hs hno hcp he hnw⟩
    rw [GetMove_INeverLose _ rnd g rfl hne]
    unfold getPerfectMove
    dsimp only
    rw [if_neg h2, h1]
    rfl

/-- C27 witness: the `Hard` engine playing `X` after `X (0,0)`, `O (1,0)`, `X (0,1)`,
`O (1,1)`. -/
theorem search_tiers_take_win_witness :
    PicksFirstWin (ai.New Hard PlayerX) ⟨false, 0⟩
      (applyMoves game.New [⟨0, 0⟩, ⟨1, 0⟩, ⟨0, 1⟩, ⟨1, 1⟩]) 4 :=
  (search_tiers_take_win Hard PlayerX ⟨false, 0⟩
    (applyMoves game.New [⟨0, 0⟩, ⟨1, 0⟩, ⟨0, 1⟩, ⟨1, 1⟩])
    (Reachable.move _ 1 1 (Reachable.move _ 0 1 (Reachable.move _ 1 0
      (Reachable.move _ 0 0 Reachable.init))))
    (by decide!) (by decide!) ⟨0, 2, by unfold winsAt; decide!⟩).1 rfl

end ai

namespace game

theorem lineDone_iff (b : Board) (l : List (Fin 3 × Fin 3)) :
    lineDone b l = true ↔ ∃ p, lineComplete b l p := by
  unfold lineDone lineComplete
  simp only [Bool.or_eq_true, List.all_eq_true, decide_eq_true_eq]
  constructor
  · rintro (h | h)
    · exact ⟨PlayerX, by decide, h⟩
    · exact ⟨PlayerO, by decide, h⟩
  · rintro ⟨p, hp, h⟩
    cases p
    · exact Or.inl h
    · exact Or.inr h
    · exact absurd rfl hp

theorem lines_ne_nil (l : List (Fin 3 × Fin 3)) (hl : l ∈ lines) :
    ∃ rc rest, l = rc :: rest := by
  have h : ∀ l ∈ lines, l ≠ [] := by decide
  cases l with
  | nil => exact absurd rfl (h _ hl)
  | cons rc rest => exact ⟨rc, rest, rfl⟩

/-- A line that is complete after a cell of a board without complete line has been
filled passes through that cell and holds the mark put there. -/
theorem lineComplete_setCell (g : Game) (r c : Fin 3) (q p : Player)
    (l : List (Fin 3 × Fin 3)) (hl : l ∈ lines) (hno : checkWinner g = Empty)
    (h : lineComplete (g.Board.setCell r c q) l p) : (r, c) ∈ l ∧ p = q := by
  by_cases hin : (r, c) ∈ l
  · refine ⟨hin, ?_⟩
    have := h.2 _ hin
    rw [cell_setCell_same] at this
    exact this.symm
  · exfalso
    have hline : hasLine g.Board := by
      refine ⟨l, hl, p, h.1, fun rc hrc => ?_⟩
      have h1 := h.2 rc hrc
      have hne : rc ≠ (r, c) := fun h => hin (h ▸ hrc)
      rwa [cell_setCell_other _ _ _ _ _ _ hne] at h1
    exact (checkWinner_ne_Empty_iff g).mpr hline hno

/-- In every reachable state all complete lines hold the same mark. -/
theorem Reachable_lines_same_mark (g : Game) (h : Reachable g)
    (l1 l2 : List (Fin 3 × Fin 3)) (hl1 : l1 ∈ lines) (hl2 : l2 ∈ lines) (p1 p2 : Player)
    (h1 : lineComplete g.Board l1 p1) (h2 : lineComplete g.Board l2 p2) : p1 = p2 := by
  induction h with
  | init =>
    exfalso
    have hline : hasLine New.Board := ⟨l1, hl1, p1, h1⟩
    exact (checkWinner_ne_Empty_iff New).mpr hline (by decide)
  | move g row col hr ih =>
    by_cases hok : (MakeMove g row col).1 = none
    · obtain ⟨hs, -, -⟩ := (MakeMove_fst_eq_none_iff g row col).mp hok
      have hB := MakeMove_ok_Board g row col hok
      have hno := Reachable_playing_checkWinner g hr hs
      rw [hB] at h1 h2
      rw [(lineComplete_setCell g _ _ _ p1 l1 hl1 hno h1).2,
        (lineComplete_setCell g _ _ _ p2 l2 hl2 hno h2).2]
    · rw [MakeMove_snd_of_rejected g row col hok] at h1 h2
      exact ih h1 h2

/-- In every reachable state `Winner` is what `checkWinner` reports on the board. -/
theorem Reachable_Winner_eq (g : Game) (h : Reachable g) : g.Winner = checkWinner g := by
  induction h with
  | init => decide
  | move g row col hr ih =>
    by_cases hok : (MakeMove g row col).1 = none
    · obtain ⟨hs, -, -⟩ := (MakeMove_fst_eq_none_iff g row col).mp hok
      rw [MakeMove_ok_Winner g row col hok]
      by_cases hcw : checkWinner (MakeMove g row col).2 ≠ Empty
      · rw [if_pos hcw]
      · rw [if_neg hcw, ih, Reachable_playing_checkWinner g hr hs]
        exact (not_not.mp hcw).symm
    · rw [MakeMove_snd_of_rejected g row col hok]
      exact ih

/-- C29: in every game state reachable from `New()`, all complete lines (three identical
non-`Empty` marks) hold the same mark; so `checkWinner` reports the mark of every
complete line, whatever the order in which the eight lines are scanned the first
complete line found has the mark `checkWinner` reports, and `Winner` is that mark:
the winner is never ambiguous between `PlayerX` and `PlayerO`. -/
theorem winner_unambiguous (g : Game) (h : Reachable g) :
    (∀ l1 ∈ lines, ∀ l2 ∈ lines, ∀ p1 p2 : Player,
      lineComplete g.Board l1 p1 → lineComplete g.Board l2 p2 → p1 = p2) ∧
    (∀ l ∈ lines, ∀ p : Player, lineComplete g.Board l p →
      checkWinner g = p ∧ g.Winner = p) ∧
    (∀ order : List (List (Fin 3 × Fin 3)), (∀ l, l ∈ order ↔ l ∈ lines) →
      winnerInOrder order g.Board = checkWinner g) ∧
    g.Winner = checkWinner g := by
  have hsame : ∀ l ∈ lines, ∀ p : Player, lineComplete g.Board l p → checkWinner g = p := by
    intro l hl p hp
    rcases checkWinner_spec g with ⟨_, hnl⟩ | ⟨l2, hl2, hc2⟩
    · exact absurd ⟨l, hl, p, hp⟩ hnl
    · exact Reachable_lines_same_mark g h l2 l hl2 hl _ _ hc2 hp
  have hW := Reachable_Winner_eq g h
  refine ⟨fun l1 hl1 l2 hl2 p1 p2 h1 h2 =>
      Reachable_lines_same_mark g h l1 l2 hl1 hl2 p1 p2 h1 h2,
    fun l hl p hp => ⟨hsame l hl p hp, hW.trans (hsame l hl p hp)⟩, ?_, hW⟩
  intro order hord
  unfold winnerInOrder
  cases hf : order.find? (lineDone g.Board) with
  | none =>
    have hnone : ¬ hasLine g.Board := by
      rintro ⟨l, hl, p, hp⟩
      have := List.find?_eq_none.mp hf l ((hord l).mpr hl)
      exact this ((lineDone_iff g.Board l).mpr ⟨p, hp⟩)
    have := (checkWinner_ne_Empty_iff g).not.mpr hnone
    exact (not_not.mp this).symm
  | some l =>
    have hl : l ∈ lines := (hord l).mp (List.mem_of_find?_eq_some hf)
    have hd : lineDone g.Board l = true := List.find?_some hf
    obtain ⟨p, hp⟩ := (lineDone_iff g.Board l).mp hd
    obtain ⟨rc, rest, rfl⟩ := lines_ne_nil l hl
    show g.Board.cell rc.1 rc.2 = checkWinner g
    rw [hsame _ hl p hp]
    exact hp.2 rc (List.mem_cons_self _ _)

/-- C29 witness: the won state after `X (0,0)`, `O (1,0)`, `X (0,1)`, `O (1,1)`,
`X (0,2)`. -/
theorem winner_unambiguous_witness :
    (∀ l1 ∈ lines, ∀ l2 ∈ lines, ∀ p1 p2 : Player,
      lineComplete (applyMoves New [⟨0, 0⟩, ⟨1, 0⟩, ⟨0, 1⟩, ⟨1, 1⟩, ⟨0, 2⟩]).Board l1 p1 →
      lineComplete (applyMoves New [⟨0, 0⟩, ⟨1, 0⟩, ⟨0, 1⟩, ⟨1, 1⟩, ⟨0, 2⟩]).Board l2 p2 →
      p1 = p2) ∧
    (∀ l ∈ lines, ∀ p : Player,
      lineComplete (applyMoves New [⟨0, 0⟩, ⟨1, 0⟩, ⟨0, 1⟩, ⟨1, 1⟩, ⟨0, 2⟩]).Board l p →
      checkWinner (applyMoves New [⟨0, 0⟩, ⟨1, 0⟩, ⟨0, 1⟩, ⟨1, 1⟩, ⟨0, 2⟩]) = p ∧
        (applyMoves New [⟨0, 0⟩, ⟨1, 0⟩, ⟨0, 1⟩, ⟨1, 1⟩, ⟨0, 2⟩]).Winner = p) ∧
    (∀ order : List (List (Fin 3 × Fin 3)), (∀ l, l ∈ order ↔ l ∈ lines) →
      winnerInOrder order (applyMoves New [⟨0, 0⟩, ⟨1, 0⟩, ⟨0, 1⟩, ⟨1, 1⟩, ⟨0, 2⟩]).Board =
        checkWinner (applyMoves New [⟨0, 0⟩, ⟨1, 0⟩, ⟨0, 1⟩, ⟨1, 1⟩, ⟨0, 2⟩])) ∧
    (applyMoves New [⟨0, 0⟩, ⟨1, 0⟩, ⟨0, 1⟩, ⟨1, 1⟩, ⟨0, 2⟩]).Winner =
      checkWinner (applyMoves New [⟨0, 0⟩, ⟨1, 0⟩, ⟨0, 1⟩, ⟨1, 1⟩, ⟨0, 2⟩]) :=
  winner_unambiguous (applyMoves New [⟨0, 0⟩, ⟨1, 0⟩, ⟨0, 1⟩, ⟨1, 1⟩, ⟨0, 2⟩])
    (Reachable.move _ 0 2 (Reachable.move _ 1 1 (Reachable.move _ 0 1 (Reachable.move _ 1 0
      (Reachable.move _ 0 0 Reachable.init)))))

end game

namespace game

theorem Reachable_ReachableR (g : Game) (h : Reachable g) : ReachableR g := by
  induction h with
  | init => exact ReachableR.init
  | move g row col _ ih => exact ReachableR.move g row col ih

/-- On a board reached from `New()` there are at most five `PlayerX` and at most four
`PlayerO`. -/
theorem Reachable_countMark_le (g : Game) (h : Reachable g) (q : Player) (hq : q ≠ Empty) :
    countMark g.Board q ≤ 5 := by
  have hbal := (ReachableR_balance g (Reachable_ReachableR g h)).2
  have hsum : countMark g.Board PlayerX + countMark g.Board PlayerO ≤ 9 := by
    have h1 := List.length_eq_countP_add_countP
      (fun rc : Fin 3 × Fin 3 => decide (g.Board.cell rc.1 rc.2 = PlayerX)) ai.allCells
    have h9 : ai.allCells.length = 9 := rfl
    have h2 : countMark g.Board PlayerO ≤
        ai.allCells.countP
          (fun a => decide ¬ decide (g.Board.cell a.1 a.2 = PlayerX) = true) := by
      unfold countMark
      apply List.countP_mono_left
      intro rc _ hrc
      simp only [decide_eq_true_eq] at hrc
      simp [hrc]
    have hX : countMark g.Board PlayerX =
        ai.allCells.countP (fun rc => decide (g.Board.cell rc.1 rc.2 = PlayerX)) := rfl
    omega
  cases q
  · omega
  · omega
  · exact absurd rfl hq

/-- Three lines full of the same mark need at least six cells with that mark. -/
theorem three_lines_six_cells (b : Board) (q : Player)
    (h : 3 ≤ lines.countP (fun l => l.all (fun rc => decide (b.cell rc.1 rc.2 = q)))) :
    6 ≤ countMark b q := by
  obtain ⟨⟨a0, a1, a2⟩, ⟨b0, b1, b2⟩, ⟨c0, c1, c2⟩⟩ := b
  revert h
  simp only [countMark, ai.allCells, lines, List.countP_cons, List.countP_nil, List.all_cons,
    List.all_nil, Board.cell, Arr3.get, Bool.and_true]
  generalize decide (a0 = q) = A0
  generalize decide (a1 = q) = A1
  generalize decide (a2 = q) = A2
  generalize decide (b0 = q) = B0
  generalize decide (b1 = q) = B1
  generalize decide (b2 = q) = B2
  generalize decide (c0 = q) = C0
  generalize decide (c1 = q) = C1
  generalize decide (c2 = q) = C2
  revert A0 A1 A2 B0 B1 B2 C0 C1 C2
  decide

/-- A line newly completed by filling a cell of a board without complete line is full of
the mark put there. -/
theorem newly_done_all (g : Game) (r c : Fin 3) (q : Player) (l : List (Fin 3 × Fin 3))
    (hl : l ∈ lines) (hno : checkWinner g = Empty)
    (h : lineDone (g.Board.setCell r c q) l = true) :
    l.all (fun rc => decide ((g.Board.setCell r c q).cell rc.1 rc.2 = q)) = true := by
  obtain ⟨p, hp⟩ := (lineDone_iff _ l).mp h
  obtain ⟨_, hpq⟩ := lineComplete_setCell g r c q p l hl hno hp
  rw [List.all_eq_true]
  intro rc hrc
  rw [decide_eq_true_eq]
  have h2 := hp.2 rc hrc
  rw [hpq] at h2
  exact h2

/-- C28, as the code has it: for every in-progress state reachable from `New()` and
every accepted move, at most two of the eight lines (3 rows, 3 columns, 2 diagonals) are
newly completed (three identical non-`Empty` marks) by that single move. -/
theorem at_most_two_lines_completed (g : Game) (row col : Int) (h : Reachable g)
    (hs : g.Status = StatusPlaying) (hok : (MakeMove g row col).1 = none) :
    (newlyCompleted g.Board (MakeMove g row col).2.Board).length ≤ 2 := by
  have hno := Reachable_playing_checkWinner g h hs
  have hB := MakeMove_ok_Board g row col hok
  have hq : g.CurrentPlayer ≠ Empty := (ai.Reachable_Wf g h).1
  have hcount := Reachable_countMark_le (MakeMove g row col).2 (Reachable.move g row col h)
    g.CurrentPlayer hq
  rw [hB] at hcount ⊢
  unfold newlyCompleted
  rw [← List.countP_eq_length_filter]
  by_contra hgt
  have hmono : lines.countP (fun l =>
        lineDone (g.Board.setCell (toIdx row) (toIdx col) g.CurrentPlayer) l &&
          !lineDone g.Board l) ≤
      lines.countP (fun l => l.all (fun rc =>
        decide ((g.Board.setCell (toIdx row) (toIdx col) g.CurrentPlayer).cell rc.1 rc.2 =
          g.CurrentPlayer))) := by
    apply List.countP_mono_left
    intro l hl hnew
    simp only [Bool.and_eq_true] at hnew
    exact newly_done_all g _ _ _ l hl hno hnew.1
  have h3 : 3 ≤ lines.countP (fun l => l.all (fun rc =>
      decide ((g.Board.setCell (toIdx row) (toIdx col) g.CurrentPlayer).cell rc.1 rc.2 =
        g.CurrentPlayer))) := by
    omega
  have := three_lines_six_cells _ _ h3
  omega

/-- C28 witness: the winning move `X (0,2)` after `X (0,0)`, `O (1,0)`, `X (0,1)`,
`O (1,1)`. -/
theorem at_most_two_lines_completed_witness :
    (newlyCompleted (applyMoves New [⟨0, 0⟩, ⟨1, 0⟩, ⟨0, 1⟩, ⟨1, 1⟩]).Board
      (MakeMove (applyMoves New [⟨0, 0⟩, ⟨1, 0⟩, ⟨0, 1⟩, ⟨1, 1⟩]) 0 2).2.Board).length ≤ 2 :=
  at_most_two_lines_completed (applyMoves New [⟨0, 0⟩, ⟨1, 0⟩, ⟨0, 1⟩, ⟨1, 1⟩]) 0 2
    (Reachable.move _ 1 1 (Reachable.move _ 0 1 (Reachable.move _ 1 0
      (Reachable.move _ 0 0 Reachable.init))))
    (by decide!) (by decide!)

/-- C28 as stated fails: after `X (0,0)`, `O (1,0)`, `X (0,1)`, `O (1,1)`, `X (1,2)`,
`O (2,0)`, `X (2,2)`, `O (2,1)` the game is in progress, and the accepted move `X (0,2)`
completes both row 0 and column 2. -/
theorem one_move_completes_two_lines :
    Reachable (applyMoves New
      [⟨0, 0⟩, ⟨1, 0⟩, ⟨0, 1⟩, ⟨1, 1⟩, ⟨1, 2⟩, ⟨2, 0⟩, ⟨2, 2⟩, ⟨2, 1⟩]) ∧
    (applyMoves New
      [⟨0, 0⟩, ⟨1, 0⟩, ⟨0, 1⟩, ⟨1, 1⟩, ⟨1, 2⟩, ⟨2, 0⟩, ⟨2, 2⟩, ⟨2, 1⟩]).Status =
        StatusPlaying ∧
    (MakeMove (applyMoves New
      [⟨0, 0⟩, ⟨1, 0⟩, ⟨0, 1⟩, ⟨1, 1⟩, ⟨1, 2⟩, ⟨2, 0⟩, ⟨2, 2⟩, ⟨2, 1⟩]) 0 2).1 = none ∧
    newlyCompleted (applyMoves New
        [⟨0, 0⟩, ⟨1, 0⟩, ⟨0, 1⟩, ⟨1, 1⟩, ⟨1, 2⟩, ⟨2, 0⟩, ⟨2, 2⟩, ⟨2, 1⟩]).Board
      (MakeMove (applyMoves New
        [⟨0, 0⟩, ⟨1, 0⟩, ⟨0, 1⟩, ⟨1, 1⟩, ⟨1, 2⟩, ⟨2, 0⟩, ⟨2, 2⟩, ⟨2, 1⟩]) 0 2).2.Board =
      [[(0, 0), (0, 1), (0, 2)], [(0, 2), (1, 2), (2, 2)]] :=
  ⟨Reachable.move _ 2 1 (Reachable.move _ 2 2 (Reachable.move _ 2 0 (Reachable.move _ 1 2
      (Reachable.move _ 1 1 (Reachable.move _ 0 1 (Reachable.move _ 1 0
        (Reachable.move _ 0 0 Reachable.init))))))),
    by decide!, by decide!, by decide!⟩

end game

namespace ai

open game

theorem findWinningMove_eq_neg_iff (g : Game) (p : Player) :
    findWinningMove g p = (-1, -1) ↔ (findWinningMove g p).1 = -1 := by
  constructor
  · intro h
    rw [h]
  · intro h
    rw [findWinningMove_eq] at h ⊢
    cases hf : lineFns.findSome? (hitCell g.Board p) with
    | none => rfl
    | some rc =>
      rw [hf] at h
      have h1 : (rc.1.val : Int) = -1 := h
      omega

/-- On a board with no complete line, filling the `Empty` cell `(r, c)` with the mark `p`
makes `checkWinner` return `p` exactly when the cell completes a line for `p`. -/
theorem checkWinner_fill_iff (g : Game) (p : Player) (r c : Fin 3)
    (hp : p ≠ Player.Empty) (hno : checkWinner g = Player.Empty)
    (he : g.Board.cell r c = Player.Empty) :
    checkWinner { g with Board := g.Board.setCell r c p } = p ↔ winsAt g.Board p r c := by
  constructor
  · intro hcw
    rcases checkWinner_spec { g with Board := g.Board.setCell r c p } with ⟨h1, _⟩ | ⟨l, hl, hc⟩
    · rw [h1] at hcw
      exact absurd hcw.symm hp
    · rw [hcw] at hc
      have hc2 : lineComplete (g.Board.setCell r c p) l p := hc
      obtain ⟨hin, _⟩ := lineComplete_setCell g r c p p l hl hno hc2
      refine ⟨he, hp, l, hl, hin, ?_⟩
      intro rc hrc hne
      have := hc2.2 rc hrc
      rwa [cell_setCell_other _ _ _ _ _ _ hne] at this
  · rintro ⟨_, _, l, hl, hin, hall⟩
    have hline : hasLine ({ g with Board := g.Board.setCell r c p } : Game).Board := by
      refine ⟨l, hl, p, hp, fun rc hrc => ?_⟩
      show (g.Board.setCell r c p).cell rc.1 rc.2 = p
      by_cases hrc2 : rc = (r, c)
      · rw [hrc2, cell_setCell_same]
      · rw [cell_setCell_other _ _ _ _ _ _ hrc2]
        exact hall rc hrc hrc2
    have hne := (checkWinner_ne_Empty_iff _).mpr hline
    rcases checkWinner_setCell g { g with Board := g.Board.setCell r c p } r c p rfl hno
      with h | h
    · exact absurd h hne
    · exact h

/-- C30, as the code has it: `findWinningMove` is sound and complete with respect to the
board engine's win rule on boards with no complete line. For every such board and mark
`p` in `PlayerX`, `PlayerO`, `findWinningMove(g, p)` differs from `(-1, -1)` if and only
if there is an `Empty` cell that, once filled with `p`, makes `checkWinner` return `p`;
and whenever it returns a cell, that cell is `Empty` and filling it with `p` makes
`checkWinner` return `p`, so on an in-progress board with `CurrentPlayer = p`, `MakeMove`
on it yields `StatusWon` with `Winner = p`. -/
theorem findWinningMove_sound_complete (g : Game) (p : Player)
    (hp : p = PlayerX ∨ p = PlayerO) (hno : checkWinner g = Player.Empty) :
    (findWinningMove g p ≠ (-1, -1) ↔
      ∃ r c : Fin 3, g.Board.cell r c = Player.Empty ∧
        checkWinner { g with Board := g.Board.setCell r c p } = p) ∧
    (findWinningMove g p ≠ (-1, -1) →
      ∃ r c : Fin 3, findWinningMove g p = ((r.val : Int), (c.val : Int)) ∧
        g.Board.cell r c = Player.Empty ∧
        checkWinner { g with Board := g.Board.setCell r c p } = p ∧
        (g.Status = StatusPlaying → g.CurrentPlayer = p →
          (MakeMove g (r.val : Int) (c.val : Int)).1 = none ∧
          (MakeMove g (r.val : Int) (c.val : Int)).2.Status = StatusWon ∧
          (MakeMove g (r.val : Int) (c.val : Int)).2.Winner = p)) := by
  have hpe : p ≠ Player.Empty := by
    rcases hp with rfl | rfl <;> decide
  have hsound : findWinningMove g p ≠ (-1, -1) →
      ∃ r c : Fin 3, findWinningMove g p = ((r.val : Int), (c.val : Int)) ∧
        winsAt g.Board p r c := by
    intro h
    exact findWinningMove_sound g p (fun h1 => h ((findWinningMove_eq_neg_iff g p).mpr h1))
  constructor
  · constructor
    · intro h
      obtain ⟨r, c, _, hw⟩ := hsound h
      exact ⟨r, c, hw.1, (checkWinner_fill_iff g p r c hpe hno hw.1).mpr hw⟩
    · rintro ⟨r, c, he, hcw⟩ h
      have hw := (checkWinner_fill_iff g p r c hpe hno he).mp hcw
      exact findWinningMove_complete g p r c hw ((findWinningMove_eq_neg_iff g p).mp h)
  · intro h
    obtain ⟨r, c, heq, hw⟩ := hsound h
    exact ⟨r, c, heq, hw.1, (checkWinner_fill_iff g p r c hpe hno hw.1).mpr hw,
      fun hs hcp => MakeMove_wins g p r c hs hcp hno hw⟩

/-- C30 witness: `PlayerX` on the board after `X (0,0)`, `O (1,0)`, `X (0,1)`,
`O (1,1)`. -/
theorem findWinningMove_sound_complete_witness :
    findWinningMove (applyMoves game.New [⟨0, 0⟩, ⟨1, 0⟩, ⟨0, 1⟩, ⟨1, 1⟩]) PlayerX ≠ (-1, -1) ↔
      ∃ r c : Fin 3,
        (applyMoves game.New [⟨0, 0⟩, ⟨1, 0⟩, ⟨0, 1⟩, ⟨1, 1⟩]).Board.cell r c = Player.Empty ∧
        checkWinner { applyMoves game.New [⟨0, 0⟩, ⟨1, 0⟩, ⟨0, 1⟩, ⟨1, 1⟩] with
          Board := (applyMoves game.New [⟨0, 0⟩, ⟨1, 0⟩, ⟨0, 1⟩, ⟨1, 1⟩]).Board.setCell r c
            PlayerX } = PlayerX :=
  (findWinningMove_sound_complete (applyMoves game.New [⟨0, 0⟩, ⟨1, 0⟩, ⟨0, 1⟩, ⟨1, 1⟩])
    PlayerX (Or.inl rfl) (by decide!)).1

/-- C30 as stated fails on boards that already hold a complete line: on the board of the
game `X (1,0)`, `O (0,0)`, `X (1,1)`, `O (0,1)`, `X (2,0)`, `O (0,2)`, won by `O` on
row 0, `findWinningMove` for `PlayerX` returns the `Empty` cell `(1, 2)`, and with that
cell filled with `PlayerX` `checkWinner` returns `PlayerO`. -/
theorem findWinningMove_cell_on_won_board :
    findWinningMove (applyMoves game.New [⟨1, 0⟩, ⟨0, 0⟩, ⟨1, 1⟩, ⟨0, 1⟩, ⟨2, 0⟩, ⟨0, 2⟩])
      PlayerX = (1, 2) ∧
    (applyMoves game.New [⟨1, 0⟩, ⟨0, 0⟩, ⟨1, 1⟩, ⟨0, 1⟩, ⟨2, 0⟩, ⟨0, 2⟩]).Board.cell 1 2 =
      Player.Empty ∧
    checkWinner { applyMoves game.New [⟨1, 0⟩, ⟨0, 0⟩, ⟨1, 1⟩, ⟨0, 1⟩, ⟨2, 0⟩, ⟨0, 2⟩] with
      Board := (applyMoves game.New
        [⟨1, 0⟩, ⟨0, 0⟩, ⟨1, 1⟩, ⟨0, 1⟩, ⟨2, 0⟩, ⟨0, 2⟩]).Board.setCell 1 2 PlayerX } =
      PlayerO :=
  ⟨by decide!, by decide!, by decide!⟩

end ai

namespace ai

open game

theorem wrap64_of_range (n : Int) (h1 : -9223372036854775808 ≤ n)
    (h2 : n ≤ 9223372036854775807) : wrap64 n = n := by
  unfold wrap64
  omega

/-- The first three tests of `minimax`, which need no recursion. -/
theorem minimax64_head (a : AI) (g : Game) (fuel : Nat) (depth : Int) (m : Bool) :
    (g.Status = StatusWon → g.Winner = a.player →
      minimax64 a g fuel depth m = some (wrap64 (10 + depth))) ∧
    (g.Status = StatusWon → g.Winner ≠ a.player →
      minimax64 a g fuel depth m = some (wrap64 (-10 - depth))) ∧
    (g.Status = StatusDraw → minimax64 a g fuel depth m = some 0) ∧
    (g.Status = StatusPlaying → depth = 0 → minimax64 a g fuel depth m = some 0) := by
  refine ⟨?_, ?_, ?_, ?_⟩
  · intro hs hw
    cases fuel <;> rw [minimax64, if_pos hs, if_pos hw]
  · intro hs hw
    cases fuel <;> rw [minimax64, if_pos hs, if_neg hw]
  · intro hs
    have h1 : ¬ g.Status = StatusWon := by rw [hs]; decide
    cases fuel <;> rw [minimax64, if_neg h1, if_pos hs]
  · intro hs hd
    have h1 : ¬ g.Status = StatusWon := by rw [hs]; decide
    have h2 : ¬ g.Status = StatusDraw := by rw [hs]; decide
    cases fuel <;> rw [minimax64, if_neg h1, if_neg h2, if_pos hd]

theorem minimax64_succ_playing (a : AI) (g : Game) (f : Nat) (depth : Int) (m : Bool)
    (hs : g.Status = StatusPlaying) (hd : depth ≠ 0) :
    minimax64 a g (f + 1) depth m =
      if m then
        (GetAvailableMoves g).foldl (fun maxScore move =>
          match maxScore,
            minimax64 a (MakeMove (copyGame g) move.Row move.Col).2 f (wrap64 (depth - 1))
              false with
          | some s, some v => some (max s v)
          | _, _ => none) (some (-1000))
      else
        (GetAvailableMoves g).foldl (fun minScore move =>
          match minScore,
            minimax64 a (MakeMove (copyGame g) move.Row move.Col).2 f (wrap64 (depth - 1))
              true with
          | some s, some v => some (min s v)
          | _, _ => none) (some 1000) := by
  have h1 : ¬ g.Status = StatusWon := by rw [hs]; decide
  have h2 : ¬ g.Status = StatusDraw := by rw [hs]; decide
  rw [minimax64, if_neg h1, if_neg h2, if_neg hd]

/-- Within the range where `10 + depth` does not overflow, and given fuel for `depth`
plies, the 64-bit `minimax` returns the value of the unbounded model `minimax`. -/
theorem minimax64_eq_minimax (a : AI) (fuel : Nat) (g : Game) (d : Nat) (m : Bool)
    (hf : d ≤ fuel) (hd : (d : Int) ≤ 9223372036854775797) :
    minimax64 a g fuel (d : Int) m = some (minimax a g d m) := by
  induction fuel generalizing g d m with
  | zero =>
    have hd0 : d = 0 := Nat.le_zero.mp hf
    subst hd0
    rw [minimax_zero]
    obtain ⟨h1, h2, h3, h4⟩ := minimax64_head a g 0 ((0 : Nat) : Int) m
    cases hst : g.Status with
    | StatusWon =>
      by_cases hw : g.Winner = a.player
      · rw [h1 hst hw, if_pos rfl, if_pos hw, wrap64_of_range _ (by omega) (by omega)]
      · rw [h2 hst hw, if_pos rfl, if_neg hw, wrap64_of_range _ (by omega) (by omega)]
    | StatusDraw =>
      rw [h3 hst, if_neg (by decide), if_pos rfl]
    | StatusPlaying =>
      rw [h4 hst rfl, if_neg (by decide), if_neg (by decide)]
  | succ f ih =>
    obtain ⟨h1, h2, h3, h4⟩ := minimax64_head a g (f + 1) (d : Int) m
    cases hst : g.Status with
    | StatusWon =>
      by_cases hw : g.Winner = a.player
      · rw [h1 hst hw, minimax_of_won a g d m hst hw,
          wrap64_of_range _ (by omega) (by omega)]
      · rw [h2 hst hw, minimax_of_lost a g d m hst hw,
          wrap64_of_range _ (by omega) (by omega)]
    | StatusDraw =>
      rw [h3 hst]
      cases d with
      | zero => rw [minimax_zero, if_neg (by rw [hst]; decide), if_pos hst]
      | succ d => rw [minimax_succ, if_neg (by rw [hst]; decide), if_pos hst]
    | StatusPlaying =>
      cases d with
      | zero =>
        rw [h4 hst rfl, minimax_zero, if_neg (by rw [hst]; decide),
          if_neg (by rw [hst]; decide)]
      | succ d =>
        have hne : ((d + 1 : Nat) : Int) ≠ 0 := by omega
        have hpred : wrap64 (((d + 1 : Nat) : Int) - 1) = (d : Int) := by
          rw [wrap64_of_range _ (by omega) (by omega)]
          omega
        rw [minimax64_succ_playing a g f _ m hst hne, minimax_succ_playing a g d m hst, hpred]
        cases m with
        | true =>
          simp only [if_true]
          exact foldl_option_eq max _ _ _ _
            (fun x _ => ih _ d false (by omega) (by omega))
        | false =>
          simp only [Bool.false_eq_true, if_false]
          exact foldl_option_eq min _ _ _ _
            (fun x _ => ih _ d true (by omega) (by omega))

/-- C17, as the code has it: for every game state `g`, depth `d >= 0` and flag `m`,
`minimax(g, d, m)`, computed in Go's 64-bit `int`, returns `10 + d` when `g` is
`StatusWon` with `Winner` the engine's mark and `d <= 9223372036854775797`, `-10 - d`
when `g` is `StatusWon` with any other `Winner` and `d <= 9223372036854775798`, `0` when
`g` is `StatusDraw`, and `0` when `g` is `StatusPlaying` and `d = 0`; these results need
no recursion (any `fuel`). The terminal checks come before the depth check, so a won
position at depth `0` scores `10` or `-10`, not `0`. -/
theorem minimax64_terminal (a : AI) (g : Game) (fuel : Nat) (d : Int) (m : Bool)
    (h0 : 0 ≤ d) :
    (g.Status = StatusWon → g.Winner = a.player → d ≤ 9223372036854775797 →
      minimax64 a g fuel d m = some (10 + d)) ∧
    (g.Status = StatusWon → g.Winner ≠ a.player → d ≤ 9223372036854775798 →
      minimax64 a g fuel d m = some (-10 - d)) ∧
    (g.Status = StatusDraw → minimax64 a g fuel d m = some 0) ∧
    (g.Status = StatusPlaying → d = 0 → minimax64 a g fuel d m = some 0) ∧
    (g.Status = StatusWon → g.Winner = a.player → minimax64 a g fuel 0 m = some 10) ∧
    (g.Status = StatusWon → g.Winner ≠ a.player → minimax64 a g fuel 0 m = some (-10)) := by
  obtain ⟨h1, h2, h3, h4⟩ := minimax64_head a g fuel d m
  obtain ⟨k1, k2, _, _⟩ := minimax64_head a g fuel 0 m
  refine ⟨?_, ?_, h3, h4, ?_, ?_⟩
  · intro hs hw hd
    rw [h1 hs hw, wrap64_of_range _ (by omega) (by omega)]
  · intro hs hw hd
    rw [h2 hs hw, wrap64_of_range _ (by omega) (by omega)]
  · intro hs hw
    rw [k1 hs hw]
    rfl
  · intro hs hw
    rw [k2 hs hw]
    rfl

/-- C17 witness: the position won by `X` after `X (0,0)`, `O (1,0)`, `X (0,1)`,
`O (1,1)`, `X (0,2)`, at depth `4` for the engine playing `X`, and at depth `0`. -/
theorem minimax64_terminal_witness :
    minimax64 (ai.New Hard PlayerX)
      (applyMoves game.New [⟨0, 0⟩, ⟨1, 0⟩, ⟨0, 1⟩, ⟨1, 1⟩, ⟨0, 2⟩]) 0 4 false = some (10 + 4) ∧
    minimax64 (ai.New Hard PlayerX)
      (applyMoves game.New [⟨0, 0⟩, ⟨1, 0⟩, ⟨0, 1⟩, ⟨1, 1⟩, ⟨0, 2⟩]) 0 0 false = some 10 :=
  ⟨(minimax64_terminal (ai.New Hard PlayerX)
      (applyMoves game.New [⟨0, 0⟩, ⟨1, 0⟩, ⟨0, 1⟩, ⟨1, 1⟩, ⟨0, 2⟩]) 0 4 false (by decide)).1
      (by decide!) (by decide!) (by decide),
    (minimax64_terminal (ai.New Hard PlayerX)
      (applyMoves game.New [⟨0, 0⟩, ⟨1, 0⟩, ⟨0, 1⟩, ⟨1, 1⟩, ⟨0, 2⟩]) 0 4 false
      (by decide)).2.2.2.2.1 (by decide!) (by decide!)⟩

/-- C17 as stated fails for depths near the largest `int`. On the position won by `X`
after `X (0,0)`, `O (1,0)`, `X (0,1)`, `O (1,1)`, `X (0,2)`: for the engine playing `X`
the depth `9223372036854775807` gives `-9223372036854775799`, not `10 + d`, and already
the depth `9223372036854775798` gives `-9223372036854775808`; for the engine playing `O`
the depth `9223372036854775799` gives `9223372036854775807`, not `-10 - d`. -/
theorem minimax64_wraps_near_max_depth :
    (applyMoves game.New [⟨0, 0⟩, ⟨1, 0⟩, ⟨0, 1⟩, ⟨1, 1⟩, ⟨0, 2⟩]).Status = StatusWon ∧
    (applyMoves game.New [⟨0, 0⟩, ⟨1, 0⟩, ⟨0, 1⟩, ⟨1, 1⟩, ⟨0, 2⟩]).Winner = PlayerX ∧
    minimax64 (ai.New Hard PlayerX)
      (applyMoves game.New [⟨0, 0⟩, ⟨1, 0⟩, ⟨0, 1⟩, ⟨1, 1⟩, ⟨0, 2⟩]) 0
      9223372036854775807 false = some (-9223372036854775799) ∧
    minimax64 (ai.New Hard PlayerX)
      (applyMoves game.New [⟨0, 0⟩, ⟨1, 0⟩, ⟨0, 1⟩, ⟨1, 1⟩, ⟨0, 2⟩]) 0
      9223372036854775798 false = some (-9223372036854775808) ∧
    minimax64 (ai.New Hard PlayerO)
      (applyMoves game.New [⟨0, 0⟩, ⟨1, 0⟩, ⟨0, 1⟩, ⟨1, 1⟩, ⟨0, 2⟩]) 0
      9223372036854775799 false = some 9223372036854775807 :=
  ⟨by decide!, by decide!, by decide!, by decide!, by decide!⟩

end ai
